import Mathlib

/-!
# Hangman (Task3): server, client protocol steps and the word reader

A shallow embedding of `src/Task3/src/hangman-server.c` (with the constants of
`src/Task3/src/hangman-common.h`), of the semaphore steps of
`src/Task3/src/hangman-client.c` and of `readFile` of `src/Task3/src/fileRead.c`, and
theorems about them.  Three functions of the other tasks are embedded as well: `getParity` of
`src/Task1B/client.c`, the cipher (`chiffre`, `encryptChar`, `decryptChar`) of
`src/Task1A/stegit.c` and `trimStr` of `src/Task2/src/websh.c`.

Conventions of the embedding.

* A `char *` that points to a NUL-terminated string is a `List Char`: the bytes
  of the allocation in front of its final terminator.  Reading index
  `s.length` yields the terminator (`charAt`).  `strlen` stops at the first
  NUL, as in C.
* `char obscured_word[MAX_WORD_LENGTH]` is a `List Char` of length
  `MAX_WORD_LENGTH` (`Game.wf`); every access is checked against
  `MAX_WORD_LENGTH` and an access outside the array is the fault
  `Fault.outOfBounds`.
* `unsigned int` values are naturals below `UINT_RANGE`; `errors++` wraps.
* `rand()` is a parameter of `new_game`; `malloc`/`calloc` are taken to succeed.
* A semaphore is its counter; a step of a process is what it does between two calls that can
  block, and a step whose wait would block is `none`.
* `uint16_t` values are naturals below `UINT16_RANGE` and `size_t` values naturals below
  `SIZE_RANGE`; the array `trimStr` works on is the `List Char` of its bytes, terminator
  included.
-/

namespace Hangman

/-! ## Constants (hangman-common.h) -/

/-- Constant `MAX_ERROR`: number of errors a client can make until the game is over. -/
abbrev MAX_ERROR : Nat := 9

/-- Constant `MAX_WORD_LENGTH`: size of the word buffers. -/
abbrev MAX_WORD_LENGTH : Nat := 50

/-- Number of values of an `unsigned int` (32 bit). -/
abbrev UINT_RANGE : Nat := 4294967296

/-- The string terminator. -/
abbrev NUL : Char := Char.ofNat 0

/-- The space character, shown immediately in the obscured word. -/
abbrev SPACE : Char := Char.ofNat 32

/-- The mask character of the obscured word. -/
abbrev MASK : Char := '_'

/-- Enumeration `GameStatus`; `New` has the value 0. -/
inductive GameStatus
  | New
  | Open
  | Impossible
  | Lost
  | Won
deriving DecidableEq, Repr

/-- Ways in which the C program stops instead of returning. -/
inductive Fault
  | divByZero
  | outOfBounds
  | nullDeref
  | assertFail
  | exitFailure
deriving DecidableEq, Repr

/-- A C string in memory: the bytes in front of the terminator of its allocation. -/
abbrev Word := List Char

/-! ## C library functions used by the server -/

/-- Byte `s[i]` of a string whose allocation ends with a terminator. -/
def charAt (s : Word) (i : Nat) : Char := s.getD i NUL

/-- The characters of a C string: everything in front of the first NUL. -/
def cstr (s : List Char) : List Char := s.takeWhile (fun c => c != NUL)

/-- Library function `strlen`. -/
def strlen (s : List Char) : Nat := (cstr s).length

/-- Library function `strncmp`: compares at most `n` characters, stops at a terminator; the
result is zero exactly when no difference was found. -/
def strncmp : List Char → List Char → Nat → Int
  | _, _, 0 => 0
  | a, b, n + 1 =>
    if a.headD NUL ≠ b.headD NUL then
      ((a.headD NUL).toNat : Int) - ((b.headD NUL).toNat : Int)
    else if a.headD NUL = NUL then 0
    else strncmp a.tail b.tail n

/-- Library function `strncpy(dst, src, n)`: the first `n` bytes of `dst` become the characters
of `src` (at most `n` of them) padded with terminators; later bytes of `dst` stay. -/
def strncpy (dst : List Char) (src : Word) (n : Nat) : List Char :=
  (cstr src).take n ++ List.replicate (n - strlen src) NUL ++ dst.drop n

/-! ## Data (hangman-server.c) -/

/-- Structure `struct Game`. `secret_word` is `none` for the NULL pointer. -/
structure Game where
  secret_word : Option Word
  obscured_word : List Char
  status : GameStatus
  errors : Nat
deriving DecidableEq, Repr

/-- Structure `struct Client` without the link to the next client; `used_words` is the linked list
of words, head first. -/
structure Client where
  clientID : Int
  used_words : List Word
  current_game : Game
deriving DecidableEq, Repr

/-- The field `obscured_word` is an array of `MAX_WORD_LENGTH` characters and `errors` is an
`unsigned int`. -/
def Game.wf (g : Game) : Prop :=
  g.obscured_word.length = MAX_WORD_LENGTH ∧ g.errors < UINT_RANGE

instance (g : Game) : Decidable g.wf := by
  unfold Game.wf; infer_instance

/-- What `memset(&client->current_game, 0, sizeof (struct Game))` (and `calloc`) leaves. -/
def zeroGame : Game :=
  { secret_word := none
    obscured_word := List.replicate MAX_WORD_LENGTH NUL
    status := GameStatus.New
    errors := 0 }

/-- Assignment `obscured_word[i] = c`. -/
def buf_write (buf : List Char) (i : Nat) (c : Char) : Except Fault (List Char) :=
  if i < MAX_WORD_LENGTH then .ok (buf.set i c) else .error .outOfBounds

/-- Read of `obscured_word[i]`. -/
def buf_read (buf : List Char) (i : Nat) : Except Fault Char :=
  if i < MAX_WORD_LENGTH then .ok (buf.getD i NUL) else .error .outOfBounds

/-! ## contains -/

/-- Function `contains`: whether some node of the list holds a word that `strncmp` finds equal
to `word` over `MAX_WORD_LENGTH` characters. -/
def contains : List Word → Word → Bool
  | [], _ => false
  | node :: next, word =>
    if strncmp node word MAX_WORD_LENGTH = 0 then true else contains next word

/-! ## new_game -/

/-- The `while` loop of `new_game`. The first argument is `word_buffer.length - i`, so the test
`i >= word_buffer.length` is the case `0`. The result is `some pos` when the loop is left with a
word that is not contained, `none` when the function returns with `Impossible`. -/
def new_game_probe (used : List Word) (word_buffer : List Word) :
    Nat → Nat → Except Fault (Option Nat)
  | 0, pos =>
    match word_buffer[pos]? with
    | none => .error .outOfBounds
    | some w => if contains used w then .ok none else .ok (some pos)
  | n + 1, pos =>
    match word_buffer[pos]? with
    | none => .error .outOfBounds
    | some w =>
      if contains used w then
        new_game_probe used word_buffer n ((pos + 1) % word_buffer.length)
      else .ok (some pos)

/-- The `for` loop of `new_game` that fills the obscured word: `n` iterations are left and the
next one is for index `i`. -/
def obscure_loop (secret : Word) : Nat → Nat → List Char → Except Fault (List Char)
  | 0, _, buf => .ok buf
  | n + 1, i, buf =>
    match buf_write buf i (if charAt secret i = SPACE then SPACE else MASK) with
    | .error e => .error e
    | .ok buf1 => obscure_loop secret n (i + 1) buf1

/-- Function `new_game` for the pool `word_buffer`, with `rand` the value `rand()` returns. -/
def new_game (word_buffer : List Word) (rand : Nat) (client : Client) : Except Fault Client :=
  if word_buffer.length = 0 then .error .divByZero
  else
    match new_game_probe client.used_words word_buffer word_buffer.length
        (rand % word_buffer.length) with
    | .error e => .error e
    | .ok none =>
      .ok { client with current_game := { client.current_game with status := GameStatus.Impossible } }
    | .ok (some pos) =>
      match word_buffer[pos]? with
      | none => .error .outOfBounds
      | some secret =>
        let length := strlen secret
        match obscure_loop secret length 0 zeroGame.obscured_word with
        | .error e => .error e
        | .ok buf =>
          match buf_write buf (length + 1) NUL with
          | .error e => .error e
          | .ok buf1 =>
            .ok { client with
                  used_words := secret :: client.used_words
                  current_game :=
                    { secret_word := some secret
                      obscured_word := buf1
                      status := GameStatus.Open
                      errors := 0 } }

/-! ## calculate_results -/

/-- The `for` loop of `calculate_results`: `n` iterations are left, the next one is for index `i`;
the state is the obscured word and the flags `error` and `won`. The right operand of `&&` is
read only when `won` is still true. -/
def calculate_results_loop (secret : Word) (try_ : Char) :
    Nat → Nat → List Char × Bool × Bool → Except Fault (List Char × Bool × Bool)
  | 0, _, st => .ok st
  | n + 1, i, (buf, error, won) =>
    match (if charAt secret i = try_ then
            (buf_write buf i try_).map (fun b => (b, false))
          else .ok (buf, error)) with
    | .error e => .error e
    | .ok (buf1, error1) =>
      match (if won then (buf_read buf1 i).map (fun c => c != MASK) else .ok false) with
      | .error e => .error e
      | .ok won1 => calculate_results_loop secret try_ n (i + 1) (buf1, error1, won1)

/-- Function `calculate_results`. -/
def calculate_results (client : Client) (try_ : Char) : Except Fault Client :=
  match client.current_game.secret_word with
  | none => .error .nullDeref
  | some secret =>
    match calculate_results_loop secret try_ (strlen secret) 0
        (client.current_game.obscured_word, true, true) with
    | .error e => .error e
    | .ok (buf, error, won) =>
      if error then
        let errors := (client.current_game.errors + 1) % UINT_RANGE
        if errors ≥ MAX_ERROR then
          .ok { client with current_game :=
                  { client.current_game with
                    obscured_word := strncpy buf secret MAX_WORD_LENGTH
                    status := GameStatus.Lost
                    errors := errors } }
        else
          .ok { client with current_game :=
                  { client.current_game with obscured_word := buf, errors := errors } }
      else if won then
        .ok { client with current_game :=
                { client.current_game with obscured_word := buf, status := GameStatus.Won } }
      else
        .ok { client with current_game := { client.current_game with obscured_word := buf } }

/-! ## Requests of one session and their dispatch -/

/-- A request as the server sees it for a session: status `New` (with the value `rand()` will
return) or status `Open` with the tried character. -/
inductive Request
  | New (rand : Nat)
  | Guess (letter : Char)
deriving DecidableEq, Repr

/-- The `switch (shared->status)` of `main` for the cases `New` and `Open`. -/
def handle (word_buffer : List Word) (client : Client) : Request → Except Fault Client
  | .New rand => new_game word_buffer rand client
  | .Guess letter => calculate_results client letter

/-- A run of requests for one session. The result is the session after the last request and the
secrets of the new-game requests that left the session `Open`, in the order of the requests. -/
def play (word_buffer : List Word) : Client → List Request → Except Fault (Client × List Word)
  | client, [] => .ok (client, [])
  | client, req :: rest =>
    match handle word_buffer client req with
    | .error e => .error e
    | .ok c1 =>
      match play word_buffer c1 rest with
      | .error e => .error e
      | .ok (c2, log) =>
        match req, c1.current_game.status, c1.current_game.secret_word with
        | .New _, GameStatus.Open, some s => .ok (c2, s :: log)
        | _, _, _ => .ok (c2, log)

/-- A run of guesses for one session. -/
def play_guesses : Client → List Char → Except Fault Client
  | client, [] => .ok client
  | client, t :: rest =>
    match calculate_results client t with
    | .error e => .error e
    | .ok c1 => play_guesses c1 rest

/-- The positions of the secret that hold the character `t`. -/
def matching_positions (s : Word) (t : Char) : List Nat :=
  (List.range (strlen s)).filter (fun i => charAt s i == t)

/-! ## The server loop -/

/-- Structure `struct Hangman_SHM`. -/
structure Hangman_SHM where
  errors : Nat
  clientID : Int
  status : GameStatus
  tried_char : Char
  word : List Char
  terminate : Bool
deriving DecidableEq, Repr

/-- The global variables of the server; a semaphore is its counter. -/
structure Server where
  word_buffer : List Word
  clients : List Client
  client_count : Nat
  shared : Hangman_SHM
  server_sem : Nat
  client_sem : Nat
  return_sem : Nat
deriving DecidableEq, Repr

/-- Conversion of an `unsigned int` to `int` (two's complement). -/
def to_int (n : Nat) : Int :=
  if n % UINT_RANGE < UINT_RANGE / 2 then ((n % UINT_RANGE : Nat) : Int)
  else ((n % UINT_RANGE : Nat) : Int) - (UINT_RANGE : Int)

/-- The search `while (cur != NULL && cur->clientID != shared->clientID)`: the clients in front
of the one found (the last of them is `pre`), the client found, and the clients behind it. -/
def find_client (id : Int) : List Client → Option (List Client × Client × List Client)
  | [] => none
  | cur :: next =>
    if cur.clientID = id then some ([], cur, next)
    else
      match find_client id next with
      | none => none
      | some (pre, c, post) => some (cur :: pre, c, post)

/-- One pass through the body of the `while (sig_caught == 0)` loop of `main` after
`sem_wait(server_sem)` has returned 0, with `rand` the value a call of `rand()` returns. The
calls of `sem_post` are taken to succeed and assertions to be enabled. -/
def serve_request (rand : Nat) (sv : Server) : Except Fault Server :=
  let located : Except Fault (List Client × Client × List Client × Nat) :=
    if sv.shared.clientID = -1 then
      .ok ([], { clientID := to_int sv.client_count, used_words := [], current_game := zeroGame },
        sv.clients, (sv.client_count + 1) % UINT_RANGE)
    else
      match find_client sv.shared.clientID sv.clients with
      | none => .error .exitFailure
      | some (pre, cur, post) => .ok (pre, cur, post, sv.client_count)
  match located with
  | .error e => .error e
  | .ok (pre, cur, post, count) =>
    if sv.shared.terminate then
      .ok { sv with
            clients := pre ++ post
            client_count := count
            shared := { sv.shared with terminate := false }
            client_sem := sv.client_sem + 1 }
    else
      let served : Except Fault Client :=
        match sv.shared.status with
        | GameStatus.New => new_game sv.word_buffer rand cur
        | GameStatus.Open => calculate_results cur sv.shared.tried_char
        | _ => .error .assertFail
      match served with
      | .error e => .error e
      | .ok cur1 =>
        .ok { sv with
              clients := pre ++ cur1 :: post
              client_count := count
              shared :=
                { sv.shared with
                  clientID := cur1.clientID
                  status := cur1.current_game.status
                  errors := cur1.current_game.errors
                  word := strncpy sv.shared.word cur1.current_game.obscured_word MAX_WORD_LENGTH }
              return_sem := sv.return_sem + 1 }

/-! ## Example data -/

/-- The word CAT. -/
def wordCAT : Word := ['C', 'A', 'T']

/-- The word DOG. -/
def wordDOG : Word := ['D', 'O', 'G']

/-- A session as `calloc` leaves it, with identifier 0. -/
def freshClient : Client := { clientID := 0, used_words := [], current_game := zeroGame }

/-- The obscured word of a game: the characters `shown` and terminators behind them. -/
def bufferOf (shown : List Char) : List Char :=
  shown ++ List.replicate (MAX_WORD_LENGTH - shown.length) NUL

/-- A session that plays the secret CAT and has the obscured word `shown`. -/
def catClient (shown : List Char) (status : GameStatus) (errors : Nat) : Client :=
  { clientID := 0
    used_words := [wordCAT]
    current_game :=
      { secret_word := some wordCAT
        obscured_word := bufferOf shown
        status := status
        errors := errors } }

/-! ## Helpers of the statements about a whole game -/

/-- What the obscured word shows at position `j` once the letters `guessed` have been tried:
the character of the secret if it is a space or was tried, the mask otherwise. -/
def shown_char (s : Word) (guessed : List Char) (j : Nat) : Char :=
  if charAt s j = SPACE ∨ charAt s j ∈ guessed then charAt s j else MASK

/-- An Open game on the secret `s` without errors, in which exactly the letters `guessed` are
revealed and the obscured word ends where the secret ends. -/
def InPlay (s : Word) (guessed : List Char) (c : Client) : Prop :=
  c.current_game.secret_word = some s ∧
  c.current_game.obscured_word.length = MAX_WORD_LENGTH ∧
  c.current_game.errors = 0 ∧
  c.current_game.status = GameStatus.Open ∧
  (∀ j, j < s.length → c.current_game.obscured_word[j]? = some (shown_char s guessed j)) ∧
  c.current_game.obscured_word[s.length]? = some NUL

/-- A server with the pool CAT whose only session (identifier 0) has lost its game on CAT, and a
mailbox that holds a Guess request (status `Open`) of that client with the letter X. -/
def lostServer : Server :=
  { word_buffer := [wordCAT]
    clients := [catClient ['C', 'A', 'T'] GameStatus.Lost 9]
    client_count := 1
    shared :=
      { errors := 9
        clientID := 0
        status := GameStatus.Open
        tried_char := 'X'
        word := bufferOf ['C', 'A', 'T']
        terminate := false }
    server_sem := 0
    client_sem := 0
    return_sem := 0 }

/-- The session data fit their C types and the secret, if there is one, is a word that new_game
could obscure inside the buffer. -/
def SessionFits (c : Client) : Prop :=
  c.current_game.wf ∧ ∀ s, c.current_game.secret_word = some s → strlen s + 1 < MAX_WORD_LENGTH

/-! ## The server loop, request by request -/

/-- The `switch (shared->status)` of `main` for the located client `cur`. -/
def dispatch (sv : Server) (rand : Nat) (cur : Client) : Except Fault Client :=
  match sv.shared.status with
  | GameStatus.New => new_game sv.word_buffer rand cur
  | GameStatus.Open => calculate_results cur sv.shared.tried_char
  | _ => .error .assertFail

/-- The server when it is ready for clients: no session, `client_count` 0, the mailbox as
`ftruncate` leaves it (all bytes zero) and the semaphores with their initial values 0, 1, 0. -/
def initialServer (word_buffer : List Word) : Server :=
  { word_buffer := word_buffer
    clients := []
    client_count := 0
    shared :=
      { errors := 0
        clientID := 0
        status := GameStatus.New
        tried_char := NUL
        word := List.replicate MAX_WORD_LENGTH NUL
        terminate := false }
    server_sem := 0
    client_sem := 1
    return_sem := 0 }

/-- What a client writes into the mailbox before it signals the server: the three fields of a
request (client `main`), or the terminate flag and its identifier (client `free_resources`). -/
inductive Posting
  | request (clientID : Int) (status : GameStatus) (tried_char : Char)
  | termination (clientID : Int)
deriving DecidableEq, Repr

/-- The mailbox after the client has written `p`. -/
def write_posting (sh : Hangman_SHM) : Posting → Hangman_SHM
  | .request clientID status tried_char =>
    { sh with status := status, clientID := clientID, tried_char := tried_char }
  | .termination clientID => { sh with terminate := true, clientID := clientID }

/-- The identifier a posting carries. -/
def Posting.clientID : Posting → Int
  | .request clientID _ _ => clientID
  | .termination clientID => clientID

/-- The server processes the postings one after the other; each comes with the value `rand()`
returns if the server calls it. -/
def serve_all : Server → List (Posting × Nat) → Except Fault Server
  | sv, [] => .ok sv
  | sv, (p, rand) :: rest =>
    match serve_request rand { sv with shared := write_posting sv.shared p } with
    | .error e => .error e
    | .ok sv1 => serve_all sv1 rest

/-- The number of register-new postings (identifier -1) in a list of postings. -/
def registrations (ps : List (Posting × Nat)) : Nat :=
  (ps.filter (fun p => p.1.clientID = -1)).length

/-! ## Semaphore steps of client and server -/

/-- A call of `sem_wait` that returns 0: the counter is positive and is decremented. `none` means
that the caller blocks. -/
def sem_wait (counter : Nat) : Option Nat :=
  if 0 < counter then some (counter - 1) else none

/-- A call of `sem_post`. -/
def sem_post (counter : Nat) : Nat := counter + 1

/-- Client `main`, sending a request: `sem_wait(client_sem)` returns 0; if the terminate flag is
set the client leaves without writing; otherwise it writes the request and posts `server_sem`.
`none` means that the client blocks in `sem_wait`. -/
def client_send (clientID : Int) (status : GameStatus) (c : Char) (sv : Server) :
    Option Server :=
  match sem_wait sv.client_sem with
  | none => none
  | some n =>
    if sv.shared.terminate then some { sv with client_sem := n }
    else
      some { sv with
             client_sem := n
             shared := write_posting sv.shared (.request clientID status c)
             server_sem := sem_post sv.server_sem }

/-- Client `main`, receiving the answer: `sem_wait(return_sem)` returns 0, the client copies the
mailbox and posts `client_sem`. The result is the new state and the copied answer (identifier,
word, errors, status). `none` means that the client blocks. -/
def client_receive (sv : Server) : Option (Server × (Int × List Char × Nat × GameStatus)) :=
  match sem_wait sv.return_sem with
  | none => none
  | some n =>
    some ({ sv with return_sem := n, client_sem := sem_post sv.client_sem },
      (sv.shared.clientID, strncpy (List.replicate MAX_WORD_LENGTH NUL) sv.shared.word
        MAX_WORD_LENGTH, sv.shared.errors, sv.shared.status))

/-- Client `main`, a signal while it is blocked in `sem_wait(return_sem)`: the call returns -1
with `EINTR`, the client posts `client_sem` and continues with the loop test. The client can
only be blocked there while `return_sem` is 0. -/
def client_wait_interrupted (sv : Server) : Option Server :=
  if sv.return_sem = 0 then some { sv with client_sem := sem_post sv.client_sem } else none

/-- Client `free_resources(soft)` as far as the shared state goes: for `soft` the client waits
for `client_sem`, sets the terminate flag and its identifier and posts `server_sem`. `none`
means that the client blocks in `sem_wait`. -/
def client_free_resources (soft : Bool) (clientID : Int) (sv : Server) : Option Server :=
  if soft then
    match sem_wait sv.client_sem with
    | none => none
    | some n =>
      some { sv with
             client_sem := n
             shared := write_posting sv.shared (.termination clientID)
             server_sem := sem_post sv.server_sem }
  else some sv

/-- One pass of the server loop: `sem_wait(server_sem)` returns 0 and the request is served.
`none` means that the server blocks. -/
def server_pass (rand : Nat) (sv : Server) : Option (Except Fault Server) :=
  match sem_wait sv.server_sem with
  | none => none
  | some n => some (serve_request rand { sv with server_sem := n })

/-- The three semaphore counters: server-wait, mailbox-mutex, response-wait. -/
def counters (sv : Server) : Nat × Nat × Nat := (sv.server_sem, sv.client_sem, sv.return_sem)

/-- A server with three sessions (identifiers 2, 1, 0, newest first) and a mailbox that holds
the terminate request of client 1. -/
def threeClients : Server :=
  { word_buffer := [wordCAT]
    clients := [{ freshClient with clientID := 2 }, { freshClient with clientID := 1 },
      { freshClient with clientID := 0 }]
    client_count := 3
    shared :=
      { errors := 0
        clientID := 1
        status := GameStatus.New
        tried_char := NUL
        word := List.replicate MAX_WORD_LENGTH NUL
        terminate := true }
    server_sem := 0
    client_sem := 0
    return_sem := 0 }

/-- Two clients register with a new-game request, then client 0 leaves. -/
def twoRegistrations : List (Posting × Nat) :=
  [(Posting.request (-1) GameStatus.New NUL, 0), (Posting.request (-1) GameStatus.New NUL, 0),
    (Posting.termination 0, 0)]

/-! ## One client and the server, step by step -/

/-- The variables of client `main` that take part in the protocol. -/
structure ClientProc where
  clientID : Int
  game_status : GameStatus
  c : Char
deriving DecidableEq, Repr

/-- The client when it enters its loop: not registered, status `New`, no letter. -/
def initialClient : ClientProc :=
  { clientID := -1, game_status := GameStatus.New, c := NUL }

/-- The steps of a run of one client and the server. Each step is what one process does between
two calls that can block. -/
inductive Step
  | enter (letter : Char)
  | send
  | receive
  | interrupted
  | free_resources (soft : Bool)
  | server (rand : Nat)
deriving DecidableEq, Repr

/-- One step on the shared state and the variables of the client. `enter` is the client reading
a letter while its game is Open; `send`, `receive` and `interrupted` are the parts of the loop
body of client `main` around `sem_wait(client_sem)` and `sem_wait(return_sem)`; `server` is a
pass of the server loop. `none` means that the step cannot be taken (its wait blocks). -/
def run_step (w : Server × ClientProc) : Step → Option (Except Fault (Server × ClientProc))
  | .enter letter =>
    if w.2.game_status = GameStatus.Open then some (.ok (w.1, { w.2 with c := letter }))
    else none
  | .send =>
    (client_send w.2.clientID w.2.game_status w.2.c w.1).map (fun sv => .ok (sv, w.2))
  | .receive =>
    (client_receive w.1).map
      (fun r => .ok (r.1, { w.2 with clientID := r.2.1, game_status := r.2.2.2.2 }))
  | .interrupted => (client_wait_interrupted w.1).map (fun sv => .ok (sv, w.2))
  | .free_resources soft =>
    (client_free_resources soft w.2.clientID w.1).map (fun sv => .ok (sv, w.2))
  | .server rand =>
    (server_pass rand w.1).map (fun r => r.map (fun sv => (sv, w.2)))

/-- A run: the steps one after the other; it ends at a fault of the server. -/
def run_schedule : Server × ClientProc → List Step → Option (Except Fault (Server × ClientProc))
  | w, [] => some (.ok w)
  | w, step :: rest =>
    match run_step w step with
    | none => none
    | some (.error e) => some (.error e)
    | some (.ok w1) => run_schedule w1 rest

/-- A client registers, gets a game, sends the guess X, receives the answer and quits. -/
def normalRun : List Step :=
  [.send, .server 0, .receive, .enter 'X', .send, .server 0, .receive,
    .free_resources true, .server 0]

/-- A client registers, gets a game and sends the guess X; a signal arrives while it waits for
the answer, the server then answers, and the client leaves through `free_resources(true)`. -/
def interruptedRun : List Step :=
  [.send, .server 0, .receive, .enter 'X', .send, .interrupted, .server 0,
    .free_resources true, .server 0]

/-- Whether in a run of requests every guess is sent while the game of the session is Open, as
the client does (it reads a letter only while its game status is Open). -/
def guesses_while_open (word_buffer : List Word) : Client → List Request → Bool
  | _, [] => true
  | client, .New rand :: rest =>
    match new_game word_buffer rand client with
    | .ok c1 => guesses_while_open word_buffer c1 rest
    | .error _ => true
  | client, .Guess letter :: rest =>
    decide (client.current_game.status = GameStatus.Open) &&
    match calculate_results client letter with
    | .ok c1 => guesses_while_open word_buffer c1 rest
    | .error _ => true

/-- A new game and ten guesses that match no position of CAT. -/
def tenWrongGuesses : List Request :=
  [.New 0, .Guess 'B', .Guess 'D', .Guess 'E', .Guess 'F', .Guess 'G', .Guess 'H', .Guess 'I',
    .Guess 'J', .Guess 'K', .Guess 'L']

/-- The obscured word of the session belongs to the secret `s`: below the length of the secret
every position holds the mask or the character of the secret, spaces of the secret are shown,
and the terminator stands at the length of the secret. -/
def Obscures (s : Word) (c : Client) : Prop :=
  c.current_game.secret_word = some s ∧
  c.current_game.obscured_word.length = MAX_WORD_LENGTH ∧
  strlen s + 1 < MAX_WORD_LENGTH ∧
  (∀ j, j < strlen s →
    (c.current_game.obscured_word[j]? = some MASK ∨
      c.current_game.obscured_word[j]? = some (charAt s j)) ∧
    (charAt s j = SPACE → c.current_game.obscured_word[j]? = some SPACE)) ∧
  c.current_game.obscured_word[strlen s]? = some NUL

/-! ## readFile (fileRead.c) -/

/-- The test `c == '\n' || c == '\r'` of readFile. -/
def is_line_end (c : Char) : Bool := c == Char.ofNat 10 || c == Char.ofNat 13

/-- The string readFile stores for the line in `tmpBuffer`: `strncpy` of the line into the
zeroed allocation, without the terminator at its end. -/
def stored_line (line : List Char) : Word :=
  strncpy (List.replicate line.length NUL) line line.length

/-- The `while (feof(f) == 0)` loop of readFile. The first list holds the characters `fgetc` has
yet to deliver; when it is empty `fgetc` returns `EOF`, which is the last iteration. `content` is
`buffer->content` (with `buffer->length` its length) and `line` is `tmpBuffer[0..lineLength)`.
The result is the return value and the content of the buffer. Read errors and failing
allocations are left out. -/
def readFile_loop (maxLineLength : Nat) (all_characters : Bool) :
    List Char → List Word → List Char → Int × List Word
  | [], content, line =>
    if line.length + 1 ≥ maxLineLength then (-1, content)
    else if line.length > 0 then (0, content ++ [stored_line line])
    else (0, content)
  | c :: rest, content, line =>
    if line.length + 1 ≥ maxLineLength then (-1, content)
    else if is_line_end c = true ∧ line.length > 0 then
      readFile_loop maxLineLength all_characters rest (content ++ [stored_line line]) []
    else if all_characters = true ∨ c.isAlpha = true ∨ c = SPACE then
      readFile_loop maxLineLength all_characters rest content (line ++ [c.toUpper])
    else
      readFile_loop maxLineLength all_characters rest content line

/-- Function `readFile` on a stream that delivers the characters `input`, for a buffer that holds
`content`. -/
def readFile (input : List Char) (content : List Word) (maxLineLength : Nat)
    (all_characters : Bool) : Int × List Word :=
  readFile_loop maxLineLength all_characters input content []

/-- In the words of the specification: the lines of the input, separated by line feed or
carriage return. -/
def spec_lines : List Char → List (List Char)
  | [] => [[]]
  | c :: rest =>
    if is_line_end c then [] :: spec_lines rest
    else (c :: (spec_lines rest).headD []) :: (spec_lines rest).tail

/-- In the words of the specification: a line with everything except letters and spaces removed
and the letters upper-cased. -/
def spec_normalize (line : List Char) : List Char :=
  (line.filter (fun c => c.isAlpha || c == SPACE)).map Char.toUpper

/-- In the words of the specification: the normalized lines of the input, in input order,
leaving out the lines that keep no character. -/
def spec_words (input : List Char) : List Word :=
  ((spec_lines input).map spec_normalize).filter (fun w => !w.isEmpty)

/-- An input of five lines: cat, Do-g, an empty line, 42 and x y (without line end). -/
def sampleInput : List Char :=
  ['c', 'a', 't', Char.ofNat 10, 'D', 'o', '-', 'g', Char.ofNat 13, Char.ofNat 10,
    '4', '2', Char.ofNat 10, 'x', SPACE, 'y']

/-- A line of 49 letters a: one character more than readFile accepts for `MAX_WORD_LENGTH`. -/
def longLine : List Char := List.replicate 49 'a'

/-- The number of evaluations of the `while` condition of `new_game`, each of which is one probe
(a call of `contains` for `word_buffer.content[pos]`); the arguments are those of
`new_game_probe`. -/
def new_game_probes (used : List Word) (word_buffer : List Word) : Nat → Nat → Nat
  | 0, _ => 1
  | n + 1, pos =>
    match word_buffer[pos]? with
    | none => 1
    | some w =>
      if contains used w then
        1 + new_game_probes used word_buffer n ((pos + 1) % word_buffer.length)
      else 1

/-- A word of 49 letters: it fits a buffer of `MAX_WORD_LENGTH` characters with its
terminator. -/
def word49 : Word := List.replicate 49 'A'

/-- A word of 48 letters, the longest one new_game obscures inside the buffer. -/
def word48 : Word := List.replicate 48 'A'

/-! ## getParity (Task1B, client.c) -/

/-- The number of values of a `uint16_t`. -/
abbrev UINT16_RANGE : Nat := 65536

/-- The `for` loop of `getParity`: `n` iterations are left, the state is `parity` and `one`.
The operands are `uint16_t`, so both assignments keep the low 16 bits. -/
def getParity_loop (color : Nat) : Nat → Nat → Nat → Nat
  | 0, parity, _ => parity
  | n + 1, parity, one =>
    getParity_loop color n ((parity ^^^ (color ^^^ one)) % UINT16_RANGE)
      ((one <<< 1) % UINT16_RANGE)

/-- Function `getParity` of the client of Task1B. -/
def getParity (color : Nat) : Nat := getParity_loop color 14 0 1

/-- Function `nextGuess` of the client of Task1B. -/
def nextGuess : Nat :=
  let color := 0
  (color ||| getParity color) % UINT16_RANGE

/-- The parity bit as the documentation of `getParity` describes it: all 16 bits of the colour
connected with XOR. -/
def spec_parity_bit (color : Nat) : Nat :=
  (List.range 16).foldl (fun acc i => acc ^^^ ((color >>> i) % 2)) 0

/-! ## The cipher (Task1A, stegit.c) -/

/-- The table `chiffre`; the 22nd word is written with the bytes the source file holds. -/
def chiffre : List (List Char) :=
  [['d', 'i', 'e'], ['s', 'o', 'n', 'n', 'e'], ['d', 'e', 'r'], ['d', 'a', 's'], ['u', 'm'],
    ['n', 'e', 'u', 'n'], ['U', 'h', 'r'], ['a', 'u', 'f', 'g', 'e', 'h', 't'],
    ['b', 'l', 'u', 'm', 'm', 'e'], ['b', 'a', 'u', 'm'],
    ['A', 'l', 'i', 'c', 'e'], ['B', 'o', 'b'], ['s', 'c', 'h', 'a', 'u', 'e', 'n'],
    ['s', 'c', 'h', 'l', 'a', 'f', 'e', 'n'], ['u', 'n', 'd'],
    ['d', 'a', 'r', 'u', 'm'], ['d', 'e', 's', 'h', 'a', 'l', 'b'], ['S', 't', 'e', 'i', 'n'],
    ['B', 'a', 'u', 'm'], ['b', 'l', 'a', 'u'], ['g', 'e', 'l', 'b'],
    ['g', 'r', 'o', Char.ofNat 195, Char.ofNat 131, Char.ofNat 197, Char.ofNat 184],
    ['k', 'l', 'e', 'i', 'n'], ['F', 'a', 'h', 'n', 'e'], ['s', 't', 'e', 'h', 'e', 'n'],
    ['z', 'e', 'h', 'n'], ['M', 'o', 'n', 'd'], ['E', 'n', 'd', 'e']]

/-- Library function `strcmp`: the result is zero exactly when the two strings are equal up to
their terminators. -/
def strcmp : List Char → List Char → Int
  | [], b => if b.headD NUL = NUL then 0 else -((b.headD NUL).toNat : Int)
  | a :: as, b =>
    if a ≠ b.headD NUL then (a.toNat : Int) - ((b.headD NUL).toNat : Int)
    else if a = NUL then 0
    else strcmp as b.tail

/-- The `while` loop of `decryptChar`: `n` is `28 - i`. -/
def decryptChar_loop (chiffreChar : List Char) : Nat → Nat → Char
  | 0, _ => NUL
  | n + 1, i =>
    if strcmp chiffreChar (chiffre.getD i []) = 0 then
      if i = 27 then Char.ofNat 46
      else if i = 26 then Char.ofNat 32
      else Char.ofNat (i + 97)
    else decryptChar_loop chiffreChar n (i + 1)

/-- Function `decryptChar`. -/
def decryptChar (chiffreChar : List Char) : Char := decryptChar_loop chiffreChar 28 0

/-- Function `encryptChar`; `plain` is compared by its character code. -/
def encryptChar (plain : Char) : List Char :=
  if plain.toNat = 46 then chiffre.getD 27 []
  else if plain.toNat = 32 then chiffre.getD 26 []
  else if plain.toNat ≥ 65 ∧ plain.toNat ≤ 90 then chiffre.getD (plain.toNat - 65) []
  else if plain.toNat ≥ 97 ∧ plain.toNat ≤ 122 then chiffre.getD (plain.toNat - 97) []
  else []

/-! ## trimStr (Task2, websh.c) -/

/-- The number of values of a `size_t`. -/
abbrev SIZE_RANGE : Nat := 18446744073709551616

/-- The newline character. -/
abbrev NEWLINE : Char := Char.ofNat 10

/-- The `while` loop of `trimStr` on the array `str`, for at most `n` evaluations of its
condition (`none` when more are needed). The index `strlen(str) - 1` is computed in `size_t`; an
index outside the array is the fault `outOfBounds`. -/
def trimStr_loop : Nat → List Char → Option (Except Fault (List Char))
  | 0, _ => none
  | n + 1, str =>
    let i := (strlen str + SIZE_RANGE - 1) % SIZE_RANGE
    if i < str.length then
      if str.getD i NUL = NEWLINE then trimStr_loop n (str.set i NUL)
      else some (.ok str)
    else some (.error .outOfBounds)

/-- Function `trimStr`: every iteration that goes on shortens the string by one character, so
`strlen str + 1` evaluations of the condition are enough. -/
def trimStr (str : List Char) : Option (Except Fault (List Char)) :=
  trimStr_loop (strlen str + 1) str

/-- The array `cmd` after `fgets` has read a blank line: a newline and the terminator. -/
def blankLine : List Char := [NEWLINE, NUL]

/-- The array after `fgets` has read the line `ls` and its newline. -/
def lsLine : List Char := ['l', 's', NEWLINE, NUL]

/-! # Theorems -/

theorem strncmp_self (a : List Char) (n : Nat) : strncmp a a n = 0 := by
  induction n generalizing a with
  | zero => simp [strncmp]
  | succ n ih =>
    unfold strncmp
    simp only [ne_eq, not_true_eq_false, if_false]
    split
    · rfl
    · exact ih a.tail

theorem contains_of_mem {used : List Word} {w : Word} (h : w ∈ used) : contains used w = true := by
  induction used with
  | nil => cases h
  | cons u us ih =>
    unfold contains
    rcases List.mem_cons.mp h with rfl | h
    · simp [strncmp_self]
    · split
      · rfl
      · exact ih h

theorem not_mem_of_contains_false {used : List Word} {w : Word} (h : contains used w = false) :
    w ∉ used := by
  intro hm
  rw [contains_of_mem hm] at h
  cases h

theorem new_game_probe_some {used pool : List Word} {n pos p : Nat}
    (h : new_game_probe used pool n pos = .ok (some p)) :
    ∃ w, pool[p]? = some w ∧ contains used w = false := by
  induction n generalizing pos with
  | zero =>
    unfold new_game_probe at h
    split at h
    · cases h
    · rename_i w hw
      split at h
      · cases h
      · rename_i hc
        injection h with h; injection h with h; subst h
        exact ⟨w, hw, by simpa using hc⟩
  | succ n ih =>
    unfold new_game_probe at h
    split at h
    · cases h
    · rename_i w hw
      split at h
      · exact ih h
      · rename_i hc
        injection h with h; injection h with h; subst h
        exact ⟨w, hw, by simpa using hc⟩

theorem new_game_probe_exhausted {used pool : List Word}
    (hall : ∀ w ∈ pool, contains used w = true) (n : Nat) {pos : Nat} (hpos : pos < pool.length) :
    new_game_probe used pool n pos = .ok none := by
  induction n generalizing pos with
  | zero =>
    unfold new_game_probe
    rw [List.getElem?_eq_getElem hpos]
    simp [hall _ (List.getElem_mem hpos)]
  | succ n ih =>
    unfold new_game_probe
    rw [List.getElem?_eq_getElem hpos]
    simp only [hall _ (List.getElem_mem hpos), if_true]
    exact ih (Nat.mod_lt _ (by omega))


/-- Inversion of a successful call of new_game. -/
theorem new_game_ok {pool : List Word} {r : Nat} {c c1 : Client}
    (h : new_game pool r c = .ok c1) :
    (new_game_probe c.used_words pool pool.length (r % pool.length) = .ok none ∧
      c1 = { c with current_game := { c.current_game with status := GameStatus.Impossible } }) ∨
    (∃ pos secret buf buf1,
      new_game_probe c.used_words pool pool.length (r % pool.length) = .ok (some pos) ∧
      pool[pos]? = some secret ∧
      obscure_loop secret (strlen secret) 0 zeroGame.obscured_word = .ok buf ∧
      buf_write buf (strlen secret + 1) NUL = .ok buf1 ∧
      c1 = { c with
              used_words := secret :: c.used_words
              current_game :=
                { secret_word := some secret
                  obscured_word := buf1
                  status := GameStatus.Open
                  errors := 0 } }) := by
  unfold new_game at h
  split at h
  · cases h
  · split at h
    · cases h
    · rename_i hp
      left
      injection h with h
      exact ⟨hp, h.symm⟩
    · rename_i pos hp
      right
      split at h
      · cases h
      · rename_i secret hs
        simp only at h
        split at h
        · cases h
        · rename_i buf hb
          split at h
          · cases h
          · rename_i buf1 hb1
            injection h with h
            exact ⟨pos, secret, buf, buf1, hp, hs, hb, hb1, h.symm⟩


theorem buf_write_ok {buf : List Char} {i : Nat} (c : Char) (h : i < MAX_WORD_LENGTH) :
    buf_write buf i c = .ok (buf.set i c) := by
  unfold buf_write; rw [if_pos h]

theorem buf_write_inv {buf buf1 : List Char} {i : Nat} {c : Char}
    (h : buf_write buf i c = .ok buf1) : i < MAX_WORD_LENGTH ∧ buf1 = buf.set i c := by
  unfold buf_write at h
  split at h
  · rename_i hi
    injection h with h
    exact ⟨hi, h.symm⟩
  · cases h

theorem buf_read_ok {buf : List Char} {i : Nat} (h : i < MAX_WORD_LENGTH) :
    buf_read buf i = .ok (buf.getD i NUL) := by
  unfold buf_read; rw [if_pos h]

/-- The loop of calculate_results on a buffer that holds the indices it visits. -/
theorem calculate_results_loop_spec (s : Word) (t : Char) (n : Nat) :
    ∀ (i : Nat) (buf : List Char) (error won : Bool),
      buf.length = MAX_WORD_LENGTH → i + n ≤ MAX_WORD_LENGTH →
      ∃ buf1 error1 won1,
        calculate_results_loop s t n i (buf, error, won) = .ok (buf1, error1, won1) ∧
        buf1.length = MAX_WORD_LENGTH ∧
        (∀ j, buf1[j]? = if i ≤ j ∧ j < i + n ∧ charAt s j = t then some t else buf[j]?) ∧
        (error1 = true ↔ error = true ∧ ∀ j, i ≤ j → j < i + n → charAt s j ≠ t) ∧
        (won1 = true ↔ won = true ∧ ∀ j, i ≤ j → j < i + n → buf1[j]? ≠ some MASK) := by
  induction n with
  | zero =>
    intro i buf error won hlen _
    refine ⟨buf, error, won, rfl, hlen, ?_, ?_, ?_⟩
    · intro j
      have : ¬ (i ≤ j ∧ j < i + 0 ∧ charAt s j = t) := by omega
      rw [if_neg this]
    · constructor
      · intro h; exact ⟨h, fun j h1 h2 => by omega⟩
      · intro h; exact h.1
    · constructor
      · intro h; exact ⟨h, fun j h1 h2 => by omega⟩
      · intro h; exact h.1
  | succ n ih =>
    intro i buf error won hlen hin
    have hi : i < MAX_WORD_LENGTH := by omega
    by_cases hm : charAt s i = t
    · -- the position matches
      obtain ⟨buf1, e1, w1, hrun, hl1, hb1, he1, hw1⟩ :=
        ih (i + 1) (buf.set i t) false (won && ((buf.set i t).getD i NUL != MASK))
          (by simp [hlen]) (by omega)
      refine ⟨buf1, e1, w1, ?_, hl1, ?_, ?_, ?_⟩
      · unfold calculate_results_loop
        simp only [hm, if_true, buf_write_ok t hi, Except.map, buf_read_ok hi]
        cases won <;> simpa using hrun
      · intro j
        rw [hb1 j]
        by_cases hj : j = i
        · subst hj
          have h1 : ¬ (j + 1 ≤ j ∧ j < j + 1 + n ∧ charAt s j = t) := by omega
          have h2 : (j ≤ j ∧ j < j + (n + 1) ∧ charAt s j = t) := ⟨le_refl _, by omega, hm⟩
          rw [if_neg h1, if_pos h2]
          exact List.getElem?_set_self (by omega)
        · rw [List.getElem?_set_ne (Ne.symm hj)]
          by_cases hc : charAt s j = t
          · by_cases hr : i + 1 ≤ j ∧ j < i + 1 + n
            · rw [if_pos ⟨hr.1, hr.2, hc⟩, if_pos ⟨by omega, by omega, hc⟩]
            · rw [if_neg (fun h => hr ⟨h.1, h.2.1⟩), if_neg (fun h => hr ⟨by omega, by omega⟩)]
          · rw [if_neg (fun h => hc h.2.2), if_neg (fun h => hc h.2.2)]
      · constructor
        · intro h
          have := he1.mp h
          simp at this
        · intro h
          exact absurd hm (h.2 i (le_refl _) (by omega))
      · rw [hw1]
        have hbi : buf1[i]? = (buf.set i t)[i]? := by
          rw [hb1 i]
          have h1 : ¬ (i + 1 ≤ i ∧ i < i + 1 + n ∧ charAt s i = t) := by omega
          rw [if_neg h1]
        have hget : ((buf.set i t).getD i NUL != MASK) = true ↔ buf1[i]? ≠ some MASK := by
          rw [hbi, List.getD_eq_getElem?_getD, List.getElem?_set_self (by omega)]
          simp
        constructor
        · rintro ⟨h1, h2⟩
          simp only [Bool.and_eq_true] at h1
          refine ⟨h1.1, fun j hj1 hj2 => ?_⟩
          by_cases hj : j = i
          · subst hj; exact hget.mp h1.2
          · exact h2 j (by omega) (by omega)
        · rintro ⟨h1, h2⟩
          refine ⟨?_, fun j hj1 hj2 => h2 j (by omega) (by omega)⟩
          simp only [Bool.and_eq_true]
          exact ⟨h1, hget.mpr (h2 i (le_refl _) (by omega))⟩
    · -- no match at this position
      obtain ⟨buf1, e1, w1, hrun, hl1, hb1, he1, hw1⟩ :=
        ih (i + 1) buf error (won && (buf.getD i NUL != MASK)) hlen (by omega)
      refine ⟨buf1, e1, w1, ?_, hl1, ?_, ?_, ?_⟩
      · unfold calculate_results_loop
        simp only [hm, if_false, Except.map, buf_read_ok hi]
        cases won <;> simpa using hrun
      · intro j
        rw [hb1 j]
        by_cases hc : charAt s j = t
        · by_cases hr : i + 1 ≤ j ∧ j < i + 1 + n
          · rw [if_pos ⟨hr.1, hr.2, hc⟩, if_pos ⟨by omega, by omega, hc⟩]
          · have hr2 : ¬ (i ≤ j ∧ j < i + (n + 1) ∧ charAt s j = t) := by
              intro h
              have : j ≠ i := fun e => hm (e ▸ hc)
              exact hr ⟨by omega, by omega⟩
            rw [if_neg (fun h => hr ⟨h.1, h.2.1⟩), if_neg hr2]
        · rw [if_neg (fun h => hc h.2.2), if_neg (fun h => hc h.2.2)]
      · rw [he1]
        constructor
        · rintro ⟨h1, h2⟩
          refine ⟨h1, fun j hj1 hj2 => ?_⟩
          by_cases hj : j = i
          · subst hj; exact hm
          · exact h2 j (by omega) (by omega)
        · rintro ⟨h1, h2⟩
          exact ⟨h1, fun j hj1 hj2 => h2 j (by omega) (by omega)⟩
      · rw [hw1]
        have hbi : buf1[i]? = buf[i]? := by
          rw [hb1 i]
          have h1 : ¬ (i + 1 ≤ i ∧ i < i + 1 + n ∧ charAt s i = t) := by omega
          rw [if_neg h1]
        have hget : (buf.getD i NUL != MASK) = true ↔ buf1[i]? ≠ some MASK := by
          rw [hbi, List.getD_eq_getElem?_getD, List.getElem?_eq_getElem (by omega)]
          simp
        constructor
        · rintro ⟨h1, h2⟩
          simp only [Bool.and_eq_true] at h1
          refine ⟨h1.1, fun j hj1 hj2 => ?_⟩
          by_cases hj : j = i
          · subst hj; exact hget.mp h1.2
          · exact h2 j (by omega) (by omega)
        · rintro ⟨h1, h2⟩
          refine ⟨?_, fun j hj1 hj2 => h2 j (by omega) (by omega)⟩
          simp only [Bool.and_eq_true]
          exact ⟨h1, hget.mpr (h2 i (le_refl _) (by omega))⟩


/-- The loop of new_game that writes the masks, on a buffer that holds the indices it visits. -/
theorem obscure_loop_spec (s : Word) (n : Nat) :
    ∀ (i : Nat) (buf : List Char),
      buf.length = MAX_WORD_LENGTH → i + n ≤ MAX_WORD_LENGTH →
      ∃ buf1, obscure_loop s n i buf = .ok buf1 ∧ buf1.length = MAX_WORD_LENGTH ∧
        ∀ j, buf1[j]? =
          if i ≤ j ∧ j < i + n then some (if charAt s j = SPACE then SPACE else MASK)
          else buf[j]? := by
  induction n with
  | zero =>
    intro i buf hlen _
    refine ⟨buf, rfl, hlen, fun j => ?_⟩
    have : ¬ (i ≤ j ∧ j < i + 0) := by omega
    rw [if_neg this]
  | succ n ih =>
    intro i buf hlen hin
    have hi : i < MAX_WORD_LENGTH := by omega
    obtain ⟨buf1, hrun, hl1, hb1⟩ :=
      ih (i + 1) (buf.set i (if charAt s i = SPACE then SPACE else MASK))
        (by simp [hlen]) (by omega)
    refine ⟨buf1, ?_, hl1, fun j => ?_⟩
    · unfold obscure_loop
      rw [buf_write_ok _ hi]
      exact hrun
    · rw [hb1 j]
      by_cases hj : j = i
      · subst hj
        have h1 : ¬ (j + 1 ≤ j ∧ j < j + 1 + n) := by omega
        have h2 : j ≤ j ∧ j < j + (n + 1) := ⟨le_refl _, by omega⟩
        rw [if_neg h1, if_pos h2]
        exact List.getElem?_set_self (by omega)
      · rw [List.getElem?_set_ne (Ne.symm hj)]
        by_cases hr : i + 1 ≤ j ∧ j < i + 1 + n
        · rw [if_pos hr, if_pos (show i ≤ j ∧ j < i + (n + 1) from ⟨by omega, by omega⟩)]
        · rw [if_neg hr,
            if_neg (show ¬ (i ≤ j ∧ j < i + (n + 1)) from fun h => hr ⟨by omega, by omega⟩)]

/-- A loop of new_game that returns has stayed inside the buffer. -/
theorem obscure_loop_bound (s : Word) (n : Nat) :
    ∀ (i : Nat) (buf buf1 : List Char), obscure_loop s n i buf = .ok buf1 →
      n = 0 ∨ i + n ≤ MAX_WORD_LENGTH := by
  induction n with
  | zero => intro _ _ _ _; left; rfl
  | succ n ih =>
    intro i buf buf1 h
    right
    unfold obscure_loop at h
    split at h
    · cases h
    · rename_i b hb
      have hi := (buf_write_inv hb).1
      rcases ih (i + 1) b buf1 h with h0 | h1
      · omega
      · omega

/-- What a successful new_game that opens a game has done. -/
theorem new_game_open {pool : List Word} {r : Nat} {c c1 : Client}
    (h : new_game pool r c = .ok c1) (hopen : c1.current_game.status = GameStatus.Open) :
    ∃ s, s ∈ pool ∧ contains c.used_words s = false ∧
      strlen s + 1 < MAX_WORD_LENGTH ∧
      c1.clientID = c.clientID ∧
      c1.used_words = s :: c.used_words ∧
      c1.current_game.secret_word = some s ∧
      c1.current_game.errors = 0 ∧
      c1.current_game.obscured_word.length = MAX_WORD_LENGTH ∧
      ∀ j, c1.current_game.obscured_word[j]? =
        if j < strlen s then some (if charAt s j = SPACE then SPACE else MASK)
        else if j < MAX_WORD_LENGTH then some NUL else none := by
  rcases new_game_ok h with ⟨_, rfl⟩ | ⟨pos, s, buf, buf1, hp, hs, hb, hb1, rfl⟩
  · cases hopen
  · obtain ⟨w, hw, hc⟩ := new_game_probe_some hp
    rw [hs] at hw
    injection hw with hw
    subst hw
    obtain ⟨hL, rfl⟩ := buf_write_inv hb1
    have hz : zeroGame.obscured_word.length = MAX_WORD_LENGTH := by simp [zeroGame]
    obtain ⟨buf0, hrun, hl0, hpt⟩ := obscure_loop_spec s (strlen s) 0 _ hz (by omega)
    rw [hrun] at hb
    injection hb with hb
    subst hb
    refine ⟨s, List.getElem?_mem hs, hc, hL, rfl, rfl, rfl, rfl, by simp [hl0], fun j => ?_⟩
    show (buf0.set (strlen s + 1) NUL)[j]? = _
    by_cases hj : j = strlen s + 1
    · subst hj
      rw [List.getElem?_set_self (by omega)]
      have h1 : ¬ (strlen s + 1 < strlen s) := by omega
      rw [if_neg h1, if_pos hL]
    · rw [List.getElem?_set_ne (Ne.symm hj), hpt j]
      by_cases hlt : j < strlen s
      · rw [if_pos (show 0 ≤ j ∧ j < 0 + strlen s from ⟨Nat.zero_le _, by omega⟩), if_pos hlt]
      · rw [if_neg (show ¬ (0 ≤ j ∧ j < 0 + strlen s) from fun h => hlt (by omega)), if_neg hlt]
        simp only [zeroGame, List.getElem?_replicate]

/-! ## Strings read from a buffer -/

theorem cstr_eq_take (L : Nat) :
    ∀ buf : List Char, (∀ j, j < L → ∃ ch, buf[j]? = some ch ∧ ch ≠ NUL) →
      buf[L]? = some NUL → cstr buf = buf.take L := by
  induction L with
  | zero =>
    intro buf _ hz
    cases buf with
    | nil => simp [cstr]
    | cons a as =>
      simp only [List.getElem?_cons_zero, Option.some.injEq] at hz
      subst hz
      simp [cstr]
  | succ L ih =>
    intro buf hpt hz
    cases buf with
    | nil => simp at hz
    | cons a as =>
      obtain ⟨ch, hch, hne⟩ := hpt 0 (by omega)
      simp only [List.getElem?_cons_zero, Option.some.injEq] at hch
      subst hch
      have hrec : cstr as = as.take L := by
        apply ih
        · intro j hj
          have := hpt (j + 1) (by omega)
          simpa using this
        · simpa using hz
      unfold cstr at hrec ⊢
      rw [List.takeWhile_cons_of_pos (by simpa using hne), hrec]
      rfl

theorem strlen_of_pointwise {buf : List Char} {L : Nat}
    (hpt : ∀ j, j < L → ∃ ch, buf[j]? = some ch ∧ ch ≠ NUL) (hz : buf[L]? = some NUL) :
    strlen buf = L := by
  unfold strlen
  rw [cstr_eq_take L buf hpt hz, List.length_take]
  have : L < buf.length := by
    by_contra hcon
    rw [List.getElem?_eq_none (by omega)] at hz
    cases hz
  omega

theorem charAt_of_getElem? {buf : List Char} {j : Nat} {ch : Char} (h : buf[j]? = some ch) :
    charAt buf j = ch := by
  unfold charAt
  rw [List.getD_eq_getElem?_getD, h]
  rfl

theorem SPACE_ne_NUL : SPACE ≠ NUL := by decide

theorem MASK_ne_NUL : MASK ≠ NUL := by decide

theorem SPACE_ne_MASK : SPACE ≠ MASK := by decide

/-! ## Runs of requests -/

theorem calculate_results_frame {c c1 : Client} {t : Char} (h : calculate_results c t = .ok c1) :
    c1.used_words = c.used_words ∧ c1.clientID = c.clientID ∧
      c1.current_game.secret_word = c.current_game.secret_word := by
  unfold calculate_results at h
  split at h
  · cases h
  · split at h
    · cases h
    · simp only at h
      split at h
      · split at h <;> (injection h with h; subst h; exact ⟨rfl, rfl, rfl⟩)
      · split at h <;> (injection h with h; subst h; exact ⟨rfl, rfl, rfl⟩)

theorem new_game_impossible_frame {pool : List Word} {r : Nat} {c c1 : Client}
    (h : new_game pool r c = .ok c1) (hst : c1.current_game.status ≠ GameStatus.Open) :
    c1.used_words = c.used_words := by
  rcases new_game_ok h with ⟨_, rfl⟩ | ⟨pos, s, buf, buf1, hp, hs, hb, hb1, rfl⟩
  · rfl
  · exact absurd rfl hst

/-- The used-word list after a run: the logged secrets in front of the list at the start; the
logged secrets are pool entries, and no word is listed twice if none was at the start. -/
theorem play_used_words (pool : List Word) (reqs : List Request) :
    ∀ (c0 c : Client) (log : List Word), play pool c0 reqs = .ok (c, log) →
      c.used_words = log.reverse ++ c0.used_words ∧ (∀ w ∈ log, w ∈ pool) ∧
        (c0.used_words.Nodup → c.used_words.Nodup) := by
  induction reqs with
  | nil =>
    intro c0 c log h
    unfold play at h
    injection h with h
    injection h with h1 h2
    subst h1; subst h2
    exact ⟨by simp, by simp, id⟩
  | cons req rest ih =>
    intro c0 c log h
    cases req with
    | Guess t =>
      unfold play at h
      split at h
      · cases h
      · rename_i c1 hc1
        split at h
        · cases h
        · rename_i c2 log1 hrest
          obtain ⟨hu, hp, hn⟩ := ih c1 c2 log1 hrest
          simp only at h
          injection h with h
          injection h with h1 h2
          subst h1; subst h2
          have hsame : c1.used_words = c0.used_words := (calculate_results_frame hc1).1
          rw [hsame] at hu hn
          exact ⟨hu, hp, hn⟩
    | New rnd =>
      unfold play at h
      split at h
      · cases h
      · rename_i c1 hc1
        split at h
        · cases h
        · rename_i c2 log1 hrest
          obtain ⟨hu, hp, hn⟩ := ih c1 c2 log1 hrest
          by_cases hopen : c1.current_game.status = GameStatus.Open
          · obtain ⟨s1, hs1, hcont, _, _, hused, hsec1, _⟩ := new_game_open hc1 hopen
            simp only [hopen, hsec1] at h
            injection h with h
            injection h with h1 h2
            subst h1; subst h2
            refine ⟨?_, ?_, ?_⟩
            · rw [hu, hused]; simp
            · intro w hw
              rcases List.mem_cons.mp hw with rfl | hw
              · exact hs1
              · exact hp w hw
            · intro hnd
              apply hn
              rw [hused]
              exact List.nodup_cons.mpr ⟨not_mem_of_contains_false hcont, hnd⟩
          · have hsame : c1.used_words = c0.used_words := new_game_impossible_frame hc1 hopen
            have hlog : log = log1 ∧ c = c2 := by
              split at h
              · rename_i hst _
                rename_i heq
                exact absurd hst hopen
              · injection h with h
                injection h with h1 h2
                exact ⟨h2.symm, h1.symm⟩
            obtain ⟨rfl, rfl⟩ := hlog
            rw [hsame] at hu hn
            exact ⟨hu, hp, hn⟩

/-! ## Claims C1 to C4: new_game -/

/-- C1: if new_game returns with the session in state Open, the secret it selected is an entry of
the pool that was not in the used-word list of the session before the call (contains found no
equal word there), and after the call the used-word list is that word in front of the list as
it was. An empty pool has no result at all (the start index is a division by zero). -/
theorem C1_new_game_selects_unused_word (pool : List Word) (r : Nat) (c c1 : Client)
    (h : new_game pool r c = .ok c1) (hopen : c1.current_game.status = GameStatus.Open) :
    ∃ s, c1.current_game.secret_word = some s ∧ s ∈ pool ∧ s ∉ c.used_words ∧
      contains c.used_words s = false ∧ s ∈ c1.used_words ∧
      c1.used_words = s :: c.used_words := by
  obtain ⟨s, hs, hcont, _, _, hused, hsec, _⟩ := new_game_open h hopen
  exact ⟨s, hsec, hs, not_mem_of_contains_false hcont, hcont, by simp [hused], hused⟩

/-- Witness of C1: the pool CAT, DOG with start index 0 and a fresh session. -/
theorem C1_new_game_selects_unused_word_witness :
    new_game [wordCAT, wordDOG] 0 freshClient = .ok (catClient ['_', '_', '_'] GameStatus.Open 0) ∧
    ∃ s, (catClient ['_', '_', '_'] GameStatus.Open 0).current_game.secret_word = some s ∧
      s ∈ [wordCAT, wordDOG] ∧ s ∉ freshClient.used_words ∧
      contains freshClient.used_words s = false ∧
      s ∈ (catClient ['_', '_', '_'] GameStatus.Open 0).used_words ∧
      (catClient ['_', '_', '_'] GameStatus.Open 0).used_words = s :: freshClient.used_words :=
  ⟨rfl, C1_new_game_selects_unused_word [wordCAT, wordDOG] 0 freshClient
    (catClient ['_', '_', '_'] GameStatus.Open 0) rfl rfl⟩

/-- C2: for a pool of size N >= 1 and a session that starts with an empty used-word list, once a
run of requests has had N new-game requests that left the session Open, every further new-game
request (whatever the start index) returns with the session in state Impossible. -/
theorem C2_pool_exhausted_after_N_selections (pool : List Word) (c0 c : Client)
    (reqs : List Request) (log : List Word) (r : Nat)
    (hN : 1 ≤ pool.length) (h0 : c0.used_words = [])
    (hplay : play pool c0 reqs = .ok (c, log)) (hcount : log.length = pool.length) :
    ∃ c1, new_game pool r c = .ok c1 ∧ c1.current_game.status = GameStatus.Impossible := by
  obtain ⟨hu, hp, hn⟩ := play_used_words pool reqs c0 c log hplay
  rw [h0] at hu hn
  simp only [List.append_nil] at hu
  have hnd : c.used_words.Nodup := hn List.nodup_nil
  have hsub : c.used_words ⊆ pool := by
    intro w hw
    rw [hu] at hw
    exact hp w (List.mem_reverse.mp hw)
  have hperm : c.used_words.Perm pool :=
    (List.subperm_of_subset hnd hsub).perm_of_length_le (by rw [hu]; simp [hcount])
  have hall : ∀ w ∈ pool, contains c.used_words w = true :=
    fun w hw => contains_of_mem (hperm.mem_iff.mpr hw)
  have hprobe := new_game_probe_exhausted hall pool.length
    (Nat.mod_lt r (show pool.length > 0 by omega))
  refine ⟨{ c with current_game := { c.current_game with status := GameStatus.Impossible } },
    ?_, rfl⟩
  unfold new_game
  rw [if_neg (by omega), hprobe]

/-- Witness of C2: the pool CAT, DOG; two selections succeed, the third request is Impossible. -/
theorem C2_pool_exhausted_after_N_selections_witness :
    play [wordCAT, wordDOG] freshClient [.New 0, .Guess 'C', .New 0]
      = .ok ({ clientID := 0, used_words := [wordDOG, wordCAT],
               current_game := { secret_word := some wordDOG,
                                 obscured_word := bufferOf ['_', '_', '_'],
                                 status := GameStatus.Open, errors := 0 } },
             [wordCAT, wordDOG]) ∧
    ∃ c1, new_game [wordCAT, wordDOG] 1
        { clientID := 0, used_words := [wordDOG, wordCAT],
          current_game := { secret_word := some wordDOG,
                            obscured_word := bufferOf ['_', '_', '_'],
                            status := GameStatus.Open, errors := 0 } } = .ok c1 ∧
      c1.current_game.status = GameStatus.Impossible :=
  ⟨rfl, C2_pool_exhausted_after_N_selections [wordCAT, wordDOG] freshClient _
    [.New 0, .Guess 'C', .New 0] [wordCAT, wordDOG] 1 (by decide) rfl rfl rfl⟩

/-- C3 as stated fails: with the pool CAT, CAT a fresh session gets one successful selection, and
the second new-game request is Impossible for every pair of start indices (0 or 1 each). -/
theorem C3_counterexample_duplicate_pool :
    (play [wordCAT, wordCAT] freshClient [.New 0, .New 0]).map
        (fun p => (p.1.current_game.status, p.2)) = .ok (GameStatus.Impossible, [wordCAT]) ∧
    (play [wordCAT, wordCAT] freshClient [.New 0, .New 1]).map
        (fun p => (p.1.current_game.status, p.2)) = .ok (GameStatus.Impossible, [wordCAT]) ∧
    (play [wordCAT, wordCAT] freshClient [.New 1, .New 0]).map
        (fun p => (p.1.current_game.status, p.2)) = .ok (GameStatus.Impossible, [wordCAT]) ∧
    (play [wordCAT, wordCAT] freshClient [.New 1, .New 1]).map
        (fun p => (p.1.current_game.status, p.2)) = .ok (GameStatus.Impossible, [wordCAT]) :=
  ⟨rfl, rfl, rfl, rfl⟩

/-- C3 amended: a word is selectable once per session, however many positions of the pool hold
it. In every run of requests of one session the secrets of the successful new-game selections
are pairwise different words (the log has no duplicate), so each word is selected at most once,
and no later new-game selection of the session selects a word of the log again. -/
theorem C3_word_selected_at_most_once (pool : List Word) (c0 c : Client)
    (reqs : List Request) (log : List Word)
    (hplay : play pool c0 reqs = .ok (c, log)) :
    log.Nodup ∧
      (∀ w ∈ log, ∀ r c1, new_game pool r c = .ok c1 →
        c1.current_game.status = GameStatus.Open → c1.current_game.secret_word ≠ some w) := by
  have key : ∀ (reqs : List Request) (c0 c : Client) (log : List Word),
      play pool c0 reqs = .ok (c, log) → log.Nodup ∧ ∀ w ∈ log, w ∉ c0.used_words := by
    intro reqs
    induction reqs with
    | nil =>
      intro c0 c log h
      unfold play at h
      injection h with h
      injection h with h1 h2
      subst h2
      exact ⟨List.nodup_nil, by simp⟩
    | cons req rest ih =>
      intro c0 c log h
      have hfull := play_used_words pool (req :: rest) c0 c log h
      cases req with
      | Guess t =>
        unfold play at h
        split at h
        · cases h
        · rename_i c1 hc1
          split at h
          · cases h
          · rename_i c2 log1 hrest
            obtain ⟨hnd, hnot⟩ := ih c1 c2 log1 hrest
            simp only at h
            injection h with h
            injection h with h1 h2
            subst h1; subst h2
            rw [(calculate_results_frame hc1).1] at hnot
            exact ⟨hnd, hnot⟩
      | New rnd =>
        unfold play at h
        split at h
        · cases h
        · rename_i c1 hc1
          split at h
          · cases h
          · rename_i c2 log1 hrest
            obtain ⟨hnd, hnot⟩ := ih c1 c2 log1 hrest
            by_cases hopen : c1.current_game.status = GameStatus.Open
            · obtain ⟨s1, hs1, hcont, _, _, hused, hsec1, _⟩ := new_game_open hc1 hopen
              simp only [hopen, hsec1] at h
              injection h with h
              injection h with h1 h2
              subst h1; subst h2
              rw [hused] at hnot
              refine ⟨List.nodup_cons.mpr ⟨fun hin => hnot s1 hin (List.mem_cons_self _ _), hnd⟩,
                ?_⟩
              intro w hw
              rcases List.mem_cons.mp hw with rfl | hw
              · exact not_mem_of_contains_false hcont
              · exact fun hin => hnot w hw (List.mem_cons_of_mem _ hin)
            · have hsame : c1.used_words = c0.used_words := new_game_impossible_frame hc1 hopen
              have hlog : log = log1 := by
                split at h
                · rename_i hst _
                  exact absurd hst hopen
                · injection h with h
                  injection h with h1 h2
                  exact h2.symm
              subst hlog
              rw [hsame] at hnot
              exact ⟨hnd, hnot⟩
  obtain ⟨hnd, _⟩ := key reqs c0 c log hplay
  refine ⟨hnd, ?_⟩
  intro w hw r c1 hnew hopen hsec
  obtain ⟨s, _, hcont, _, _, _, hsec1, _⟩ := new_game_open hnew hopen
  rw [hsec] at hsec1
  injection hsec1 with hsec1
  subst hsec1
  have hin : w ∈ c.used_words := by
    rw [(play_used_words pool reqs c0 c log hplay).1]
    exact List.mem_append_left _ (List.mem_reverse.mpr hw)
  exact not_mem_of_contains_false hcont hin

/-- Witness of C3 amended: the pool CAT, CAT; the first request selects CAT, the second is
Impossible. -/
theorem C3_word_selected_at_most_once_witness :
    play [wordCAT, wordCAT] freshClient [.New 0, .New 1]
      = .ok (catClient ['_', '_', '_'] GameStatus.Impossible 0, [wordCAT]) ∧
    ([wordCAT].Nodup ∧
      (∀ w ∈ [wordCAT], ∀ r c1,
        new_game [wordCAT, wordCAT] r (catClient ['_', '_', '_'] GameStatus.Impossible 0) = .ok c1 →
        c1.current_game.status = GameStatus.Open → c1.current_game.secret_word ≠ some w)) :=
  ⟨rfl, C3_word_selected_at_most_once [wordCAT, wordCAT] freshClient _
    [.New 0, .New 1] [wordCAT] rfl⟩

/-- C4: after a new_game that returns with the session in state Open, with selected secret s of
length L, L is at most MAX_WORD_LENGTH - 2, errorCount is 0, the obscured word has exactly
length L, and every position i < L holds a space when s[i] is a space and the mask otherwise. -/
theorem C4_new_game_builds_obscured_word (pool : List Word) (r : Nat) (c c1 : Client)
    (h : new_game pool r c = .ok c1) (hopen : c1.current_game.status = GameStatus.Open) :
    ∃ s, c1.current_game.secret_word = some s ∧ s ∈ pool ∧
      strlen s ≤ MAX_WORD_LENGTH - 2 ∧
      c1.current_game.status = GameStatus.Open ∧
      c1.current_game.errors = 0 ∧
      c1.current_game.obscured_word.length = MAX_WORD_LENGTH ∧
      strlen c1.current_game.obscured_word = strlen s ∧
      ∀ i, i < strlen s →
        charAt c1.current_game.obscured_word i = if charAt s i = SPACE then SPACE else MASK := by
  obtain ⟨s, hs, _, hL, _, _, hsec, herr, hlen, hpt⟩ := new_game_open h hopen
  refine ⟨s, hsec, hs, by omega, hopen, herr, hlen, ?_, ?_⟩
  · apply strlen_of_pointwise
    · intro j hj
      refine ⟨_, by rw [hpt j, if_pos hj], ?_⟩
      split
      · exact SPACE_ne_NUL
      · exact MASK_ne_NUL
    · rw [hpt (strlen s), if_neg (lt_irrefl _), if_pos (by omega)]
  · intro i hi
    apply charAt_of_getElem?
    rw [hpt i, if_pos hi]

/-- Witness of C4: the pool CAT, DOG with start index 0 and a fresh session. -/
theorem C4_new_game_builds_obscured_word_witness :
    new_game [wordCAT, wordDOG] 0 freshClient = .ok (catClient ['_', '_', '_'] GameStatus.Open 0) ∧
    ∃ s, (catClient ['_', '_', '_'] GameStatus.Open 0).current_game.secret_word = some s ∧
      s ∈ [wordCAT, wordDOG] ∧
      strlen s ≤ MAX_WORD_LENGTH - 2 ∧
      (catClient ['_', '_', '_'] GameStatus.Open 0).current_game.status = GameStatus.Open ∧
      (catClient ['_', '_', '_'] GameStatus.Open 0).current_game.errors = 0 ∧
      (catClient ['_', '_', '_'] GameStatus.Open 0).current_game.obscured_word.length
        = MAX_WORD_LENGTH ∧
      strlen (catClient ['_', '_', '_'] GameStatus.Open 0).current_game.obscured_word
        = strlen s ∧
      ∀ i, i < strlen s →
        charAt (catClient ['_', '_', '_'] GameStatus.Open 0).current_game.obscured_word i
          = if charAt s i = SPACE then SPACE else MASK :=
  ⟨rfl, C4_new_game_builds_obscured_word [wordCAT, wordDOG] 0 freshClient
    (catClient ['_', '_', '_'] GameStatus.Open 0) rfl rfl⟩

/-! ## Claims C5 to C8: calculate_results -/

theorem mem_matching_positions {s : Word} {t : Char} {j : Nat} :
    j ∈ matching_positions s t ↔ j < strlen s ∧ charAt s j = t := by
  simp [matching_positions]

theorem matching_positions_eq_nil {s : Word} {t : Char} :
    matching_positions s t = [] ↔ ∀ j, j < strlen s → charAt s j ≠ t := by
  rw [List.eq_nil_iff_forall_not_mem]
  constructor
  · intro h j hj hc
    exact h j (mem_matching_positions.mpr ⟨hj, hc⟩)
  · intro h j hj
    obtain ⟨h1, h2⟩ := mem_matching_positions.mp hj
    exact h j h1 h2

/-- The result of calculate_results for a session whose secret fits the obscured word. -/
theorem calculate_results_spec (c : Client) (t : Char) (s : Word)
    (hs : c.current_game.secret_word = some s)
    (hlen : c.current_game.obscured_word.length = MAX_WORD_LENGTH)
    (hfit : strlen s ≤ MAX_WORD_LENGTH) :
    ∃ buf1 error won,
      buf1.length = MAX_WORD_LENGTH ∧
      (∀ j, buf1[j]? = if j ∈ matching_positions s t then some t
        else c.current_game.obscured_word[j]?) ∧
      (error = true ↔ matching_positions s t = []) ∧
      (won = true ↔ ∀ j, j < strlen s → charAt buf1 j ≠ MASK) ∧
      calculate_results c t =
        if error then
          if (c.current_game.errors + 1) % UINT_RANGE ≥ MAX_ERROR then
            .ok { c with current_game :=
                    { c.current_game with
                      obscured_word := strncpy buf1 s MAX_WORD_LENGTH
                      status := GameStatus.Lost
                      errors := (c.current_game.errors + 1) % UINT_RANGE } }
          else
            .ok { c with current_game :=
                    { c.current_game with
                      obscured_word := buf1
                      errors := (c.current_game.errors + 1) % UINT_RANGE } }
        else if won then
          .ok { c with current_game :=
                  { c.current_game with obscured_word := buf1, status := GameStatus.Won } }
        else
          .ok { c with current_game := { c.current_game with obscured_word := buf1 } } := by
  obtain ⟨buf1, error, won, hrun, hl1, hb1, he1, hw1⟩ :=
    calculate_results_loop_spec s t (strlen s) 0 c.current_game.obscured_word true true hlen
      (by omega)
  refine ⟨buf1, error, won, hl1, ?_, ?_, ?_, ?_⟩
  · intro j
    rw [hb1 j]
    by_cases hj : j ∈ matching_positions s t
    · obtain ⟨h1, h2⟩ := mem_matching_positions.mp hj
      rw [if_pos hj, if_pos (show 0 ≤ j ∧ j < 0 + strlen s ∧ charAt s j = t from
        ⟨Nat.zero_le _, by omega, h2⟩)]
    · rw [if_neg hj, if_neg (show ¬ (0 ≤ j ∧ j < 0 + strlen s ∧ charAt s j = t) from
        fun h => hj (mem_matching_positions.mpr ⟨by omega, h.2.2⟩))]
  · rw [he1, matching_positions_eq_nil]
    constructor
    · intro h j hj
      exact h.2 j (Nat.zero_le _) (by omega)
    · intro h
      exact ⟨rfl, fun j _ hj => h j (by omega)⟩
  · rw [hw1]
    have hconv : ∀ j, j < strlen s → (buf1[j]? ≠ some MASK ↔ charAt buf1 j ≠ MASK) := by
      intro j hj
      have hjl : j < buf1.length := by omega
      unfold charAt
      rw [List.getD_eq_getElem?_getD, List.getElem?_eq_getElem hjl]
      simp
    constructor
    · intro h j hj
      exact (hconv j hj).mp (h.2 j (Nat.zero_le _) (by omega))
    · intro h
      exact ⟨rfl, fun j _ hj => (hconv j (by omega)).mpr (h j (by omega))⟩
  · unfold calculate_results
    simp only [hs, hrun]

/-- C5: for every session whose secret fits the obscured word (every session that requests can
reach does, see play_fits; the state of the session plays no part) and every guessed letter t
that matches k > 0 positions of the secret, calculate_results returns; the obscured word then
shows t at each of those k positions, every other position of the obscured word is as before,
and errorCount is unchanged. -/
theorem C5_matching_guess_reveals_positions (c : Client) (t : Char) (s : Word)
    (hs : c.current_game.secret_word = some s)
    (hwf : c.current_game.wf) (hfit : strlen s ≤ MAX_WORD_LENGTH)
    (hk : 0 < (matching_positions s t).length) :
    ∃ c1, calculate_results c t = .ok c1 ∧
      (∀ j, j ∈ matching_positions s t → c1.current_game.obscured_word[j]? = some t) ∧
      (∀ j, j ∉ matching_positions s t →
        c1.current_game.obscured_word[j]? = c.current_game.obscured_word[j]?) ∧
      c1.current_game.obscured_word.length = c.current_game.obscured_word.length ∧
      c1.current_game.errors = c.current_game.errors := by
  obtain ⟨buf1, error, won, hl1, hb1, he1, _, hres⟩ :=
    calculate_results_spec c t s hs hwf.1 hfit
  have herr : error = false := by
    cases error with
    | false => rfl
    | true =>
      rw [he1.mp rfl] at hk
      simp at hk
  subst herr
  have hp1 : ∀ j, j ∈ matching_positions s t → buf1[j]? = some t := by
    intro j hj; rw [hb1 j, if_pos hj]
  have hp2 : ∀ j, j ∉ matching_positions s t → buf1[j]? = c.current_game.obscured_word[j]? := by
    intro j hj; rw [hb1 j, if_neg hj]
  cases won with
  | true => exact ⟨_, hres, hp1, hp2, by simp [hl1, hwf.1], rfl⟩
  | false => exact ⟨_, hres, hp1, hp2, by simp [hl1, hwf.1], rfl⟩

/-- Witness of C5: secret CAT, obscured word all masks, guess C. -/
theorem C5_matching_guess_reveals_positions_witness :
    0 < (matching_positions wordCAT 'C').length ∧
    ∃ c1, calculate_results (catClient ['_', '_', '_'] GameStatus.Open 0) 'C' = .ok c1 ∧
      (∀ j, j ∈ matching_positions wordCAT 'C' → c1.current_game.obscured_word[j]? = some 'C') ∧
      (∀ j, j ∉ matching_positions wordCAT 'C' →
        c1.current_game.obscured_word[j]?
          = (catClient ['_', '_', '_'] GameStatus.Open 0).current_game.obscured_word[j]?) ∧
      c1.current_game.obscured_word.length
        = (catClient ['_', '_', '_'] GameStatus.Open 0).current_game.obscured_word.length ∧
      c1.current_game.errors = (catClient ['_', '_', '_'] GameStatus.Open 0).current_game.errors :=
  ⟨by decide, C5_matching_guess_reveals_positions (catClient ['_', '_', '_'] GameStatus.Open 0)
    'C' wordCAT rfl (by decide) (by decide) (by decide)⟩

/-- C6 amended: for every session whose secret fits the obscured word and every guessed letter
that matches no position of the secret, calculate_results returns and increments the unsigned
errorCount: the new value is the old one plus 1 modulo 2^32, hence exactly one more whenever the
old value is below 4294967295; if the new errorCount is below MAX_ERROR, the state and the
obscured word are unchanged. -/
theorem C6_nonmatching_guess_increments_errors (c : Client) (t : Char) (s : Word)
    (hs : c.current_game.secret_word = some s)
    (hwf : c.current_game.wf) (hfit : strlen s ≤ MAX_WORD_LENGTH)
    (hnone : matching_positions s t = []) :
    ∃ c1, calculate_results c t = .ok c1 ∧
      c1.current_game.errors = (c.current_game.errors + 1) % UINT_RANGE ∧
      (c.current_game.errors < UINT_RANGE - 1 →
        c1.current_game.errors = c.current_game.errors + 1) ∧
      (c1.current_game.errors < MAX_ERROR →
        c1.current_game.status = c.current_game.status ∧
        c1.current_game.obscured_word = c.current_game.obscured_word) := by
  obtain ⟨buf1, error, won, hl1, hb1, he1, _, hres⟩ :=
    calculate_results_spec c t s hs hwf.1 hfit
  have herr : error = true := he1.mpr hnone
  subst herr
  have hsame : buf1 = c.current_game.obscured_word := by
    apply List.ext_getElem?
    intro j
    rw [hb1 j, hnone]
    simp
  subst hsame
  have hmod : c.current_game.errors < UINT_RANGE - 1 →
      (c.current_game.errors + 1) % UINT_RANGE = c.current_game.errors + 1 := by
    intro h
    exact Nat.mod_eq_of_lt (by omega)
  by_cases hge : (c.current_game.errors + 1) % UINT_RANGE ≥ MAX_ERROR
  · simp only [if_true, if_pos hge] at hres
    refine ⟨_, hres, rfl, hmod, ?_⟩
    intro hlt
    simp only at hlt
    omega
  · simp only [if_true, if_neg hge] at hres
    exact ⟨_, hres, rfl, hmod, fun _ => ⟨rfl, rfl⟩⟩

/-- Witness of C6 amended: secret CAT, two errors so far, guess X. -/
theorem C6_nonmatching_guess_increments_errors_witness :
    matching_positions wordCAT 'X' = [] ∧
    ∃ c1, calculate_results (catClient ['_', '_', '_'] GameStatus.Open 2) 'X' = .ok c1 ∧
      c1.current_game.errors
        = ((catClient ['_', '_', '_'] GameStatus.Open 2).current_game.errors + 1) % UINT_RANGE ∧
      ((catClient ['_', '_', '_'] GameStatus.Open 2).current_game.errors < UINT_RANGE - 1 →
        c1.current_game.errors
          = (catClient ['_', '_', '_'] GameStatus.Open 2).current_game.errors + 1) ∧
      (c1.current_game.errors < MAX_ERROR →
        c1.current_game.status
          = (catClient ['_', '_', '_'] GameStatus.Open 2).current_game.status ∧
        c1.current_game.obscured_word
          = (catClient ['_', '_', '_'] GameStatus.Open 2).current_game.obscured_word) :=
  ⟨by decide, C6_nonmatching_guess_increments_errors
    (catClient ['_', '_', '_'] GameStatus.Open 2) 'X' wordCAT rfl (by decide) (by decide)
    (by decide)⟩

/-- C8: for every Open session whose secret fits the obscured word and every guessed letter that
matches at least one position, calculate_results returns, and afterwards the state is Won if
and only if no position of the obscured word below the length of the secret holds the mask; if
a mask remains there the state is still Open. -/
theorem C8_won_iff_no_mask_remains (c : Client) (t : Char) (s : Word)
    (hs : c.current_game.secret_word = some s)
    (hwf : c.current_game.wf) (hfit : strlen s ≤ MAX_WORD_LENGTH)
    (hopen : c.current_game.status = GameStatus.Open)
    (hk : 0 < (matching_positions s t).length) :
    ∃ c1, calculate_results c t = .ok c1 ∧
      (c1.current_game.status = GameStatus.Won ↔
        ∀ j, j < strlen s → charAt c1.current_game.obscured_word j ≠ MASK) ∧
      ((∃ j, j < strlen s ∧ charAt c1.current_game.obscured_word j = MASK) →
        c1.current_game.status = GameStatus.Open) := by
  obtain ⟨buf1, error, won, hl1, hb1, he1, hw1, hres⟩ :=
    calculate_results_spec c t s hs hwf.1 hfit
  have herr : error = false := by
    cases error with
    | false => rfl
    | true =>
      rw [he1.mp rfl] at hk
      simp at hk
  subst herr
  cases won with
  | true =>
    have hall := hw1.mp rfl
    refine ⟨_, hres, ?_, ?_⟩
    · exact ⟨fun _ => hall, fun _ => rfl⟩
    · rintro ⟨j, hj, hm⟩
      exact absurd hm (hall j hj)
  | false =>
    have hnot : ¬ ∀ j, j < strlen s → charAt buf1 j ≠ MASK := fun h => by
      have := hw1.mpr h
      cases this
    refine ⟨_, hres, ?_, ?_⟩
    · constructor
      · intro h
        simp only [Bool.false_eq_true, if_false] at h
        rw [hopen] at h
        cases h
      · intro h
        exact absurd h hnot
    · intro _
      exact hopen

/-- Witness of C8: secret CAT with C and A shown; the guess T wins the game. -/
theorem C8_won_iff_no_mask_remains_witness :
    0 < (matching_positions wordCAT 'T').length ∧
    ∃ c1, calculate_results (catClient ['C', 'A', '_'] GameStatus.Open 0) 'T' = .ok c1 ∧
      (c1.current_game.status = GameStatus.Won ↔
        ∀ j, j < strlen wordCAT → charAt c1.current_game.obscured_word j ≠ MASK) ∧
      ((∃ j, j < strlen wordCAT ∧ charAt c1.current_game.obscured_word j = MASK) →
        c1.current_game.status = GameStatus.Open) :=
  ⟨by decide, C8_won_iff_no_mask_remains (catClient ['C', 'A', '_'] GameStatus.Open 0) 'T'
    wordCAT rfl (by decide) (by decide) rfl (by decide)⟩

theorem cstr_no_NUL {s : List Char} {ch : Char} (h : ch ∈ cstr s) : ch ≠ NUL := by
  have := List.mem_takeWhile_imp h
  simpa using this

theorem cstr_strncpy (dst : List Char) (src : Word) (n : Nat) (h : strlen src < n) :
    cstr (strncpy dst src n) = cstr src := by
  unfold strncpy
  have htake : (cstr src).take n = cstr src := List.take_of_length_le (by unfold strlen at h; omega)
  obtain ⟨k, hk⟩ : ∃ k, n - strlen src = k + 1 := ⟨n - strlen src - 1, by omega⟩
  rw [htake, hk, List.replicate_succ, List.append_assoc]
  unfold cstr
  rw [List.takeWhile_append_of_pos]
  · simp
  · intro a ha
    have := cstr_no_NUL ha
    simpa using this

theorem play_guesses_append (c : Client) (ts us : List Char) :
    play_guesses c (ts ++ us) =
      match play_guesses c ts with
      | .error e => .error e
      | .ok c1 => play_guesses c1 us := by
  induction ts generalizing c with
  | nil => rfl
  | cons t ts ih =>
    simp only [List.cons_append, play_guesses]
    cases calculate_results c t with
    | error e => rfl
    | ok c1 => exact ih c1

/-- The result of calculate_results when the guess matches no position. -/
theorem calculate_results_nonmatching (c : Client) (t : Char) (s : Word)
    (hs : c.current_game.secret_word = some s)
    (hlen : c.current_game.obscured_word.length = MAX_WORD_LENGTH)
    (hfit : strlen s ≤ MAX_WORD_LENGTH)
    (hnone : matching_positions s t = []) :
    calculate_results c t =
      if (c.current_game.errors + 1) % UINT_RANGE ≥ MAX_ERROR then
        .ok { c with current_game :=
                { c.current_game with
                  obscured_word := strncpy c.current_game.obscured_word s MAX_WORD_LENGTH
                  status := GameStatus.Lost
                  errors := (c.current_game.errors + 1) % UINT_RANGE } }
      else
        .ok { c with current_game :=
                { c.current_game with errors := (c.current_game.errors + 1) % UINT_RANGE } } := by
  obtain ⟨buf1, error, won, hl1, hb1, he1, _, hres⟩ :=
    calculate_results_spec c t s hs hlen hfit
  have herr : error = true := he1.mpr hnone
  subst herr
  have hsame : buf1 = c.current_game.obscured_word := by
    apply List.ext_getElem?
    intro j
    rw [hb1 j, hnone]
    simp
  subst hsame
  simpa using hres

/-- Non-matching guesses while the error count stays below MAX_ERROR change nothing but the
count. -/
theorem play_guesses_nonmatching_below (s : Word) (ts : List Char) :
    ∀ c : Client, c.current_game.secret_word = some s →
      c.current_game.obscured_word.length = MAX_WORD_LENGTH →
      strlen s ≤ MAX_WORD_LENGTH → (∀ t ∈ ts, matching_positions s t = []) →
      c.current_game.errors + ts.length < MAX_ERROR →
      play_guesses c ts = .ok { c with current_game :=
        { c.current_game with errors := c.current_game.errors + ts.length } } := by
  induction ts with
  | nil => intro c _ _ _ _ _; rfl
  | cons t ts ih =>
    intro c hs hlen hfit hnon hlt
    simp only [List.length_cons] at hlt
    have hstep := calculate_results_nonmatching c t s hs hlen hfit (hnon t (List.mem_cons_self _ _))
    have hE : MAX_ERROR = 9 := rfl
    have hU : UINT_RANGE = 4294967296 := rfl
    have hmod : (c.current_game.errors + 1) % UINT_RANGE = c.current_game.errors + 1 :=
      Nat.mod_eq_of_lt (by omega)
    rw [hmod, if_neg (by omega)] at hstep
    unfold play_guesses
    rw [hstep]
    refine (ih { c with current_game :=
        { c.current_game with errors := c.current_game.errors + 1 } }
      hs hlen hfit (fun u hu => hnon u (List.mem_cons_of_mem _ hu))
      (by show c.current_game.errors + 1 + ts.length < MAX_ERROR; omega)).trans ?_
    simp only [List.length_cons]
    congr 3
    omega

/-- C7: for every game that is Open with errorCount e < MAX_ERROR (= 9) and whose secret is
shorter than MAX_WORD_LENGTH, any MAX_ERROR - e consecutive non-matching guesses are all
evaluated and end in state Lost with errorCount = MAX_ERROR and the obscured word (and so the
word copied to the mailbox, whatever it held) equal to the secret character for character,
while after any smaller number of these guesses the game is still Open. -/
theorem C7_max_errors_give_lost_with_secret (c : Client) (s : Word) (ts : List Char)
    (hs : c.current_game.secret_word = some s)
    (hwf : c.current_game.wf) (hshort : strlen s < MAX_WORD_LENGTH)
    (hopen : c.current_game.status = GameStatus.Open)
    (he : c.current_game.errors < MAX_ERROR)
    (hnon : ∀ t ∈ ts, matching_positions s t = [])
    (hcount : ts.length = MAX_ERROR - c.current_game.errors) :
    (∃ c1, play_guesses c ts = .ok c1 ∧
      c1.current_game.status = GameStatus.Lost ∧
      c1.current_game.errors = MAX_ERROR ∧
      cstr c1.current_game.obscured_word = cstr s ∧
      ∀ word, cstr (strncpy word c1.current_game.obscured_word MAX_WORD_LENGTH) = cstr s) ∧
    (∀ k, k < ts.length → ∃ ck, play_guesses c (ts.take k) = .ok ck ∧
      ck.current_game.status = GameStatus.Open ∧
      ck.current_game.errors = c.current_game.errors + k) := by
  have hE : MAX_ERROR = 9 := rfl
  constructor
  · rcases List.eq_nil_or_concat ts with hnil | ⟨init, last, hcat⟩
    · rw [hnil] at hcount
      simp only [List.length_nil] at hcount
      omega
    · rw [List.concat_eq_append] at hcat
      subst hcat
      simp only [List.length_append, List.length_singleton] at hcount
      have hinit := play_guesses_nonmatching_below s init c hs hwf.1 (by omega)
        (fun u hu => hnon u (List.mem_append_left _ hu)) (by omega)
      rw [play_guesses_append, hinit]
      simp only
      have hstep := calculate_results_nonmatching
        { c with current_game :=
          { c.current_game with errors := c.current_game.errors + init.length } }
        last s hs hwf.1 (by omega) (hnon last (by simp))
      have h9 : c.current_game.errors + init.length + 1 = MAX_ERROR := by omega
      simp only [h9] at hstep
      rw [if_pos (by decide)] at hstep
      unfold play_guesses
      rw [hstep]
      simp only [play_guesses]
      have hc : cstr (strncpy c.current_game.obscured_word s MAX_WORD_LENGTH) = cstr s :=
        cstr_strncpy _ _ _ hshort
      refine ⟨_, rfl, rfl, rfl, hc, fun word => ?_⟩
      simp only
      rw [cstr_strncpy word _ _ (by unfold strlen; rw [hc]; exact hshort), hc]
  · intro k hk
    have hlen : (ts.take k).length = k := by
      rw [List.length_take]; omega
    have hrun := play_guesses_nonmatching_below s (ts.take k) c hs hwf.1 (by omega)
      (fun u hu => hnon u (List.mem_of_mem_take hu)) (by omega)
    rw [hlen] at hrun
    exact ⟨_, hrun, hopen, rfl⟩

/-- Witness of C7: nine non-matching guesses on the fresh game that new_game opens for CAT. -/
theorem C7_max_errors_give_lost_with_secret_witness :
    new_game [wordCAT, wordDOG] 0 freshClient = .ok (catClient ['_', '_', '_'] GameStatus.Open 0) ∧
    (∃ c1, play_guesses (catClient ['_', '_', '_'] GameStatus.Open 0)
        ['B', 'D', 'E', 'F', 'G', 'H', 'I', 'J', 'K'] = .ok c1 ∧
      c1.current_game.status = GameStatus.Lost ∧
      c1.current_game.errors = MAX_ERROR ∧
      cstr c1.current_game.obscured_word = cstr wordCAT ∧
      ∀ word, cstr (strncpy word c1.current_game.obscured_word MAX_WORD_LENGTH) = cstr wordCAT) ∧
    (∀ k, k < ['B', 'D', 'E', 'F', 'G', 'H', 'I', 'J', 'K'].length →
      ∃ ck, play_guesses (catClient ['_', '_', '_'] GameStatus.Open 0)
          (['B', 'D', 'E', 'F', 'G', 'H', 'I', 'J', 'K'].take k) = .ok ck ∧
        ck.current_game.status = GameStatus.Open ∧
        ck.current_game.errors
          = (catClient ['_', '_', '_'] GameStatus.Open 0).current_game.errors + k) :=
  ⟨rfl, C7_max_errors_give_lost_with_secret (catClient ['_', '_', '_'] GameStatus.Open 0)
    wordCAT ['B', 'D', 'E', 'F', 'G', 'H', 'I', 'J', 'K'] rfl (by decide) (by decide) rfl
    (by decide) (by decide) (by decide)⟩

/-! ## Claim C9: a whole game -/

theorem isAlpha_ne_SPACE {ch : Char} (h : ch.isAlpha = true) : ch ≠ SPACE := by
  intro e; subst e; exact absurd h (by decide)

theorem isAlpha_ne_MASK {ch : Char} (h : ch.isAlpha = true) : ch ≠ MASK := by
  intro e; subst e; exact absurd h (by decide)

theorem isAlpha_ne_NUL {ch : Char} (h : ch.isAlpha = true) : ch ≠ NUL := by
  intro e; subst e; exact absurd h (by decide)

theorem cstr_eq_self {s : List Char} (h : ∀ ch ∈ s, ch ≠ NUL) : cstr s = s := by
  unfold cstr
  rw [List.takeWhile_eq_self_iff]
  intro ch hch
  simpa using h ch hch

theorem charAt_mem {s : Word} {j : Nat} (hj : j < s.length) : charAt s j ∈ s := by
  unfold charAt
  rw [List.getD_eq_getElem?_getD, List.getElem?_eq_getElem hj]
  exact List.getElem_mem hj

/-- One guess of a letter of the secret in a game that is in play. -/
theorem InPlay_step {s : Word} {G : List Char} {c : Client} {t : Char}
    (hchars : ∀ ch ∈ s, ch.isAlpha = true ∨ ch = SPACE)
    (hL : s.length < MAX_WORD_LENGTH)
    (hinv : InPlay s G c) (hts : t ∈ s) :
    ∃ c1, calculate_results c t = .ok c1 ∧
      c1.current_game.secret_word = some s ∧
      c1.current_game.obscured_word.length = MAX_WORD_LENGTH ∧
      c1.current_game.errors = 0 ∧
      (∀ j, j < s.length → c1.current_game.obscured_word[j]? = some (shown_char s (t :: G) j)) ∧
      c1.current_game.obscured_word[s.length]? = some NUL ∧
      ((∀ ch ∈ s, ch = SPACE ∨ ch ∈ t :: G) → c1.current_game.status = GameStatus.Won) ∧
      (¬ (∀ ch ∈ s, ch = SPACE ∨ ch ∈ t :: G) → c1.current_game.status = GameStatus.Open) := by
  obtain ⟨hs, hlen, herr0, hopen, hpt, hz⟩ := hinv
  have hnn : ∀ ch ∈ s, ch ≠ NUL := by
    intro ch hch
    rcases hchars ch hch with h | h
    · exact isAlpha_ne_NUL h
    · rw [h]; exact SPACE_ne_NUL
  have hstr : strlen s = s.length := by unfold strlen; rw [cstr_eq_self hnn]
  obtain ⟨buf1, error, won, hl1, hb1, he1, hw1, hres⟩ :=
    calculate_results_spec c t s hs hlen (by omega)
  -- the guess matches a position
  obtain ⟨j0, hj0, hj0t⟩ := List.getElem_of_mem hts
  have hmatch : j0 ∈ matching_positions s t :=
    mem_matching_positions.mpr ⟨by omega, by
      unfold charAt
      rw [List.getD_eq_getElem?_getD, List.getElem?_eq_getElem hj0, hj0t]
      rfl⟩
  have herr : error = false := by
    cases error with
    | false => rfl
    | true =>
      rw [he1.mp rfl] at hmatch
      cases hmatch
  subst herr
  -- the obscured word after the guess
  have hnew : ∀ j, j < s.length → buf1[j]? = some (shown_char s (t :: G) j) := by
    intro j hj
    rw [hb1 j]
    by_cases hm : j ∈ matching_positions s t
    · rw [if_pos hm]
      have hc := (mem_matching_positions.mp hm).2
      unfold shown_char
      rw [if_pos (Or.inr (by rw [hc]; exact List.mem_cons_self _ _)), hc]
    · rw [if_neg hm, hpt j hj]
      have hc : charAt s j ≠ t := fun e => hm (mem_matching_positions.mpr ⟨by omega, e⟩)
      unfold shown_char
      have hiff : (charAt s j = SPACE ∨ charAt s j ∈ t :: G) ↔
          (charAt s j = SPACE ∨ charAt s j ∈ G) := by
        rw [List.mem_cons]
        constructor
        · rintro (h | h | h)
          · exact Or.inl h
          · exact absurd h hc
          · exact Or.inr h
        · rintro (h | h)
          · exact Or.inl h
          · exact Or.inr (Or.inr h)
      by_cases hcond : charAt s j = SPACE ∨ charAt s j ∈ G
      · rw [if_pos hcond, if_pos (hiff.mpr hcond)]
      · rw [if_neg hcond, if_neg (fun h => hcond (hiff.mp h))]
  have hzn : buf1[s.length]? = some NUL := by
    rw [hb1 s.length, if_neg, hz]
    intro hm
    have := (mem_matching_positions.mp hm).1
    omega
  -- the flag won
  have hwon : won = true ↔ ∀ ch ∈ s, ch = SPACE ∨ ch ∈ t :: G := by
    rw [hw1, hstr]
    constructor
    · intro h ch hch
      obtain ⟨j, hj, hjc⟩ := List.getElem_of_mem hch
      have hcj : charAt s j = ch := by
        unfold charAt
        rw [List.getD_eq_getElem?_getD, List.getElem?_eq_getElem hj, hjc]
        rfl
      have h1 := h j hj
      rw [charAt_of_getElem? (hnew j hj)] at h1
      unfold shown_char at h1
      by_cases hcond : charAt s j = SPACE ∨ charAt s j ∈ t :: G
      · rw [hcj] at hcond; exact hcond
      · rw [if_neg hcond] at h1
        exact absurd rfl h1
    · intro h j hj
      rw [charAt_of_getElem? (hnew j hj)]
      unfold shown_char
      have hcond := h (charAt s j) (charAt_mem hj)
      rw [if_pos hcond]
      rcases hchars (charAt s j) (charAt_mem hj) with ha | ha
      · exact isAlpha_ne_MASK ha
      · rw [ha]; exact SPACE_ne_MASK
  cases won with
  | true =>
    refine ⟨_, hres, hs, hl1, herr0, hnew, hzn, fun _ => rfl, fun h => ?_⟩
    exact absurd (hwon.mp rfl) h
  | false =>
    refine ⟨_, hres, hs, hl1, herr0, hnew, hzn, fun h => ?_, fun _ => hopen⟩
    have := hwon.mpr h
    cases this

/-- Guesses of letters of the secret that leave some letter of the secret untried keep the game
in play. -/
theorem InPlay_run {s : Word} (hchars : ∀ ch ∈ s, ch.isAlpha = true ∨ ch = SPACE)
    (hL : s.length < MAX_WORD_LENGTH) (gs : List Char) :
    ∀ (G : List Char) (c : Client), InPlay s G c →
      (∀ t ∈ gs, t ∈ s ∧ t.isAlpha = true) →
      (∃ ch ∈ s, ch ≠ SPACE ∧ ch ∉ G ∧ ch ∉ gs) →
      ∃ c1, play_guesses c gs = .ok c1 ∧ InPlay s (gs.reverse ++ G) c1 := by
  induction gs with
  | nil =>
    intro G c hinv _ _
    exact ⟨c, rfl, by simpa using hinv⟩
  | cons t ts ih =>
    intro G c hinv hgs hleft
    obtain ⟨ch, hch, hsp, hG, hts⟩ := hleft
    obtain ⟨ht1, _⟩ := hgs t (List.mem_cons_self _ _)
    obtain ⟨c1, hc1, hs1, hl1, he1, hp1, hz1, _, hopen1⟩ := InPlay_step hchars hL hinv ht1
    have hnotcov : ¬ (∀ x ∈ s, x = SPACE ∨ x ∈ t :: G) := by
      intro hall
      rcases hall ch hch with h | h
      · exact hsp h
      · rcases List.mem_cons.mp h with h | h
        · exact hts (h ▸ List.mem_cons_self _ _)
        · exact hG h
    have hinv1 : InPlay s (t :: G) c1 := ⟨hs1, hl1, he1, hopen1 hnotcov, hp1, hz1⟩
    obtain ⟨c2, hc2, hinv2⟩ := ih (t :: G) c1 hinv1
      (fun u hu => hgs u (List.mem_cons_of_mem _ hu))
      ⟨ch, hch, hsp, fun h => by
        rcases List.mem_cons.mp h with h | h
        · exact hts (h ▸ List.mem_cons_self _ _)
        · exact hG h, fun h => hts (List.mem_cons_of_mem _ h)⟩
    refine ⟨c2, ?_, ?_⟩
    · unfold play_guesses
      rw [hc1]
      exact hc2
    · simpa [List.reverse_cons, List.append_assoc] using hinv2

/-- The state new_game produces is in play with no letter guessed. -/
theorem InPlay_new_game {pool : List Word} {r : Nat} {c0 c : Client} {s : Word}
    (hnew : new_game pool r c0 = .ok c) (hopen : c.current_game.status = GameStatus.Open)
    (hsec : c.current_game.secret_word = some s) (hnn : ∀ ch ∈ s, ch ≠ NUL) :
    InPlay s [] c ∧ s.length + 1 < MAX_WORD_LENGTH := by
  obtain ⟨s1, _, _, hL, _, _, hsec1, herr, hlen, hpt⟩ := new_game_open hnew hopen
  rw [hsec] at hsec1
  injection hsec1 with hsec1
  subst hsec1
  have hstr : strlen s = s.length := by unfold strlen; rw [cstr_eq_self hnn]
  rw [hstr] at hL hpt
  refine ⟨⟨hsec, hlen, herr, hopen, ?_, ?_⟩, hL⟩
  · intro j hj
    rw [hpt j, if_pos hj]
    unfold shown_char
    by_cases hsp : charAt s j = SPACE
    · rw [if_pos hsp, if_pos (Or.inl hsp), hsp]
    · rw [if_neg hsp, if_neg (by simpa using hsp)]
  · rw [hpt s.length, if_neg (lt_irrefl _), if_pos (by omega)]

/-- C9: for every secret made of letters and spaces with at least one letter, starting from the
state new_game produces for it, guessing each distinct letter of the secret exactly once, in any
order and with no other guess, evaluates every guess, keeps errorCount at 0, keeps the state
Open before the last of these guesses, and makes the state Won at the last one with the
obscured word equal to the secret. -/
theorem C9_guessing_all_letters_wins (pool : List Word) (r : Nat) (c0 c : Client) (s : Word)
    (gs : List Char)
    (hnew : new_game pool r c0 = .ok c) (hopen : c.current_game.status = GameStatus.Open)
    (hsec : c.current_game.secret_word = some s)
    (hchars : ∀ ch ∈ s, ch.isAlpha = true ∨ ch = SPACE)
    (hletter : ∃ ch ∈ s, ch.isAlpha = true)
    (hnodup : gs.Nodup) (hgs : ∀ ch, ch ∈ gs ↔ (ch ∈ s ∧ ch.isAlpha = true)) :
    (∀ k, k < gs.length → ∃ ck, play_guesses c (gs.take k) = .ok ck ∧
      ck.current_game.status = GameStatus.Open ∧ ck.current_game.errors = 0) ∧
    (∃ cf, play_guesses c gs = .ok cf ∧
      cf.current_game.status = GameStatus.Won ∧ cf.current_game.errors = 0 ∧
      cstr cf.current_game.obscured_word = s) := by
  have hnn : ∀ ch ∈ s, ch ≠ NUL := by
    intro ch hch
    rcases hchars ch hch with h | h
    · exact isAlpha_ne_NUL h
    · rw [h]; exact SPACE_ne_NUL
  obtain ⟨hinv, hL1⟩ := InPlay_new_game hnew hopen hsec hnn
  have hL : s.length < MAX_WORD_LENGTH := by omega
  constructor
  · intro k hk
    -- the guess number k is a letter of the secret that is not among the first k guesses
    have hsplit : gs.take k ++ gs.drop k = gs := List.take_append_drop k gs
    have hmemk : gs[k] ∈ gs.drop k := by
      rw [List.drop_eq_getElem_cons hk]
      exact List.mem_cons_self _ _
    have hnd : (gs.take k ++ gs.drop k).Nodup := by rw [hsplit]; exact hnodup
    have hnotin : gs[k] ∉ gs.take k := fun h =>
      (List.nodup_append.mp hnd).2.2 h hmemk
    obtain ⟨hks, hka⟩ := (hgs gs[k]).mp (List.getElem_mem hk)
    obtain ⟨ck, hck, hinvk⟩ := InPlay_run hchars hL (gs.take k) [] c hinv
      (fun t ht => (hgs t).mp (List.mem_of_mem_take ht))
      ⟨gs[k], hks, isAlpha_ne_SPACE hka, by simp, hnotin⟩
    exact ⟨ck, hck, hinvk.2.2.2.1, hinvk.2.2.1⟩
  · obtain ⟨a, has, haa⟩ := hletter
    rcases List.eq_nil_or_concat gs with hnil | ⟨init, last, hcat⟩
    · have : a ∈ gs := (hgs a).mpr ⟨has, haa⟩
      rw [hnil] at this
      cases this
    · rw [List.concat_eq_append] at hcat
      subst hcat
      obtain ⟨hls, hla⟩ := (hgs last).mp (by simp)
      have hnotin : last ∉ init := fun h =>
        (List.nodup_append.mp hnodup).2.2 h (List.mem_singleton_self _)
      obtain ⟨c1, hc1, hinv1⟩ := InPlay_run hchars hL init [] c hinv
        (fun t ht => (hgs t).mp (List.mem_append_left _ ht))
        ⟨last, hls, isAlpha_ne_SPACE hla, by simp, hnotin⟩
      obtain ⟨c2, hc2, hs2, hl2, he2, hp2, hz2, hwon2, _⟩ :=
        InPlay_step hchars hL hinv1 hls
      have hcov : ∀ ch ∈ s, ch = SPACE ∨ ch ∈ last :: (init.reverse ++ []) := by
        intro ch hch
        rcases hchars ch hch with h | h
        · right
          have hm : ch ∈ init ++ [last] := (hgs ch).mpr ⟨hch, h⟩
          rcases List.mem_append.mp hm with hm | hm
          · exact List.mem_cons_of_mem _ (by simpa using hm)
          · rw [List.mem_singleton.mp hm]; exact List.mem_cons_self _ _
        · exact Or.inl h
      refine ⟨c2, ?_, hwon2 hcov, he2, ?_⟩
      · rw [play_guesses_append, hc1]
        simp only [play_guesses, hc2]
      · have hshow : ∀ j, j < s.length → c2.current_game.obscured_word[j]? = s[j]? := by
          intro j hj
          rw [hp2 j hj]
          unfold shown_char
          rw [if_pos (hcov _ (charAt_mem hj))]
          unfold charAt
          rw [List.getD_eq_getElem?_getD, List.getElem?_eq_getElem hj]
          rfl
        rw [cstr_eq_take s.length _ (fun j hj => ⟨s[j], by
          rw [hshow j hj, List.getElem?_eq_getElem hj], hnn _ (List.getElem_mem hj)⟩) hz2]
        apply List.ext_getElem?
        intro j
        by_cases hj : j < s.length
        · rw [List.getElem?_take_of_lt hj, hshow j hj]
        · rw [List.getElem?_take_eq_none (by omega), List.getElem?_eq_none (by omega)]

/-- Witness of C9: secret CAT; the guess C gives C__ with no error, then A, then T gives Won. -/
theorem C9_guessing_all_letters_wins_witness :
    new_game [wordCAT, wordDOG] 0 freshClient = .ok (catClient ['_', '_', '_'] GameStatus.Open 0) ∧
    play_guesses (catClient ['_', '_', '_'] GameStatus.Open 0) ['C']
      = .ok (catClient ['C', '_', '_'] GameStatus.Open 0) ∧
    (∀ k, k < ['C', 'A', 'T'].length →
      ∃ ck, play_guesses (catClient ['_', '_', '_'] GameStatus.Open 0) (['C', 'A', 'T'].take k)
          = .ok ck ∧
        ck.current_game.status = GameStatus.Open ∧ ck.current_game.errors = 0) ∧
    (∃ cf, play_guesses (catClient ['_', '_', '_'] GameStatus.Open 0) ['C', 'A', 'T'] = .ok cf ∧
      cf.current_game.status = GameStatus.Won ∧ cf.current_game.errors = 0 ∧
      cstr cf.current_game.obscured_word = wordCAT) :=
  ⟨rfl, rfl, C9_guessing_all_letters_wins [wordCAT, wordDOG] 0 freshClient
    (catClient ['_', '_', '_'] GameStatus.Open 0) wordCAT ['C', 'A', 'T'] rfl rfl rfl
    (by decide) ⟨'C', by decide, by decide⟩ (by decide)
    (by
      intro ch
      simp only [wordCAT]
      constructor
      · intro h
        simp only [List.mem_cons, List.mem_singleton, List.not_mem_nil, or_false] at h
        rcases h with rfl | rfl | rfl <;> exact ⟨by simp, by decide⟩
      · intro h
        exact h.1)⟩

/-! ## Claim C10: dispatch of a request -/

theorem freshClient_fits : SessionFits freshClient :=
  ⟨by decide, fun s h => by cases h⟩

theorem new_game_fits {pool : List Word} {r : Nat} {c c1 : Client}
    (h : new_game pool r c = .ok c1) (hfit : SessionFits c) : SessionFits c1 := by
  by_cases hopen : c1.current_game.status = GameStatus.Open
  · obtain ⟨s, _, _, hL, _, _, hsec, herr, hlen, _⟩ := new_game_open h hopen
    refine ⟨⟨hlen, by rw [herr]; decide⟩, fun s1 hs1 => ?_⟩
    rw [hsec] at hs1
    injection hs1 with hs1
    subst hs1
    exact hL
  · rcases new_game_ok h with ⟨_, rfl⟩ | ⟨pos, s, buf, buf1, hp, hs, hb, hb1, rfl⟩
    · exact hfit
    · exact absurd rfl hopen

theorem strncpy_length (dst : List Char) (src : Word) (n : Nat) (hd : dst.length = n) :
    (strncpy dst src n).length = n := by
  unfold strncpy strlen
  simp only [List.length_append, List.length_take, List.length_replicate, List.length_drop]
  omega

theorem calculate_results_fits {c c1 : Client} {t : Char}
    (h : calculate_results c t = .ok c1) (hfit : SessionFits c) : SessionFits c1 := by
  obtain ⟨⟨hlen, _⟩, hsec⟩ := hfit
  have hU : 0 < UINT_RANGE := by decide
  cases hs : c.current_game.secret_word with
  | none =>
    unfold calculate_results at h
    rw [hs] at h
    cases h
  | some s =>
    have hL := hsec s hs
    obtain ⟨buf1, error, won, hl1, _, _, _, hres⟩ :=
      calculate_results_spec c t s hs hlen (by omega)
    rw [hres] at h
    have hsec1 := (calculate_results_frame (hres ▸ h : calculate_results c t = .ok c1)).2.2
    refine ⟨?_, fun s1 hs1 => hsec s1 (hsec1 ▸ hs1)⟩
    split at h
    · split at h
      · injection h with h
        subst h
        exact ⟨strncpy_length _ _ _ hl1, Nat.mod_lt _ hU⟩
      · injection h with h
        subst h
        exact ⟨hl1, Nat.mod_lt _ hU⟩
    · rename_i herr
      have hlt : c.current_game.errors < UINT_RANGE := by assumption
      split at h
      · injection h with h
        subst h
        exact ⟨hl1, hlt⟩
      · injection h with h
        subst h
        exact ⟨hl1, hlt⟩

/-- Every session that a run of requests reaches from a session as calloc leaves it fits. -/
theorem play_fits (pool : List Word) (reqs : List Request) :
    ∀ (c0 c : Client) (log : List Word), play pool c0 reqs = .ok (c, log) →
      SessionFits c0 → SessionFits c := by
  induction reqs with
  | nil =>
    intro c0 c log h hfit
    unfold play at h
    injection h with h
    injection h with h1 h2
    subst h1
    exact hfit
  | cons req rest ih =>
    intro c0 c log h hfit
    unfold play at h
    split at h
    · cases h
    · rename_i c1 hc1
      have hfit1 : SessionFits c1 := by
        cases req with
        | New rnd => exact new_game_fits hc1 hfit
        | Guess t => exact calculate_results_fits hc1 hfit
      split at h
      · cases h
      · rename_i c2 log1 hrest
        have hfit2 := ih c1 c2 log1 hrest hfit1
        split at h <;>
          (injection h with h; injection h with h1 h2; subst h1; exact hfit2)

/-! ## Faults of new_game and calculate_results -/

theorem buf_write_fault {buf : List Char} {i : Nat} {c : Char} {e : Fault}
    (h : buf_write buf i c = .error e) : e = Fault.outOfBounds := by
  unfold buf_write at h
  split at h
  · cases h
  · injection h with h; exact h.symm

theorem buf_read_fault {buf : List Char} {i : Nat} {e : Fault}
    (h : buf_read buf i = .error e) : e = Fault.outOfBounds := by
  unfold buf_read at h
  split at h
  · cases h
  · injection h with h; exact h.symm

theorem new_game_probe_fault {used pool : List Word} {n pos : Nat} {e : Fault}
    (h : new_game_probe used pool n pos = .error e) : e = Fault.outOfBounds := by
  induction n generalizing pos with
  | zero =>
    unfold new_game_probe at h
    split at h
    · injection h with h; exact h.symm
    · split at h <;> cases h
  | succ n ih =>
    unfold new_game_probe at h
    split at h
    · injection h with h; exact h.symm
    · split at h
      · exact ih h
      · cases h

theorem obscure_loop_fault {s : Word} {n i : Nat} {buf : List Char} {e : Fault}
    (h : obscure_loop s n i buf = .error e) : e = Fault.outOfBounds := by
  induction n generalizing i buf with
  | zero => unfold obscure_loop at h; cases h
  | succ n ih =>
    unfold obscure_loop at h
    split at h
    · rename_i e1 he1
      injection h with h
      rw [← h]
      exact buf_write_fault he1
    · exact ih h

theorem new_game_fault {pool : List Word} {r : Nat} {c : Client} {e : Fault}
    (h : new_game pool r c = .error e) : e = Fault.divByZero ∨ e = Fault.outOfBounds := by
  unfold new_game at h
  split at h
  · injection h with h; exact Or.inl h.symm
  · right
    split at h
    · rename_i e1 he1
      injection h with h
      rw [← h]
      exact new_game_probe_fault he1
    · cases h
    · split at h
      · injection h with h; exact h.symm
      · simp only at h
        split at h
        · rename_i e1 he1
          injection h with h
          rw [← h]
          exact obscure_loop_fault he1
        · split at h
          · rename_i e1 he1
            injection h with h
            rw [← h]
            exact buf_write_fault he1
          · cases h

theorem calculate_results_loop_fault {s : Word} {t : Char} {n i : Nat}
    {st : List Char × Bool × Bool} {e : Fault}
    (h : calculate_results_loop s t n i st = .error e) : e = Fault.outOfBounds := by
  induction n generalizing i st with
  | zero => unfold calculate_results_loop at h; cases h
  | succ n ih =>
    obtain ⟨buf, error, won⟩ := st
    unfold calculate_results_loop at h
    split at h
    · rename_i e1 he1
      injection h with h
      rw [← h]
      split at he1
      · cases hw : buf_write buf i t with
        | error e2 =>
          rw [hw] at he1
          simp only [Except.map] at he1
          injection he1 with he1
          rw [← he1]
          exact buf_write_fault hw
        | ok b =>
          rw [hw] at he1
          simp only [Except.map] at he1
          cases he1
      · cases he1
    · rename_i buf1 error1 hstep
      split at h
      · rename_i e1 he1
        injection h with h
        rw [← h]
        split at he1
        · cases hr : buf_read buf1 i with
          | error e2 =>
            rw [hr] at he1
            simp only [Except.map] at he1
            injection he1 with he1
            rw [← he1]
            exact buf_read_fault hr
          | ok b =>
            rw [hr] at he1
            simp only [Except.map] at he1
            cases he1
        · cases he1
      · exact ih h

theorem calculate_results_fault {c : Client} {t : Char} {e : Fault}
    (h : calculate_results c t = .error e) : e = Fault.nullDeref ∨ e = Fault.outOfBounds := by
  unfold calculate_results at h
  split at h
  · injection h with h; exact Or.inl h.symm
  · right
    split at h
    · rename_i e1 he1
      injection h with h
      rw [← h]
      exact calculate_results_loop_fault he1
    · simp only at h
      split at h
      · split at h <;> cases h
      · split at h <;> cases h

theorem dispatch_fault {sv : Server} {rand : Nat} {cur : Client}
    (h : dispatch sv rand cur = .error Fault.exitFailure) : False := by
  unfold dispatch at h
  split at h
  · rcases new_game_fault h with h1 | h1 <;> cases h1
  · rcases calculate_results_fault h with h1 | h1 <;> cases h1
  · cases h

/-! ## The session table -/

theorem find_client_none {id : Int} {l : List Client} :
    find_client id l = none ↔ ∀ c ∈ l, c.clientID ≠ id := by
  induction l with
  | nil => simp [find_client]
  | cons a l ih =>
    unfold find_client
    by_cases ha : a.clientID = id
    · simp [ha]
    · rw [if_neg ha]
      cases hf : find_client id l with
      | none =>
        simp only [true_iff]
        intro c hc
        rcases List.mem_cons.mp hc with rfl | hc
        · exact ha
        · exact (ih.mp hf) c hc
      | some r =>
        obtain ⟨pre, c, post⟩ := r
        constructor
        · intro h; cases h
        · intro hall
          have : find_client id l = none :=
            ih.mpr (fun c hc => hall c (List.mem_cons_of_mem _ hc))
          rw [hf] at this
          cases this

theorem find_client_some {id : Int} {l pre post : List Client} {cur : Client}
    (h : find_client id l = some (pre, cur, post)) :
    l = pre ++ cur :: post ∧ cur.clientID = id ∧ ∀ p ∈ pre, p.clientID ≠ id := by
  induction l generalizing pre with
  | nil => unfold find_client at h; cases h
  | cons a l ih =>
    unfold find_client at h
    split at h
    · rename_i ha
      injection h with h
      injection h with h1 h2
      injection h2 with h2 h3
      subst h1; subst h2; subst h3
      exact ⟨rfl, ha, by simp⟩
    · rename_i ha
      split at h
      · cases h
      · rename_i pre1 c1 post1 hf
        injection h with h
        injection h with h1 h2
        injection h2 with h2 h3
        subst h1; subst h2; subst h3
        obtain ⟨hl, hc, hp⟩ := ih hf
        refine ⟨by rw [hl]; rfl, hc, ?_⟩
        intro p hp1
        rcases List.mem_cons.mp hp1 with rfl | hp1
        · exact ha
        · exact hp p hp1

/-- A pass of the server for a request that addresses an existing session. -/
theorem serve_request_found {rand : Nat} {sv : Server} {pre post : List Client} {cur : Client}
    (hid : sv.shared.clientID ≠ -1)
    (hfind : find_client sv.shared.clientID sv.clients = some (pre, cur, post)) :
    serve_request rand sv =
      if sv.shared.terminate then
        .ok { sv with
              clients := pre ++ post
              shared := { sv.shared with terminate := false }
              client_sem := sv.client_sem + 1 }
      else
        match dispatch sv rand cur with
        | .error e => .error e
        | .ok cur1 =>
          .ok { sv with
                clients := pre ++ cur1 :: post
                shared :=
                  { sv.shared with
                    clientID := cur1.clientID
                    status := cur1.current_game.status
                    errors := cur1.current_game.errors
                    word := strncpy sv.shared.word cur1.current_game.obscured_word
                      MAX_WORD_LENGTH }
                return_sem := sv.return_sem + 1 } := by
  unfold serve_request dispatch
  simp only [if_neg hid, hfind]

/-- A pass of the server for a register-new request. -/
theorem serve_request_register {rand : Nat} {sv : Server} (hid : sv.shared.clientID = -1) :
    serve_request rand sv =
      if sv.shared.terminate then
        .ok { sv with
              clients := sv.clients
              client_count := (sv.client_count + 1) % UINT_RANGE
              shared := { sv.shared with terminate := false }
              client_sem := sv.client_sem + 1 }
      else
        match dispatch sv rand
            { clientID := to_int sv.client_count, used_words := [], current_game := zeroGame } with
        | .error e => .error e
        | .ok cur1 =>
          .ok { sv with
                clients := cur1 :: sv.clients
                client_count := (sv.client_count + 1) % UINT_RANGE
                shared :=
                  { sv.shared with
                    clientID := cur1.clientID
                    status := cur1.current_game.status
                    errors := cur1.current_game.errors
                    word := strncpy sv.shared.word cur1.current_game.obscured_word
                      MAX_WORD_LENGTH }
                return_sem := sv.return_sem + 1 } := by
  unfold serve_request dispatch
  simp only [if_pos hid]
  split <;> rfl

theorem serve_request_unknown {rand : Nat} {sv : Server}
    (hid : sv.shared.clientID ≠ -1)
    (hfind : find_client sv.shared.clientID sv.clients = none) :
    serve_request rand sv = .error Fault.exitFailure := by
  unfold serve_request
  simp only [if_neg hid, hfind]

/-! ## Claims C11, C13 and C14: lookup, removal and the termination exchange -/

/-- C11: for every session table and every request whose clientID is not the sentinel -1, the
server stops with the failure exit status if and only if no session of the table has that
clientID. When a session has it, the first session of the table with that clientID is the one
the request is applied to: if the pass returns, the table is the old one with that session
removed (terminate flag set) or replaced by what the dispatch made of it, and every other
session is as before. -/
theorem C11_lookup_fails_exactly_on_unknown_id (rand : Nat) (sv : Server)
    (hid : sv.shared.clientID ≠ -1) :
    (serve_request rand sv = .error Fault.exitFailure ↔
      ∀ c ∈ sv.clients, c.clientID ≠ sv.shared.clientID) ∧
    ((∃ c ∈ sv.clients, c.clientID = sv.shared.clientID) →
      ∃ pre cur post, sv.clients = pre ++ cur :: post ∧
        cur.clientID = sv.shared.clientID ∧
        (∀ p ∈ pre, p.clientID ≠ sv.shared.clientID) ∧
        ∀ sv1, serve_request rand sv = .ok sv1 →
          (sv.shared.terminate = true ∧ sv1.clients = pre ++ post) ∨
          (sv.shared.terminate = false ∧
            ∃ cur1, dispatch sv rand cur = .ok cur1 ∧ sv1.clients = pre ++ cur1 :: post)) := by
  constructor
  · constructor
    · intro h
      cases hf : find_client sv.shared.clientID sv.clients with
      | none => exact find_client_none.mp hf
      | some r =>
        obtain ⟨pre, cur, post⟩ := r
        rw [serve_request_found hid hf] at h
        split at h
        · cases h
        · cases hd : dispatch sv rand cur with
          | error e =>
            rw [hd] at h
            simp only at h
            injection h with h
            subst h
            exact absurd hd (fun h => dispatch_fault h)
          | ok cur1 =>
            rw [hd] at h
            cases h
    · intro h
      exact serve_request_unknown hid (find_client_none.mpr h)
  · rintro ⟨c, hc, hcid⟩
    cases hf : find_client sv.shared.clientID sv.clients with
    | none => exact absurd hcid (find_client_none.mp hf c hc)
    | some r =>
      obtain ⟨pre, cur, post⟩ := r
      obtain ⟨hl, hcur, hpre⟩ := find_client_some hf
      refine ⟨pre, cur, post, hl, hcur, hpre, ?_⟩
      intro sv1 h
      rw [serve_request_found hid hf] at h
      split at h
      · rename_i ht
        injection h with h
        subst h
        exact Or.inl ⟨ht, rfl⟩
      · rename_i ht
        right
        refine ⟨by simpa using ht, ?_⟩
        cases hd : dispatch sv rand cur with
        | error e =>
          rw [hd] at h
          cases h
        | ok cur1 =>
          rw [hd] at h
          simp only at h
          injection h with h
          subst h
          exact ⟨cur1, rfl, rfl⟩

/-- Witness of C11: the Guess request for the only session of lostServer. -/
theorem C11_lookup_fails_exactly_on_unknown_id_witness :
    lostServer.shared.clientID ≠ -1 ∧
    ((serve_request 0 lostServer = .error Fault.exitFailure ↔
      ∀ c ∈ lostServer.clients, c.clientID ≠ lostServer.shared.clientID) ∧
    ((∃ c ∈ lostServer.clients, c.clientID = lostServer.shared.clientID) →
      ∃ pre cur post, lostServer.clients = pre ++ cur :: post ∧
        cur.clientID = lostServer.shared.clientID ∧
        (∀ p ∈ pre, p.clientID ≠ lostServer.shared.clientID) ∧
        ∀ sv1, serve_request 0 lostServer = .ok sv1 →
          (lostServer.shared.terminate = true ∧ sv1.clients = pre ++ post) ∨
          (lostServer.shared.terminate = false ∧
            ∃ cur1, dispatch lostServer 0 cur = .ok cur1 ∧
              sv1.clients = pre ++ cur1 :: post))) :=
  ⟨by decide, C11_lookup_fails_exactly_on_unknown_id 0 lostServer (by decide)⟩

/-- C13 amended: for every session table with pairwise different identifiers and every clientID
(not the sentinel) present in it, wherever in the list, processing a terminate request for that
clientID returns and removes exactly that session: the remaining sessions are the same ones, in
the same order and with unchanged contents, and a later lookup of the removed clientID finds
nothing. -/
theorem C13_terminate_removes_exactly_that_session (rand : Nat) (sv : Server)
    (hid : sv.shared.clientID ≠ -1)
    (hterm : sv.shared.terminate = true)
    (hnodup : (sv.clients.map (fun c => c.clientID)).Nodup)
    (hmem : ∃ c ∈ sv.clients, c.clientID = sv.shared.clientID) :
    ∃ pre cur post sv1, sv.clients = pre ++ cur :: post ∧
      cur.clientID = sv.shared.clientID ∧
      serve_request rand sv = .ok sv1 ∧
      sv1.clients = pre ++ post ∧
      (∀ c ∈ sv1.clients, c.clientID ≠ sv.shared.clientID) ∧
      find_client sv.shared.clientID sv1.clients = none := by
  obtain ⟨c, hc, hcid⟩ := hmem
  cases hf : find_client sv.shared.clientID sv.clients with
  | none => exact absurd hcid (find_client_none.mp hf c hc)
  | some r =>
    obtain ⟨pre, cur, post⟩ := r
    obtain ⟨hl, hcur, hpre⟩ := find_client_some hf
    have hrest : ∀ x ∈ pre ++ post, x.clientID ≠ sv.shared.clientID := by
      intro x hx
      rcases List.mem_append.mp hx with hx | hx
      · exact hpre x hx
      · intro hxe
        rw [hl, List.map_append, List.map_cons] at hnodup
        have h2 := (List.nodup_append.mp hnodup).2.1
        have h3 := (List.nodup_cons.mp h2).1
        apply h3
        rw [hcur, ← hxe]
        exact List.mem_map_of_mem _ hx
    have hrun : serve_request rand sv =
        .ok { sv with
              clients := pre ++ post
              shared := { sv.shared with terminate := false }
              client_sem := sv.client_sem + 1 } := by
      rw [serve_request_found hid hf, if_pos hterm]
    exact ⟨pre, cur, post, _, hl, hcur, hrun, rfl, hrest, find_client_none.mpr hrest⟩

/-- Witness of C13: three sessions 2, 1, 0; the terminate request of client 1 removes the
session in the middle. -/
theorem C13_terminate_removes_exactly_that_session_witness :
    serve_request 0 threeClients =
      .ok { threeClients with
            clients := [{ freshClient with clientID := 2 }, { freshClient with clientID := 0 }]
            shared := { threeClients.shared with terminate := false }
            client_sem := 1 } ∧
    ∃ pre cur post sv1, threeClients.clients = pre ++ cur :: post ∧
      cur.clientID = threeClients.shared.clientID ∧
      serve_request 0 threeClients = .ok sv1 ∧
      sv1.clients = pre ++ post ∧
      (∀ c ∈ sv1.clients, c.clientID ≠ threeClients.shared.clientID) ∧
      find_client threeClients.shared.clientID sv1.clients = none :=
  ⟨rfl, C13_terminate_removes_exactly_that_session 0 threeClients (by decide) rfl (by decide)
    ⟨{ freshClient with clientID := 1 }, by decide, rfl⟩⟩

/-- A pass of the server for a request with the terminate flag whose session exists or is to be
registered: no response, one post of client_sem, flag cleared. -/
theorem serve_request_terminate {rand : Nat} {sv : Server}
    (hterm : sv.shared.terminate = true)
    (hknown : sv.shared.clientID = -1 ∨ ∃ c ∈ sv.clients, c.clientID = sv.shared.clientID) :
    ∃ sv1, serve_request rand sv = .ok sv1 ∧
      sv1.return_sem = sv.return_sem ∧
      sv1.client_sem = sv.client_sem + 1 ∧
      sv1.server_sem = sv.server_sem ∧
      sv1.shared = { sv.shared with terminate := false } := by
  by_cases hid : sv.shared.clientID = -1
  · rw [serve_request_register hid, if_pos hterm]
    exact ⟨_, rfl, rfl, rfl, rfl, rfl⟩
  · rcases hknown with h | ⟨c, hc, hcid⟩
    · exact absurd h hid
    · cases hf : find_client sv.shared.clientID sv.clients with
      | none => exact absurd hcid (find_client_none.mp hf c hc)
      | some r =>
        obtain ⟨pre, cur, post⟩ := r
        rw [serve_request_found hid hf, if_pos hterm]
        exact ⟨_, rfl, rfl, rfl, rfl, rfl⟩

/-- C14: when the server processes a request whose terminate flag is set (for a session that
exists, or with the sentinel), it sends no response and releases the mailbox itself: return_sem
is not posted, client_sem is posted exactly once, the terminate flag is cleared and the other
mailbox fields stay. Hence the termination exchange (the client waits for client_sem, sets the
flag and its identifier and posts server_sem; the server waits for server_sem and serves the
request) leaves the three semaphore counters at the values they had before the exchange. -/
theorem C14_termination_exchange_restores_counters (rand : Nat) (sv : Server) (id : Int)
    (hperm : 0 < sv.client_sem)
    (hknown : id = -1 ∨ ∃ c ∈ sv.clients, c.clientID = id) :
    (∀ sv0 : Server, sv0.shared.terminate = true →
      (sv0.shared.clientID = -1 ∨ ∃ c ∈ sv0.clients, c.clientID = sv0.shared.clientID) →
      ∃ sv1, serve_request rand sv0 = .ok sv1 ∧
        sv1.return_sem = sv0.return_sem ∧
        sv1.client_sem = sv0.client_sem + 1 ∧
        sv1.server_sem = sv0.server_sem ∧
        sv1.shared = { sv0.shared with terminate := false }) ∧
    ∃ sv1 sv2,
      client_free_resources true id sv = some sv1 ∧
      sv1.shared.terminate = true ∧ sv1.shared.clientID = id ∧
      counters sv1 = (sv.server_sem + 1, sv.client_sem - 1, sv.return_sem) ∧
      server_pass rand sv1 = some (.ok sv2) ∧
      sv2.shared.terminate = false ∧
      counters sv2 = counters sv := by
  refine ⟨fun sv0 h0 hk0 => serve_request_terminate h0 hk0, ?_⟩
  have hwait : sem_wait sv.client_sem = some (sv.client_sem - 1) := by
    unfold sem_wait; rw [if_pos hperm]
  obtain ⟨sv2, hrun, hret, hcl, hsrv, hsh⟩ :=
    @serve_request_terminate rand
      { sv with
        client_sem := sv.client_sem - 1
        shared := write_posting sv.shared (.termination id)
        server_sem := sv.server_sem }
      rfl hknown
  refine ⟨{ sv with
            client_sem := sv.client_sem - 1
            shared := write_posting sv.shared (.termination id)
            server_sem := sem_post sv.server_sem }, sv2, ?_, rfl, rfl, rfl, ?_, ?_, ?_⟩
  · unfold client_free_resources
    simp only [if_true, hwait]
  · unfold server_pass sem_wait sem_post
    simp only [Nat.zero_lt_succ, if_true, Nat.add_sub_cancel]
    rw [← hrun]
  · rw [hsh]
  · unfold counters
    rw [hret, hcl, hsrv]
    simp only [Prod.mk.injEq, true_and, and_true]
    omega

/-- Witness of C14: client 1 of three leaves while the mailbox is free. -/
theorem C14_termination_exchange_restores_counters_witness :
    0 < ({ threeClients with client_sem := 1 } : Server).client_sem ∧
    ((∀ sv0 : Server, sv0.shared.terminate = true →
      (sv0.shared.clientID = -1 ∨ ∃ c ∈ sv0.clients, c.clientID = sv0.shared.clientID) →
      ∃ sv1, serve_request 0 sv0 = .ok sv1 ∧
        sv1.return_sem = sv0.return_sem ∧
        sv1.client_sem = sv0.client_sem + 1 ∧
        sv1.server_sem = sv0.server_sem ∧
        sv1.shared = { sv0.shared with terminate := false }) ∧
    ∃ sv1 sv2,
      client_free_resources true 1 { threeClients with client_sem := 1 } = some sv1 ∧
      sv1.shared.terminate = true ∧ sv1.shared.clientID = 1 ∧
      counters sv1 = (({ threeClients with client_sem := 1 } : Server).server_sem + 1,
        ({ threeClients with client_sem := 1 } : Server).client_sem - 1,
        ({ threeClients with client_sem := 1 } : Server).return_sem) ∧
      server_pass 0 sv1 = some (.ok sv2) ∧
      sv2.shared.terminate = false ∧
      counters sv2 = counters { threeClients with client_sem := 1 }) :=
  ⟨by decide, C14_termination_exchange_restores_counters 0 { threeClients with client_sem := 1 } 1
    (by decide) (Or.inr ⟨{ freshClient with clientID := 1 }, by decide, rfl⟩)⟩

/-! ## Claim C12: identifiers -/

theorem new_game_clientID {pool : List Word} {r : Nat} {c c1 : Client}
    (h : new_game pool r c = .ok c1) : c1.clientID = c.clientID := by
  rcases new_game_ok h with ⟨_, rfl⟩ | ⟨pos, s, buf, buf1, hp, hs, hb, hb1, rfl⟩ <;> rfl

theorem dispatch_clientID {sv : Server} {rand : Nat} {cur cur1 : Client}
    (h : dispatch sv rand cur = .ok cur1) : cur1.clientID = cur.clientID := by
  unfold dispatch at h
  split at h
  · exact new_game_clientID h
  · exact (calculate_results_frame h).2.1
  · cases h

theorem to_int_small {n : Nat} (h : n < 2147483648) : to_int n = (n : Int) := by
  unfold to_int
  have h1 : n % UINT_RANGE = n := Nat.mod_eq_of_lt (by unfold UINT_RANGE; omega)
  rw [h1, if_pos (by unfold UINT_RANGE; omega)]

theorem registrations_cons (p : Posting × Nat) (ps : List (Posting × Nat)) :
    registrations (p :: ps) = (if p.1.clientID = -1 then 1 else 0) + registrations ps := by
  unfold registrations
  by_cases h : p.1.clientID = -1
  · simp [h]; omega
  · simp [h]

/-- The identifiers of the table, newest session first, are strictly decreasing and lie below
`client_count`. -/
theorem serve_request_table {rand : Nat} {sv sv1 : Server}
    (hrun : serve_request rand sv = .ok sv1)
    (hpw : (sv.clients.map (fun c => c.clientID)).Pairwise (fun a b => a > b))
    (hbd : ∀ c ∈ sv.clients, 0 ≤ c.clientID ∧ c.clientID < (sv.client_count : Int))
    (hsmall : sv.client_count + (if sv.shared.clientID = -1 then 1 else 0) ≤ 2147483648) :
    (sv1.clients.map (fun c => c.clientID)).Pairwise (fun a b => a > b) ∧
    (∀ c ∈ sv1.clients, 0 ≤ c.clientID ∧ c.clientID < (sv1.client_count : Int)) ∧
    sv1.client_count = sv.client_count + (if sv.shared.clientID = -1 then 1 else 0) ∧
    sv1.word_buffer = sv.word_buffer ∧
    (sv.shared.clientID = -1 → sv.shared.terminate = false →
      ∃ cur1, sv1.clients = cur1 :: sv.clients ∧ cur1.clientID = (sv.client_count : Int)) := by
  by_cases hid : sv.shared.clientID = -1
  · -- a new session is registered
    rw [if_pos hid] at hsmall ⊢
    have hmod : (sv.client_count + 1) % UINT_RANGE = sv.client_count + 1 :=
      Nat.mod_eq_of_lt (by unfold UINT_RANGE; omega)
    rw [serve_request_register hid] at hrun
    split at hrun
    · rename_i ht
      injection hrun with hrun
      subst hrun
      refine ⟨hpw, ?_, hmod, rfl, fun _ hf => ?_⟩
      · intro c hc
        have := hbd c hc
        simp only [hmod]
        constructor
        · exact this.1
        · have h2 := this.2
          push_cast
          omega
      · rw [ht] at hf; cases hf
    · cases hd : dispatch sv rand
          { clientID := to_int sv.client_count, used_words := [], current_game := zeroGame } with
      | error e => rw [hd] at hrun; cases hrun
      | ok cur1 =>
        rw [hd] at hrun
        simp only at hrun
        injection hrun with hrun
        subst hrun
        have hcid : cur1.clientID = (sv.client_count : Int) := by
          rw [dispatch_clientID hd]
          exact to_int_small (by omega)
        refine ⟨?_, ?_, hmod, rfl, fun _ _ => ⟨cur1, rfl, hcid⟩⟩
        · simp only [List.map_cons, List.pairwise_cons]
          refine ⟨?_, hpw⟩
          intro b hb
          obtain ⟨c, hc, rfl⟩ := List.mem_map.mp hb
          rw [hcid]
          exact (hbd c hc).2
        · intro c hc
          simp only [hmod]
          rcases List.mem_cons.mp hc with rfl | hc
          · rw [hcid]
            constructor
            · exact Int.natCast_nonneg _
            · push_cast; omega
          · have := hbd c hc
            constructor
            · exact this.1
            · have h2 := this.2
              push_cast
              omega
  · -- an existing session is addressed
    rw [if_neg hid]
    cases hf : find_client sv.shared.clientID sv.clients with
    | none =>
      rw [serve_request_unknown hid hf] at hrun
      cases hrun
    | some r =>
      obtain ⟨pre, cur, post⟩ := r
      obtain ⟨hl, hcur, hpre⟩ := find_client_some hf
      rw [serve_request_found hid hf] at hrun
      split at hrun
      · injection hrun with hrun
        subst hrun
        have hsub : (pre ++ post).Sublist sv.clients := by
          rw [hl]
          exact List.Sublist.append (List.Sublist.refl _) (List.sublist_cons_self _ _)
        refine ⟨hpw.sublist (hsub.map _), ?_, rfl, rfl, fun h => absurd h hid⟩
        intro c hc
        exact hbd c (hsub.subset hc)
      · cases hd : dispatch sv rand cur with
        | error e => rw [hd] at hrun; cases hrun
        | ok cur1 =>
          rw [hd] at hrun
          simp only at hrun
          injection hrun with hrun
          subst hrun
          have hcid := dispatch_clientID hd
          have hmap : (pre ++ cur1 :: post).map (fun c => c.clientID)
              = sv.clients.map (fun c => c.clientID) := by
            rw [hl]
            simp only [List.map_append, List.map_cons, hcid]
          refine ⟨by simp only; rw [hmap]; exact hpw, ?_, rfl, rfl, fun h => absurd h hid⟩
          intro c hc
          simp only at hc ⊢
          rcases List.mem_append.mp hc with hc | hc
          · exact hbd c (by rw [hl]; exact List.mem_append_left _ hc)
          · rcases List.mem_cons.mp hc with rfl | hc
            · rw [hcid]
              exact hbd cur (by rw [hl]; simp)
            · exact hbd c (by rw [hl]; simp [hc])

theorem write_posting_clientID (sh : Hangman_SHM) (p : Posting) :
    (write_posting sh p).clientID = p.clientID := by
  cases p <;> rfl

theorem serve_all_table (ps : List (Posting × Nat)) :
    ∀ sv sv1 : Server, serve_all sv ps = .ok sv1 →
      (sv.clients.map (fun c => c.clientID)).Pairwise (fun a b => a > b) →
      (∀ c ∈ sv.clients, 0 ≤ c.clientID ∧ c.clientID < (sv.client_count : Int)) →
      sv.client_count + registrations ps ≤ 2147483648 →
      (sv1.clients.map (fun c => c.clientID)).Pairwise (fun a b => a > b) ∧
      (∀ c ∈ sv1.clients, 0 ≤ c.clientID ∧ c.clientID < (sv1.client_count : Int)) ∧
      sv1.client_count = sv.client_count + registrations ps ∧
      sv1.word_buffer = sv.word_buffer := by
  induction ps with
  | nil =>
    intro sv sv1 h hpw hbd _
    unfold serve_all at h
    injection h with h
    subst h
    exact ⟨hpw, hbd, by simp [registrations], rfl⟩
  | cons p ps ih =>
    intro sv sv1 h hpw hbd hsmall
    obtain ⟨p, rand⟩ := p
    rw [registrations_cons] at hsmall
    unfold serve_all at h
    split at h
    · cases h
    · rename_i sv2 hstep
      have hcl : ({ sv with shared := write_posting sv.shared p } : Server).shared.clientID
          = p.clientID := write_posting_clientID _ _
      obtain ⟨hpw2, hbd2, hc2, hw2, _⟩ := serve_request_table hstep hpw hbd
        (by rw [hcl]; simp only at hsmall ⊢; omega)
      rw [hcl] at hc2
      simp only at hc2 hw2
      obtain ⟨hpw1, hbd1, hc1, hw1⟩ := ih sv2 sv1 h hpw2 hbd2 (by rw [hc2]; simp only at hsmall; omega)
      refine ⟨hpw1, hbd1, ?_, by rw [hw1, hw2]⟩
      rw [hc1, hc2, registrations_cons]
      simp only
      omega

theorem serve_request_clears_terminate {rand : Nat} {sv sv1 : Server}
    (hrun : serve_request rand sv = .ok sv1) : sv1.shared.terminate = false := by
  by_cases hid : sv.shared.clientID = -1
  · rw [serve_request_register hid] at hrun
    split at hrun
    · injection hrun with hrun; subst hrun; rfl
    · rename_i ht
      cases hd : dispatch sv rand
          { clientID := to_int sv.client_count, used_words := [], current_game := zeroGame } with
      | error e => rw [hd] at hrun; cases hrun
      | ok cur1 =>
        rw [hd] at hrun
        simp only at hrun
        injection hrun with hrun
        subst hrun
        simpa using ht
  · cases hf : find_client sv.shared.clientID sv.clients with
    | none =>
      rw [serve_request_unknown hid hf] at hrun
      cases hrun
    | some r =>
      obtain ⟨pre, cur, post⟩ := r
      rw [serve_request_found hid hf] at hrun
      split at hrun
      · injection hrun with hrun; subst hrun; rfl
      · rename_i ht
        cases hd : dispatch sv rand cur with
        | error e => rw [hd] at hrun; cases hrun
        | ok cur1 =>
          rw [hd] at hrun
          simp only at hrun
          injection hrun with hrun
          subst hrun
          simpa using ht

theorem serve_all_clears_terminate (ps : List (Posting × Nat)) :
    ∀ sv sv1 : Server, serve_all sv ps = .ok sv1 → sv.shared.terminate = false →
      sv1.shared.terminate = false := by
  induction ps with
  | nil =>
    intro sv sv1 h ht
    unfold serve_all at h
    injection h with h
    subst h
    exact ht
  | cons p ps ih =>
    intro sv sv1 h _
    obtain ⟨p, rand⟩ := p
    unfold serve_all at h
    split at h
    · cases h
    · rename_i sv2 hstep
      exact ih sv2 sv1 h (serve_request_clears_terminate hstep)

theorem serve_all_append (ps qs : List (Posting × Nat)) :
    ∀ sv : Server, serve_all sv (ps ++ qs) =
      match serve_all sv ps with
      | .error e => .error e
      | .ok sv1 => serve_all sv1 qs := by
  induction ps with
  | nil => intro sv; rfl
  | cons p ps ih =>
    intro sv
    obtain ⟨p, rand⟩ := p
    simp only [List.cons_append, serve_all]
    cases serve_request rand { sv with shared := write_posting sv.shared p } with
    | error e => rfl
    | ok sv1 => exact ih sv1

/-- Clients that leave before they were registered: each posting registers a session and
removes it in the same pass, and counts. -/
theorem serve_all_replicate_termination (rand : Nat) (n : Nat) :
    ∀ sv : Server, sv.client_count < UINT_RANGE → sv.shared.terminate = false →
      ∃ sv1, serve_all sv (List.replicate n (Posting.termination (-1), rand)) = .ok sv1 ∧
        sv1.clients = sv.clients ∧
        sv1.client_count = (sv.client_count + n) % UINT_RANGE ∧
        sv1.word_buffer = sv.word_buffer ∧
        sv1.shared.terminate = false := by
  induction n with
  | zero =>
    intro sv hlt ht
    exact ⟨sv, rfl, rfl, (Nat.mod_eq_of_lt hlt).symm, rfl, ht⟩
  | succ n ih =>
    intro sv hlt _
    have hstep : serve_request rand
        { sv with shared := write_posting sv.shared (Posting.termination (-1)) } =
        .ok { sv with
              clients := sv.clients
              client_count := (sv.client_count + 1) % UINT_RANGE
              shared := { sv.shared with terminate := false, clientID := -1 }
              client_sem := sv.client_sem + 1 } := by
      rw [serve_request_register (by rfl)]
      rfl
    obtain ⟨sv1, hrun, hcl, hcnt, hwb, hterm⟩ := ih
      { sv with
        clients := sv.clients
        client_count := (sv.client_count + 1) % UINT_RANGE
        shared := { sv.shared with terminate := false, clientID := -1 }
        client_sem := sv.client_sem + 1 }
      (Nat.mod_lt _ (by decide)) rfl
    refine ⟨sv1, ?_, hcl, ?_, hwb, hterm⟩
    · rw [List.replicate_succ]
      unfold serve_all
      rw [hstep]
      exact hrun
    · rw [hcnt]
      simp only
      rw [Nat.add_mod, Nat.mod_mod, ← Nat.add_mod]
      congr 1
      omega

theorem registrations_replicate (n : Nat) (x : Posting × Nat) (h : x.1.clientID = -1) :
    registrations (List.replicate n x) = n := by
  induction n with
  | zero => rfl
  | succ n ih =>
    rw [List.replicate_succ, registrations_cons, if_pos h, ih]
    omega

/-- After a number of registrations that is a multiple of 2^32 the next session gets the
identifier 0. -/
theorem serve_all_wrapped_registration (n : Nat) (hn : n % UINT_RANGE = 0) :
    ∃ sv, serve_all (initialServer [wordCAT])
        (List.replicate n (Posting.termination (-1), 0) ++
          [(Posting.request (-1) GameStatus.New NUL, 0)]) = .ok sv ∧
      sv.clients.map (fun c => c.clientID) = [0] := by
  obtain ⟨sv1, hrun, hcl, hcnt, hwb, hterm⟩ :=
    serve_all_replicate_termination 0 n (initialServer [wordCAT]) (by decide) rfl
  have hcnt0 : sv1.client_count = 0 := by
    rw [hcnt]
    show (0 + n) % UINT_RANGE = 0
    rw [Nat.zero_add, hn]
  have hcl0 : sv1.clients = [] := hcl
  have hwb0 : sv1.word_buffer = [wordCAT] := hwb
  rw [serve_all_append, hrun]
  have hd : dispatch
      { sv1 with shared := write_posting sv1.shared (Posting.request (-1) GameStatus.New NUL) }
      0 { clientID := to_int sv1.client_count, used_words := [], current_game := zeroGame }
      = .ok (catClient ['_', '_', '_'] GameStatus.Open 0) := by
    unfold dispatch
    simp only [write_posting, hwb0, hcnt0]
    rfl
  have hreg : ∃ sv2, serve_request 0
      { sv1 with shared := write_posting sv1.shared (Posting.request (-1) GameStatus.New NUL) }
      = .ok sv2 ∧ sv2.clients = [catClient ['_', '_', '_'] GameStatus.Open 0] := by
    rw [serve_request_register (by rfl)]
    split
    · rename_i ht
      have ht2 : sv1.shared.terminate = true := ht
      rw [hterm] at ht2
      cases ht2
    · rw [hd]
      exact ⟨_, rfl, by simp only [hcl0]⟩
  obtain ⟨sv2, hsv2, hcl2⟩ := hreg
  refine ⟨sv2, ?_, by rw [hcl2]; rfl⟩
  show serve_all sv1 [(Posting.request (-1) GameStatus.New NUL, 0)] = .ok sv2
  unfold serve_all
  rw [hsv2]
  rfl

/-- C12 as stated fails once the unsigned counter wraps: 4294967296 clients register (and
leave at once), and the register-new request that follows creates a session with identifier 0,
the identifier of the very first registration, not 4294967296. -/
theorem C12_counterexample_identifier_wraps :
    registrations (List.replicate 4294967296 (Posting.termination (-1), 0)) = 4294967296 ∧
    (serve_all (initialServer [wordCAT]) [(Posting.request (-1) GameStatus.New NUL, 0)]).map
        (fun sv => sv.clients.map (fun c => c.clientID)) = .ok [0] ∧
    ∃ sv, serve_all (initialServer [wordCAT])
        (List.replicate 4294967296 (Posting.termination (-1), 0) ++
          [(Posting.request (-1) GameStatus.New NUL, 0)]) = .ok sv ∧
      sv.clients.map (fun c => c.clientID) = [0] :=
  ⟨registrations_replicate 4294967296 _ rfl, rfl,
    serve_all_wrapped_registration 4294967296 (by decide)⟩

/-- C12 amended: for every sequence of postings the server processes from its start in which
fewer than 2^31 are register-new postings, client_count equals the number of register-new
postings processed, a further register-new request creates a session whose identifier equals
that number, and the identifiers of the session table are non-negative, below that number,
strictly decreasing from the newest session to the oldest (so strictly increasing in
registration order) and pairwise distinct; so no identifier handed out before, removed or not,
is assigned again. -/
theorem C12_identifiers_count_registrations (pool : List Word) (ps : List (Posting × Nat))
    (sv : Server)
    (hrun : serve_all (initialServer pool) ps = .ok sv)
    (hcount : registrations ps < 2147483648) :
    sv.client_count = registrations ps ∧
    (sv.clients.map (fun c => c.clientID)).Pairwise (fun a b => a > b) ∧
    (sv.clients.map (fun c => c.clientID)).Nodup ∧
    (∀ c ∈ sv.clients, 0 ≤ c.clientID ∧ c.clientID < (registrations ps : Int)) ∧
    (∀ rand status ch sv1,
      serve_all sv [(Posting.request (-1) status ch, rand)] = .ok sv1 →
      ∃ cur1, sv1.clients = cur1 :: sv.clients ∧ cur1.clientID = (registrations ps : Int) ∧
        sv1.client_count = registrations ps + 1) := by
  obtain ⟨hpw, hbd, hcnt, _⟩ := serve_all_table ps (initialServer pool) sv hrun
    (by simp [initialServer]) (by simp [initialServer])
    (by show 0 + registrations ps ≤ 2147483648; omega)
  have hcnt0 : sv.client_count = registrations ps := by
    rw [hcnt]
    show 0 + registrations ps = registrations ps
    omega
  have hterm := serve_all_clears_terminate ps (initialServer pool) sv hrun rfl
  refine ⟨hcnt0, hpw, hpw.imp (fun h => by omega), ?_, ?_⟩
  · intro c hc
    rw [← hcnt0]
    exact hbd c hc
  · intro rand status ch sv1 h1
    unfold serve_all at h1
    split at h1
    · cases h1
    · rename_i sv2 hstep
      simp only [serve_all] at h1
      injection h1 with h1
      subst h1
      obtain ⟨_, _, hc2, _, hnew⟩ := serve_request_table hstep hpw hbd
        (by
          show sv.client_count + (if (-1 : Int) = -1 then 1 else 0) ≤ 2147483648
          rw [if_pos rfl, hcnt0]
          omega)
      obtain ⟨cur1, hcl, hcid⟩ := hnew rfl hterm
      refine ⟨cur1, hcl, by rw [hcid, hcnt0], ?_⟩
      rw [hc2, ← hcnt0]
      show sv.client_count + (if (-1 : Int) = -1 then 1 else 0) = sv.client_count + 1
      rw [if_pos rfl]

/-- Witness of C12 amended: two clients register and start a game, the first one leaves. -/
theorem C12_identifiers_count_registrations_witness :
    registrations twoRegistrations < 2147483648 ∧
    ∃ sv, serve_all (initialServer [wordCAT]) twoRegistrations = .ok sv ∧
      (sv.client_count, sv.clients.map (fun c => c.clientID)) = (2, [1]) ∧
      (sv.client_count = registrations twoRegistrations ∧
      (sv.clients.map (fun c => c.clientID)).Pairwise (fun a b => a > b) ∧
      (sv.clients.map (fun c => c.clientID)).Nodup ∧
      (∀ c ∈ sv.clients, 0 ≤ c.clientID ∧ c.clientID < (registrations twoRegistrations : Int)) ∧
      (∀ rand status ch sv1,
        serve_all sv [(Posting.request (-1) status ch, rand)] = .ok sv1 →
        ∃ cur1, sv1.clients = cur1 :: sv.clients ∧
          cur1.clientID = (registrations twoRegistrations : Int) ∧
          sv1.client_count = registrations twoRegistrations + 1)) :=
  ⟨by decide, _, rfl, rfl,
    C12_identifiers_count_registrations [wordCAT] twoRegistrations _ rfl (by decide)⟩

/-! ## Claim C16: the interrupted wait -/

/-- C16 fails on the code: in the run interruptedRun the client is interrupted while it waits for
the answer to a guess it has already signalled; it posts client_sem and leaves through
free_resources(true). When the server has processed both postings of that client, the counters
are server-wait 0, mailbox-mutex 1 and response-wait 1: the answer of the server is never
consumed. The same run without the signal (normalRun) ends with 0, 1, 0. -/
theorem C16_interrupted_wait_leaks_response_permit :
    (run_schedule (initialServer [wordCAT], initialClient) interruptedRun).map
        (fun r => r.map (fun w => (counters w.1, w.1.clients.length, w.2.clientID)))
      = some (.ok ((0, 1, 1), 0, 0)) ∧
    (run_schedule (initialServer [wordCAT], initialClient) normalRun).map
        (fun r => r.map (fun w => (counters w.1, w.1.clients.length, w.2.clientID)))
      = some (.ok ((0, 1, 0), 0, 0)) :=
  ⟨rfl, rfl⟩

/-! ## Claim C17: Impossible is terminal -/

/-- A probe loop that ends in Impossible has found every probed word in the used list. -/
theorem new_game_probe_none {used pool : List Word} (n : Nat) :
    ∀ pos, pos < pool.length → new_game_probe used pool n pos = .ok none →
      ∀ k, k ≤ n → ∃ w, pool[(pos + k) % pool.length]? = some w ∧ contains used w = true := by
  induction n with
  | zero =>
    intro pos hpos h k hk
    have hk0 : k = 0 := by omega
    subst hk0
    unfold new_game_probe at h
    split at h
    · cases h
    · rename_i w hw
      split at h
      · rename_i hc
        exact ⟨w, by rw [Nat.add_zero, Nat.mod_eq_of_lt hpos]; exact hw, hc⟩
      · cases h
  | succ n ih =>
    intro pos hpos h k hk
    unfold new_game_probe at h
    split at h
    · cases h
    · rename_i w hw
      split at h
      · rename_i hc
        cases k with
        | zero => exact ⟨w, by rw [Nat.add_zero, Nat.mod_eq_of_lt hpos]; exact hw, hc⟩
        | succ k =>
          obtain ⟨w1, hw1, hc1⟩ := ih ((pos + 1) % pool.length) (Nat.mod_lt _ (by omega)) h k
            (by omega)
          refine ⟨w1, ?_, hc1⟩
          rw [← hw1, Nat.mod_add_mod, show pos + (k + 1) = pos + 1 + k by omega]
      · cases h

theorem new_game_probe_none_all {used pool : List Word} {pos : Nat} (hpos : pos < pool.length)
    (h : new_game_probe used pool pool.length pos = .ok none) :
    ∀ w ∈ pool, contains used w = true := by
  intro w hw
  obtain ⟨j, hj, hjw⟩ := List.getElem_of_mem hw
  have key : ∃ k, k ≤ pool.length ∧ (pos + k) % pool.length = j := by
    by_cases hle : pos ≤ j
    · exact ⟨j - pos, by omega, by
        rw [show pos + (j - pos) = j by omega]; exact Nat.mod_eq_of_lt hj⟩
    · refine ⟨j + pool.length - pos, by omega, ?_⟩
      rw [show pos + (j + pool.length - pos) = j + pool.length by omega, Nat.add_mod_right]
      exact Nat.mod_eq_of_lt hj
  obtain ⟨k, hk, hkj⟩ := key
  obtain ⟨w1, hw1, hc1⟩ := new_game_probe_none pool.length pos hpos h k hk
  rw [hkj, List.getElem?_eq_getElem hj, hjw] at hw1
  injection hw1 with hw1
  rw [hw1]
  exact hc1

theorem new_game_exhausted {pool : List Word} (r : Nat) (c : Client) (hpool : pool.length ≠ 0)
    (hall : ∀ w ∈ pool, contains c.used_words w = true) :
    new_game pool r c =
      .ok { c with current_game := { c.current_game with status := GameStatus.Impossible } } := by
  unfold new_game
  rw [if_neg hpool,
    new_game_probe_exhausted hall pool.length (Nat.mod_lt r (Nat.pos_of_ne_zero hpool))]

theorem new_game_pool_nonempty {pool : List Word} {r : Nat} {c c1 : Client}
    (h : new_game pool r c = .ok c1) : pool.length ≠ 0 := by
  intro h0
  unfold new_game at h
  rw [if_pos h0] at h
  cases h

/-- Once every word of the pool is in the used list, no request of a run selects a word and the
used list stays as it is. -/
theorem play_exhausted (pool : List Word) (reqs : List Request) :
    ∀ (c c2 : Client) (log : List Word), play pool c reqs = .ok (c2, log) →
      (∀ w ∈ pool, contains c.used_words w = true) →
      log = [] ∧ c2.used_words = c.used_words := by
  induction reqs with
  | nil =>
    intro c c2 log h _
    unfold play at h
    injection h with h
    injection h with h1 h2
    subst h1; subst h2
    exact ⟨rfl, rfl⟩
  | cons req rest ih =>
    intro c c2 log h hall
    cases req with
    | Guess t =>
      unfold play at h
      split at h
      · cases h
      · rename_i c1 hc1
        have hu : c1.used_words = c.used_words := (calculate_results_frame hc1).1
        split at h
        · cases h
        · rename_i c3 log1 hrest
          obtain ⟨hl, hu3⟩ := ih c1 c3 log1 hrest (by rw [hu]; exact hall)
          simp only at h
          injection h with h
          injection h with h1 h2
          subst h1; subst h2
          exact ⟨hl, by rw [hu3, hu]⟩
    | New rnd =>
      unfold play at h
      split at h
      · cases h
      · rename_i c1 hc1
        have hc1' : handle pool c (Request.New rnd) = new_game pool rnd c := rfl
        rw [hc1', new_game_exhausted rnd c (new_game_pool_nonempty (hc1' ▸ hc1)) hall] at hc1
        injection hc1 with hc1
        subst hc1
        split at h
        · cases h
        · rename_i c3 log1 hrest
          obtain ⟨hl, hu3⟩ := ih _ c3 log1 hrest hall
          simp only at h
          injection h with h
          injection h with h1 h2
          subst h1; subst h2
          exact ⟨hl, hu3⟩

/-- C17: once a new-game request for a session has returned Impossible, every later new-game
request for that session returns Impossible too, whatever requests lie in between and whatever
the start indices: the run in between selects no word (its log is empty) and the used-word list
is the same at its end. -/
theorem C17_impossible_is_terminal (pool : List Word) (r : Nat) (c c1 : Client)
    (reqs : List Request) (c2 : Client) (log : List Word) (r2 : Nat)
    (hnew : new_game pool r c = .ok c1)
    (himp : c1.current_game.status = GameStatus.Impossible)
    (hplay : play pool c1 reqs = .ok (c2, log)) :
    log = [] ∧ c2.used_words = c1.used_words ∧
    ∃ c3, new_game pool r2 c2 = .ok c3 ∧ c3.current_game.status = GameStatus.Impossible := by
  have hpool := new_game_pool_nonempty hnew
  have hall : ∀ w ∈ pool, contains c1.used_words w = true := by
    rcases new_game_ok hnew with ⟨hp, rfl⟩ | ⟨pos, s, buf, buf1, hp, hs, hb, hb1, rfl⟩
    · exact new_game_probe_none_all (Nat.mod_lt r (Nat.pos_of_ne_zero hpool)) hp
    · cases himp
  obtain ⟨hl, hu⟩ := play_exhausted pool reqs c1 c2 log hplay hall
  refine ⟨hl, hu, _, new_game_exhausted r2 c2 hpool (by rw [hu]; exact hall), rfl⟩

/-- Witness of C17: the pool CAT; after the first game the second request is Impossible, and so
is the next one after a guess. -/
theorem C17_impossible_is_terminal_witness :
    new_game [wordCAT] 0 (catClient ['_', '_', '_'] GameStatus.Open 0)
      = .ok (catClient ['_', '_', '_'] GameStatus.Impossible 0) ∧
    play [wordCAT] (catClient ['_', '_', '_'] GameStatus.Impossible 0) [.Guess 'C', .New 5]
      = .ok (catClient ['C', '_', '_'] GameStatus.Impossible 0, []) ∧
    (([] : List Word) = [] ∧
      (catClient ['C', '_', '_'] GameStatus.Impossible 0).used_words
        = (catClient ['_', '_', '_'] GameStatus.Impossible 0).used_words ∧
      ∃ c3, new_game [wordCAT] 7 (catClient ['C', '_', '_'] GameStatus.Impossible 0) = .ok c3 ∧
        c3.current_game.status = GameStatus.Impossible) :=
  ⟨rfl, rfl, C17_impossible_is_terminal [wordCAT] 0 (catClient ['_', '_', '_'] GameStatus.Open 0)
    (catClient ['_', '_', '_'] GameStatus.Impossible 0) [.Guess 'C', .New 5]
    (catClient ['C', '_', '_'] GameStatus.Impossible 0) [] 7 rfl rfl rfl⟩

/-! ## Claim C18: the range of errorCount -/

/-- C18 as stated fails: the server evaluates a guess for a session that is already Lost. After
a new game on CAT and ten non-matching guesses the session is Lost with errorCount 10, above
MAX_ERROR. The tenth guess is one the client would not send. -/
theorem C18_counterexample_guess_after_lost :
    (play [wordCAT] freshClient tenWrongGuesses).map
        (fun p => (p.1.current_game.status, p.1.current_game.errors))
      = .ok (GameStatus.Lost, 10) ∧
    ¬ (10 ≤ MAX_ERROR) ∧
    guesses_while_open [wordCAT] freshClient tenWrongGuesses = false :=
  ⟨rfl, by decide, rfl⟩

theorem new_game_errors_bound {pool : List Word} {r : Nat} {c c1 : Client}
    (h : new_game pool r c = .ok c1)
    (hJ : c.current_game.errors ≤ MAX_ERROR ∧
      (c.current_game.status = GameStatus.Open → c.current_game.errors < MAX_ERROR)) :
    c1.current_game.errors ≤ MAX_ERROR ∧
      (c1.current_game.status = GameStatus.Open → c1.current_game.errors < MAX_ERROR) := by
  rcases new_game_ok h with ⟨_, rfl⟩ | ⟨pos, s, buf, buf1, hp, hs, hb, hb1, rfl⟩
  · exact ⟨hJ.1, fun h => by cases h⟩
  · exact ⟨Nat.zero_le _, fun _ => Nat.zero_lt_succ _⟩

theorem calculate_results_errors_bound {c c1 : Client} {t : Char}
    (h : calculate_results c t = .ok c1)
    (hopen : c.current_game.status = GameStatus.Open)
    (hJ : c.current_game.errors ≤ MAX_ERROR ∧
      (c.current_game.status = GameStatus.Open → c.current_game.errors < MAX_ERROR)) :
    c1.current_game.errors ≤ MAX_ERROR ∧
      (c1.current_game.status = GameStatus.Open → c1.current_game.errors < MAX_ERROR) := by
  have hE : MAX_ERROR = 9 := rfl
  have hlt := hJ.2 hopen
  have hmod : (c.current_game.errors + 1) % UINT_RANGE = c.current_game.errors + 1 :=
    Nat.mod_eq_of_lt (by unfold UINT_RANGE; omega)
  unfold calculate_results at h
  split at h
  · cases h
  · split at h
    · cases h
    · simp only at h
      split at h
      · split at h
        · injection h with h
          subst h
          refine ⟨?_, fun h => by cases h⟩
          simp only [hmod]
          omega
        · rename_i hge
          injection h with h
          subst h
          rw [hmod] at hge
          refine ⟨?_, fun _ => ?_⟩
          · simp only [hmod]; omega
          · simp only [hmod]; omega
      · split at h
        · injection h with h
          subst h
          exact ⟨hJ.1, fun h => by cases h⟩
        · injection h with h
          subst h
          exact ⟨hJ.1, fun _ => hlt⟩

theorem play_errors_bound (pool : List Word) (reqs : List Request) :
    ∀ (c0 c : Client) (log : List Word), play pool c0 reqs = .ok (c, log) →
      guesses_while_open pool c0 reqs = true →
      (c0.current_game.errors ≤ MAX_ERROR ∧
        (c0.current_game.status = GameStatus.Open → c0.current_game.errors < MAX_ERROR)) →
      c.current_game.errors ≤ MAX_ERROR ∧
        (c.current_game.status = GameStatus.Open → c.current_game.errors < MAX_ERROR) := by
  induction reqs with
  | nil =>
    intro c0 c log h _ hJ
    unfold play at h
    injection h with h
    injection h with h1 h2
    subst h1
    exact hJ
  | cons req rest ih =>
    intro c0 c log h hconf hJ
    cases req with
    | New rnd =>
      unfold play at h
      split at h
      · cases h
      · rename_i c1 hc1
        have hc1' : new_game pool rnd c0 = .ok c1 := hc1
        unfold guesses_while_open at hconf
        rw [hc1'] at hconf
        simp only at hconf
        split at h
        · cases h
        · rename_i c2 log1 hrest
          have hJ2 := ih c1 c2 log1 hrest hconf (new_game_errors_bound hc1' hJ)
          split at h <;>
            (injection h with h; injection h with h1 h2; subst h1; exact hJ2)
    | Guess t =>
      unfold play at h
      split at h
      · cases h
      · rename_i c1 hc1
        have hc1' : calculate_results c0 t = .ok c1 := hc1
        unfold guesses_while_open at hconf
        rw [hc1'] at hconf
        simp only [Bool.and_eq_true, decide_eq_true_eq] at hconf
        split at h
        · cases h
        · rename_i c2 log1 hrest
          have hJ2 := ih c1 c2 log1 hrest hconf.2
            (calculate_results_errors_bound hc1' hconf.1 hJ)
          split at h <;>
            (injection h with h; injection h with h1 h2; subst h1; exact hJ2)

/-- C18 amended: in every session state the server reaches from a newly registered session by
processing a sequence of New and Guess requests in which every Guess is sent while the game of
the session is Open (as the client does), errorCount lies between 0 and MAX_ERROR inclusive, and
is below MAX_ERROR while the game is Open. -/
theorem C18_errors_bounded_for_guesses_while_open (pool : List Word) (c0 c : Client)
    (reqs : List Request) (log : List Word)
    (h0 : c0.current_game = zeroGame)
    (hplay : play pool c0 reqs = .ok (c, log))
    (hconf : guesses_while_open pool c0 reqs = true) :
    0 ≤ c.current_game.errors ∧ c.current_game.errors ≤ MAX_ERROR ∧
      (c.current_game.status = GameStatus.Open → c.current_game.errors < MAX_ERROR) := by
  have hJ := play_errors_bound pool reqs c0 c log hplay hconf
    (by rw [h0]; exact ⟨by decide, fun _ => by decide⟩)
  exact ⟨Nat.zero_le _, hJ.1, hJ.2⟩

/-- Witness of C18 amended: a new game on CAT and nine non-matching guesses. -/
theorem C18_errors_bounded_for_guesses_while_open_witness :
    guesses_while_open [wordCAT] freshClient (tenWrongGuesses.take 10) = true ∧
    play [wordCAT] freshClient (tenWrongGuesses.take 10)
      = .ok (catClient ['C', 'A', 'T'] GameStatus.Lost 9, [wordCAT]) ∧
    (0 ≤ (catClient ['C', 'A', 'T'] GameStatus.Lost 9).current_game.errors ∧
      (catClient ['C', 'A', 'T'] GameStatus.Lost 9).current_game.errors ≤ MAX_ERROR ∧
      ((catClient ['C', 'A', 'T'] GameStatus.Lost 9).current_game.status = GameStatus.Open →
        (catClient ['C', 'A', 'T'] GameStatus.Lost 9).current_game.errors < MAX_ERROR)) :=
  ⟨rfl, rfl, C18_errors_bounded_for_guesses_while_open [wordCAT] freshClient
    (catClient ['C', 'A', 'T'] GameStatus.Lost 9) (tenWrongGuesses.take 10) [wordCAT] rfl rfl rfl⟩

/-! ## Claim C19: the obscured word throughout a game -/

theorem cstr_getElem? (s : List Char) : ∀ j, j < strlen s → (cstr s)[j]? = s[j]? := by
  induction s with
  | nil =>
    intro j hj
    simp [strlen, cstr] at hj
  | cons a s ih =>
    intro j hj
    unfold strlen cstr at hj
    unfold cstr
    rw [List.takeWhile_cons] at hj ⊢
    by_cases ha : (a != NUL) = true
    · simp only [ha, if_true] at hj ⊢
      cases j with
      | zero => simp only [List.getElem?_cons_zero]
      | succ j =>
        simp only [List.length_cons] at hj
        simp only [List.getElem?_cons_succ]
        exact ih j (by unfold strlen cstr; omega)
    · simp only [ha] at hj
      simp at hj

theorem charAt_cstr {s : List Char} {j : Nat} (hj : j < strlen s) :
    (cstr s)[j]? = some (charAt s j) ∧ charAt s j ≠ NUL := by
  have hlt : j < (cstr s).length := hj
  have h1 : (cstr s)[j]? = some ((cstr s)[j]) := List.getElem?_eq_getElem hlt
  have h2 : s[j]? = some ((cstr s)[j]) := by rw [← cstr_getElem? s j hj]; exact h1
  have h3 : charAt s j = (cstr s)[j] := by
    unfold charAt
    rw [List.getD_eq_getElem?_getD, h2]
    rfl
  rw [h3]
  exact ⟨h1, cstr_no_NUL (List.getElem_mem hlt)⟩

theorem strncpy_getElem? (dst : List Char) (src : Word) (n : Nat) (h : strlen src < n) :
    (∀ j, j < strlen src → (strncpy dst src n)[j]? = some (charAt src j)) ∧
    (strncpy dst src n)[strlen src]? = some NUL := by
  have htake : (cstr src).take n = cstr src :=
    List.take_of_length_le (by unfold strlen at h; omega)
  obtain ⟨k, hk⟩ : ∃ k, n - strlen src = k + 1 := ⟨n - strlen src - 1, by omega⟩
  have hform : strncpy dst src n = cstr src ++ (NUL :: (List.replicate k NUL ++ dst.drop n)) := by
    unfold strncpy
    rw [htake, hk, List.replicate_succ, List.append_assoc]
    rfl
  rw [hform]
  constructor
  · intro j hj
    rw [List.getElem?_append_left (by exact hj)]
    exact (charAt_cstr hj).1
  · rw [List.getElem?_append_right (by unfold strlen; exact le_refl _)]
    unfold strlen
    simp

theorem new_game_obscures {pool : List Word} {r : Nat} {c c1 : Client} {s : Word}
    (h : new_game pool r c = .ok c1) (hopen : c1.current_game.status = GameStatus.Open)
    (hsec : c1.current_game.secret_word = some s) : Obscures s c1 := by
  obtain ⟨s1, _, _, hL, _, _, hsec1, _, hlen, hpt⟩ := new_game_open h hopen
  rw [hsec] at hsec1
  injection hsec1 with hsec1
  subst hsec1
  refine ⟨hsec, hlen, hL, ?_, ?_⟩
  · intro j hj
    rw [hpt j, if_pos hj]
    by_cases hsp : charAt s j = SPACE
    · rw [if_pos hsp]
      exact ⟨Or.inr (by rw [hsp]), fun _ => rfl⟩
    · rw [if_neg hsp]
      exact ⟨Or.inl rfl, fun h => absurd h hsp⟩
  · rw [hpt (strlen s), if_neg (lt_irrefl _), if_pos (by omega)]

theorem calculate_results_obscures {s : Word} {c : Client} (t : Char) (h : Obscures s c) :
    ∃ c1, calculate_results c t = .ok c1 ∧ Obscures s c1 := by
  obtain ⟨hsec, hlen, hL, hpt, hz⟩ := h
  obtain ⟨buf1, error, won, hl1, hb1, _, _, hres⟩ :=
    calculate_results_spec c t s hsec hlen (by omega)
  have hnew : ∀ j, j < strlen s →
      (buf1[j]? = some MASK ∨ buf1[j]? = some (charAt s j)) ∧
      (charAt s j = SPACE → buf1[j]? = some SPACE) := by
    intro j hj
    rw [hb1 j]
    by_cases hm : j ∈ matching_positions s t
    · have hc := (mem_matching_positions.mp hm).2
      rw [if_pos hm]
      exact ⟨Or.inr (by rw [hc]), fun hsp => by rw [← hsp, hc]⟩
    · rw [if_neg hm]
      exact hpt j hj
  have hzn : buf1[strlen s]? = some NUL := by
    rw [hb1 (strlen s), if_neg, hz]
    intro hm
    have := (mem_matching_positions.mp hm).1
    omega
  have hcopy := strncpy_getElem? buf1 s MAX_WORD_LENGTH (by omega)
  have hlost : ∀ j, j < strlen s →
      ((strncpy buf1 s MAX_WORD_LENGTH)[j]? = some MASK ∨
        (strncpy buf1 s MAX_WORD_LENGTH)[j]? = some (charAt s j)) ∧
      (charAt s j = SPACE → (strncpy buf1 s MAX_WORD_LENGTH)[j]? = some SPACE) := by
    intro j hj
    rw [hcopy.1 j hj]
    exact ⟨Or.inr rfl, fun hsp => by rw [hsp]⟩
  rw [hres]
  split
  · split
    · exact ⟨_, rfl, hsec, strncpy_length _ _ _ hl1, hL, hlost, hcopy.2⟩
    · exact ⟨_, rfl, hsec, hl1, hL, hnew, hzn⟩
  · split
    · exact ⟨_, rfl, hsec, hl1, hL, hnew, hzn⟩
    · exact ⟨_, rfl, hsec, hl1, hL, hnew, hzn⟩

theorem play_guesses_obscures {s : Word} (ts : List Char) :
    ∀ c : Client, Obscures s c → ∃ c1, play_guesses c ts = .ok c1 ∧ Obscures s c1 := by
  induction ts with
  | nil => intro c h; exact ⟨c, rfl, h⟩
  | cons t ts ih =>
    intro c h
    obtain ⟨c1, hc1, h1⟩ := calculate_results_obscures t h
    obtain ⟨c2, hc2, h2⟩ := ih c1 h1
    refine ⟨c2, ?_, h2⟩
    unfold play_guesses
    rw [hc1]
    exact hc2

/-- C19: throughout a game, that is after a new_game that opened a game on the secret s and
after any sequence of guesses (each of them is evaluated), the obscured word has the length of
the secret, every position below that length holds either the mask or exactly the character of
the secret at that position, and positions where the secret has a space show the space. -/
theorem C19_obscured_word_invariant (pool : List Word) (r : Nat) (c0 c : Client) (s : Word)
    (ts : List Char)
    (hnew : new_game pool r c0 = .ok c) (hopen : c.current_game.status = GameStatus.Open)
    (hsec : c.current_game.secret_word = some s) :
    ∃ c1, play_guesses c ts = .ok c1 ∧
      c1.current_game.secret_word = some s ∧
      strlen c1.current_game.obscured_word = strlen s ∧
      ∀ i, i < strlen s →
        (charAt c1.current_game.obscured_word i = MASK ∨
          charAt c1.current_game.obscured_word i = charAt s i) ∧
        (charAt s i = SPACE → charAt c1.current_game.obscured_word i = SPACE) := by
  obtain ⟨c1, hc1, hsec1, hlen, hL, hpt, hz⟩ :=
    play_guesses_obscures ts c (new_game_obscures hnew hopen hsec)
  refine ⟨c1, hc1, hsec1, ?_, ?_⟩
  · apply strlen_of_pointwise _ hz
    intro j hj
    rcases (hpt j hj).1 with h | h
    · exact ⟨_, h, MASK_ne_NUL⟩
    · exact ⟨_, h, (charAt_cstr hj).2⟩
  · intro i hi
    constructor
    · rcases (hpt i hi).1 with h | h
      · exact Or.inl (charAt_of_getElem? h)
      · exact Or.inr (charAt_of_getElem? h)
    · intro hsp
      exact charAt_of_getElem? ((hpt i hi).2 hsp)

/-- Witness of C19: the game on CAT after the guesses C, X and T. -/
theorem C19_obscured_word_invariant_witness :
    new_game [wordCAT, wordDOG] 0 freshClient = .ok (catClient ['_', '_', '_'] GameStatus.Open 0) ∧
    play_guesses (catClient ['_', '_', '_'] GameStatus.Open 0) ['C', 'X', 'T']
      = .ok (catClient ['C', '_', 'T'] GameStatus.Open 1) ∧
    ∃ c1, play_guesses (catClient ['_', '_', '_'] GameStatus.Open 0) ['C', 'X', 'T'] = .ok c1 ∧
      c1.current_game.secret_word = some wordCAT ∧
      strlen c1.current_game.obscured_word = strlen wordCAT ∧
      ∀ i, i < strlen wordCAT →
        (charAt c1.current_game.obscured_word i = MASK ∨
          charAt c1.current_game.obscured_word i = charAt wordCAT i) ∧
        (charAt wordCAT i = SPACE → charAt c1.current_game.obscured_word i = SPACE) :=
  ⟨rfl, rfl, C19_obscured_word_invariant [wordCAT, wordDOG] 0 freshClient
    (catClient ['_', '_', '_'] GameStatus.Open 0) wordCAT ['C', 'X', 'T'] rfl rfl rfl⟩

/-! ## Claim C20: readFile -/

theorem ofNat_isUpper (m : Nat) (h1 : 65 ≤ m) (h2 : m ≤ 90) : (Char.ofNat m).isUpper = true := by
  interval_cases m <;> rfl

theorem isLower_iff (c : Char) : c.isLower = true ↔ 97 ≤ c.toNat ∧ c.toNat ≤ 122 := by
  unfold Char.isLower Char.toNat
  simp only [Bool.and_eq_true, decide_eq_true_eq, ge_iff_le]
  rw [UInt32.le_def, UInt32.le_def]
  rfl

theorem toUpper_isUpper (c : Char) (h : c.isAlpha = true) : c.toUpper.isUpper = true := by
  unfold Char.toUpper
  simp only
  by_cases hl : 97 ≤ c.toNat ∧ c.toNat ≤ 122
  · rw [if_pos (by exact hl)]
    exact ofNat_isUpper _ (by omega) (by omega)
  · rw [if_neg (by exact hl)]
    unfold Char.isAlpha at h
    rcases Bool.or_eq_true _ _ ▸ h with h | h
    · exact h
    · exact absurd ((isLower_iff c).mp h) hl

theorem isUpper_ne_NUL {c : Char} (h : c.isUpper = true) : c ≠ NUL := by
  intro e; subst e; exact absurd h (by decide)

/-- A character readFile keeps when all_characters is false, after toupper. -/
theorem kept_char {c : Char} (h : c.isAlpha = true ∨ c = SPACE) :
    c.toUpper.isUpper = true ∨ c.toUpper = SPACE := by
  rcases h with h | h
  · exact Or.inl (toUpper_isUpper c h)
  · right; rw [h]; rfl

theorem stored_line_eq {line : List Char} (h : ∀ ch ∈ line, ch.isUpper = true ∨ ch = SPACE) :
    stored_line line = line := by
  have hnn : ∀ ch ∈ line, ch ≠ NUL := by
    intro ch hch
    rcases h ch hch with h1 | h1
    · exact isUpper_ne_NUL h1
    · rw [h1]; exact SPACE_ne_NUL
  unfold stored_line strncpy strlen
  rw [cstr_eq_self hnn]
  simp

theorem is_line_end_not_kept {c : Char} (h : is_line_end c = true) :
    ¬ (c.isAlpha = true ∨ c = SPACE) := by
  unfold is_line_end at h
  simp only [Bool.or_eq_true, beq_iff_eq] at h
  rcases h with h | h <;> (subst h; decide)

theorem spec_lines_cons_head (input : List Char) :
    spec_lines input = (spec_lines input).headD [] :: (spec_lines input).tail := by
  cases input with
  | nil => rfl
  | cons c rest =>
    unfold spec_lines
    split <;> rfl

theorem spec_words_eq (input : List Char) :
    spec_words input =
      ((([] : List Char) ++ spec_normalize ((spec_lines input).headD [])) ::
        (spec_lines input).tail.map spec_normalize).filter (fun w => !w.isEmpty) := by
  unfold spec_words
  conv_lhs => rw [spec_lines_cons_head input]
  rfl

theorem spec_lines_cons_end {c : Char} (rest : List Char) (h : is_line_end c = true) :
    spec_lines (c :: rest) = [] :: spec_lines rest := by
  rw [spec_lines, if_pos h]

theorem spec_lines_cons_other {c : Char} (rest : List Char) (h : ¬ is_line_end c = true) :
    spec_lines (c :: rest) = (c :: (spec_lines rest).headD []) :: (spec_lines rest).tail := by
  rw [spec_lines, if_neg h]

theorem spec_normalize_cons_keep {c : Char} (l : List Char)
    (h : (c.isAlpha || c == SPACE) = true) :
    spec_normalize (c :: l) = c.toUpper :: spec_normalize l := by
  unfold spec_normalize
  rw [List.filter_cons]
  simp only [h, if_true, List.map_cons]

theorem spec_normalize_cons_drop {c : Char} (l : List Char)
    (h : (c.isAlpha || c == SPACE) = false) :
    spec_normalize (c :: l) = spec_normalize l := by
  unfold spec_normalize
  rw [List.filter_cons]
  simp only [h, Bool.false_eq_true, if_false]

theorem spec_normalize_nil : spec_normalize [] = [] := rfl

/-- The loop of readFile with all_characters false, when it returns 0: the buffer gets the
normalized line in progress followed by the normalized further lines, leaving out empty ones. -/
theorem readFile_loop_spec (maxLineLength : Nat) (rest : List Char) :
    ∀ (content : List Word) (line : List Char) (out : List Word),
      (∀ ch ∈ line, ch.isUpper = true ∨ ch = SPACE) →
      readFile_loop maxLineLength false rest content line = (0, out) →
      out = content ++
        ((line ++ spec_normalize ((spec_lines rest).headD [])) ::
          (spec_lines rest).tail.map spec_normalize).filter (fun w => !w.isEmpty) := by
  induction rest with
  | nil =>
    intro content line out hline h
    unfold readFile_loop at h
    split at h
    · cases h
    · split at h
      · rename_i hpos
        injection h with _ h
        subst h
        rw [stored_line_eq hline]
        have hne : line ≠ [] := by
          intro e; rw [e] at hpos; simp at hpos
        simp [spec_lines, spec_normalize, hne]
      · rename_i hpos
        injection h with _ h
        subst h
        have he : line = [] := by
          cases line with
          | nil => rfl
          | cons a l => simp at hpos
        simp [spec_lines, spec_normalize, he]
  | cons c rest ih =>
    intro content line out hline h
    unfold readFile_loop at h
    split at h
    · cases h
    · split at h
      · -- a line end behind a line that kept characters
        rename_i hend
        have hrec := ih (content ++ [stored_line line]) [] out (by simp) h
        have hne : line ≠ [] := by
          intro e; rw [e] at hend; simp at hend
        rw [spec_lines_cons_end rest hend.1, hrec, stored_line_eq hline, ← spec_words_eq]
        simp only [List.headD_cons, List.tail_cons, spec_normalize_nil, List.append_nil]
        have hemp : (!line.isEmpty) = true := by
          cases line with
          | nil => exact absurd rfl hne
          | cons a l => rfl
        rw [List.filter_cons, if_pos hemp, List.append_assoc]
        rfl
      · rename_i hnend
        split at h
        · -- the character is kept
          rename_i hkeep
          have hkeep2 : c.isAlpha = true ∨ c = SPACE := by
            rcases hkeep with hk | hk
            · cases hk
            · exact hk
          have hne : ¬ is_line_end c = true := fun he => is_line_end_not_kept he hkeep2
          have hrec := ih content (line ++ [c.toUpper]) out (by
            intro ch hch
            rcases List.mem_append.mp hch with hch | hch
            · exact hline ch hch
            · rw [List.mem_singleton.mp hch]
              exact kept_char hkeep2) h
          have hfil : (c.isAlpha || c == SPACE) = true := by
            rcases hkeep2 with hk | hk
            · rw [hk]; rfl
            · rw [hk]; decide
          rw [spec_lines_cons_other rest hne, hrec]
          simp only [List.headD_cons, List.tail_cons, spec_normalize_cons_keep _ hfil,
            List.append_assoc, List.singleton_append]
        · -- the character is dropped
          rename_i hdrop
          have hfil : (c.isAlpha || c == SPACE) = false := by
            cases hb : (c.isAlpha || c == SPACE) with
            | false => rfl
            | true =>
              exfalso
              apply hdrop
              right
              simpa using hb
          have hrec := ih content line out hline h
          by_cases hend : is_line_end c = true
          · have he : line = [] := by
              cases line with
              | nil => rfl
              | cons a l => exact absurd ⟨hend, by simp⟩ hnend
            subst he
            rw [spec_lines_cons_end rest hend, hrec, ← spec_words_eq]
            simp only [List.headD_cons, List.tail_cons, spec_normalize_nil, List.append_nil]
            rw [List.filter_cons]
            simp only [List.isEmpty_nil, Bool.not_true, Bool.false_eq_true, if_false]
            rfl
          · rw [spec_lines_cons_other rest hend, hrec]
            simp only [List.headD_cons, List.tail_cons, spec_normalize_cons_drop _ hfil]

/-- C20: for every input on which readFile with all_characters = false returns 0 (on a buffer
that was empty, as the server passes it), the stored words are, in input order, exactly the
lines of the input (separated by line feed or carriage return) with everything except letters
and spaces removed and the letters upper-cased, leaving out the lines that keep no character;
so each stored word is non-empty and consists only of the letters A to Z and spaces. -/
theorem C20_readFile_stores_normalized_lines (input : List Char) (maxLineLength : Nat)
    (words : List Word)
    (h : readFile input [] maxLineLength false = (0, words)) :
    words = spec_words input ∧
    ∀ w ∈ words, w ≠ [] ∧ ∀ ch ∈ w, ch.isUpper = true ∨ ch = SPACE := by
  have hspec : words = spec_words input := by
    have := readFile_loop_spec maxLineLength input [] [] words (by simp) h
    rw [this, spec_words_eq]
    rfl
  refine ⟨hspec, ?_⟩
  intro w hw
  rw [hspec] at hw
  unfold spec_words at hw
  obtain ⟨hw1, hw2⟩ := List.mem_filter.mp hw
  obtain ⟨l, _, rfl⟩ := List.mem_map.mp hw1
  constructor
  · intro he
    rw [he] at hw2
    simp at hw2
  · intro ch hch
    unfold spec_normalize at hch
    obtain ⟨a, ha, rfl⟩ := List.mem_map.mp hch
    have hk := (List.mem_filter.mp ha).2
    apply kept_char
    simpa using hk

/-- Witness of C20: the five lines of sampleInput give the words CAT, DOG and X Y. -/
theorem C20_readFile_stores_normalized_lines_witness :
    readFile sampleInput [] MAX_WORD_LENGTH false = (0, [wordCAT, wordDOG, ['X', SPACE, 'Y']]) ∧
    ([wordCAT, wordDOG, ['X', SPACE, 'Y']] = spec_words sampleInput ∧
      ∀ w ∈ [wordCAT, wordDOG, ['X', SPACE, 'Y']],
        w ≠ [] ∧ ∀ ch ∈ w, ch.isUpper = true ∨ ch = SPACE) :=
  ⟨rfl, C20_readFile_stores_normalized_lines sampleInput MAX_WORD_LENGTH
    [wordCAT, wordDOG, ['X', SPACE, 'Y']] rfl⟩

/-! ## Claim C21: the length of the stored words -/

theorem strlen_le_length (w : List Char) : strlen w ≤ w.length := by
  unfold strlen cstr
  exact (List.takeWhile_sublist _).length_le

theorem stored_line_length (line : List Char) : (stored_line line).length = line.length := by
  unfold stored_line
  exact strncpy_length _ _ _ (by simp)

/-- The loop of readFile returns 0 or -1 and stores only words that leave room for the
terminator and one more character below maxLineLength. -/
theorem readFile_loop_bound (maxLineLength : Nat) (all_characters : Bool) (rest : List Char) :
    ∀ (content : List Word) (line : List Char),
      (∀ w ∈ content, w.length + 2 ≤ maxLineLength) →
      ((readFile_loop maxLineLength all_characters rest content line).1 = 0 ∨
        (readFile_loop maxLineLength all_characters rest content line).1 = -1) ∧
      ∀ w ∈ (readFile_loop maxLineLength all_characters rest content line).2,
        w.length + 2 ≤ maxLineLength := by
  induction rest with
  | nil =>
    intro content line hc
    unfold readFile_loop
    split
    · exact ⟨Or.inr rfl, hc⟩
    · rename_i hlen
      split
      · refine ⟨Or.inl rfl, ?_⟩
        intro w hw
        rcases List.mem_append.mp hw with hw | hw
        · exact hc w hw
        · rw [List.mem_singleton.mp hw, stored_line_length]
          omega
      · exact ⟨Or.inl rfl, hc⟩
  | cons c rest ih =>
    intro content line hc
    unfold readFile_loop
    split
    · exact ⟨Or.inr rfl, hc⟩
    · rename_i hlen
      split
      · apply ih
        intro w hw
        rcases List.mem_append.mp hw with hw | hw
        · exact hc w hw
        · rw [List.mem_singleton.mp hw, stored_line_length]
          omega
      · split
        · exact ih content _ hc
        · exact ih content _ hc

/-- C21: for every input, readFile called with maxLineLength = MAX_WORD_LENGTH (and
all_characters = false, as the server calls it) returns 0 or the error -1; every word it has
stored has at most MAX_WORD_LENGTH - 2 characters, so at most MAX_WORD_LENGTH; and it returns
the error whenever some line of the input keeps MAX_WORD_LENGTH - 1 or more characters. -/
theorem C21_readFile_length_bound (input : List Char) :
    ((readFile input [] MAX_WORD_LENGTH false).1 = 0 ∨
      (readFile input [] MAX_WORD_LENGTH false).1 = -1) ∧
    (∀ w ∈ (readFile input [] MAX_WORD_LENGTH false).2,
      w.length ≤ MAX_WORD_LENGTH - 2 ∧ strlen w ≤ MAX_WORD_LENGTH - 2 ∧
        w.length ≤ MAX_WORD_LENGTH) ∧
    ((∃ l ∈ spec_lines input, MAX_WORD_LENGTH - 1 ≤ (spec_normalize l).length) →
      (readFile input [] MAX_WORD_LENGTH false).1 ≠ 0) := by
  have hW : MAX_WORD_LENGTH = 50 := rfl
  obtain ⟨hret, hlen⟩ := readFile_loop_bound MAX_WORD_LENGTH false input [] [] (by simp)
  refine ⟨hret, ?_, ?_⟩
  · intro w hw
    have h1 := hlen w hw
    have h2 := strlen_le_length w
    omega
  · rintro ⟨l, hl, hlong⟩ h0
    have hrun : readFile input [] MAX_WORD_LENGTH false
        = (0, (readFile input [] MAX_WORD_LENGTH false).2) := by
      rw [← h0]
    have hspec := readFile_loop_spec MAX_WORD_LENGTH input [] []
      (readFile input [] MAX_WORD_LENGTH false).2 (by simp) hrun
    have hmem : spec_normalize l ∈ (readFile input [] MAX_WORD_LENGTH false).2 := by
      rw [hspec, List.nil_append, ← spec_words_eq]
      unfold spec_words
      apply List.mem_filter.mpr
      refine ⟨List.mem_map_of_mem _ hl, ?_⟩
      cases hn : spec_normalize l with
      | nil => rw [hn] at hlong; simp at hlong
      | cons a b => rfl
    have := hlen _ hmem
    omega

/-- Witness of C21: sampleInput is read without error, and a line of 49 letters is refused. -/
theorem C21_readFile_length_bound_witness :
    readFile sampleInput [] MAX_WORD_LENGTH false = (0, [wordCAT, wordDOG, ['X', SPACE, 'Y']]) ∧
    (readFile longLine [] MAX_WORD_LENGTH false).1 = -1 ∧
    (∃ l ∈ spec_lines longLine, MAX_WORD_LENGTH - 1 ≤ (spec_normalize l).length) ∧
    (((readFile longLine [] MAX_WORD_LENGTH false).1 = 0 ∨
      (readFile longLine [] MAX_WORD_LENGTH false).1 = -1) ∧
    (∀ w ∈ (readFile longLine [] MAX_WORD_LENGTH false).2,
      w.length ≤ MAX_WORD_LENGTH - 2 ∧ strlen w ≤ MAX_WORD_LENGTH - 2 ∧
        w.length ≤ MAX_WORD_LENGTH) ∧
    ((∃ l ∈ spec_lines longLine, MAX_WORD_LENGTH - 1 ≤ (spec_normalize l).length) →
      (readFile longLine [] MAX_WORD_LENGTH false).1 ≠ 0)) :=
  ⟨rfl, rfl, ⟨longLine, by decide, by decide⟩, C21_readFile_length_bound longLine⟩

/-! ## Claims C24, C25, C28 and C29: probing and the writes of new_game -/

/-- The probe loop returns the first index, counted from the start index, whose word is not in
the used list. -/
theorem new_game_probe_first {used pool : List Word} (n : Nat) :
    ∀ pos j, pos < pool.length → j ≤ n →
      (∀ k, k < j → ∃ w, pool[(pos + k) % pool.length]? = some w ∧ contains used w = true) →
      (∃ w, pool[(pos + j) % pool.length]? = some w ∧ contains used w = false) →
      new_game_probe used pool n pos = .ok (some ((pos + j) % pool.length)) := by
  induction n with
  | zero =>
    intro pos j hpos hj _ hfree
    have hj0 : j = 0 := by omega
    subst hj0
    obtain ⟨w, hw, hc⟩ := hfree
    simp only [Nat.add_zero, Nat.mod_eq_of_lt hpos] at hw ⊢
    unfold new_game_probe
    rw [hw]
    simp [hc]
  | succ n ih =>
    intro pos j hpos hj hused hfree
    cases j with
    | zero =>
      obtain ⟨w, hw, hc⟩ := hfree
      simp only [Nat.add_zero, Nat.mod_eq_of_lt hpos] at hw ⊢
      unfold new_game_probe
      rw [hw]
      simp [hc]
    | succ j =>
      obtain ⟨w0, hw0, hc0⟩ := hused 0 (by omega)
      rw [Nat.add_zero, Nat.mod_eq_of_lt hpos] at hw0
      have hshift : ∀ k, ((pos + 1) % pool.length + k) % pool.length
          = (pos + (k + 1)) % pool.length := by
        intro k
        rw [Nat.mod_add_mod, show pos + 1 + k = pos + (k + 1) by omega]
      have hrec := ih ((pos + 1) % pool.length) j (Nat.mod_lt _ (by omega)) (by omega)
        (fun k hk => by rw [hshift k]; exact hused (k + 1) (by omega))
        (by rw [hshift j]; exact hfree)
      unfold new_game_probe
      rw [hw0]
      simp only [hc0, if_true]
      rw [hrec, hshift j]

/-- The probe loop makes at most N + 1 probes, and exactly N + 1 when it ends in Impossible. -/
theorem new_game_probes_le {used pool : List Word} (n : Nat) :
    ∀ pos, new_game_probes used pool n pos ≤ n + 1 := by
  induction n with
  | zero => intro pos; unfold new_game_probes; exact le_refl _
  | succ n ih =>
    intro pos
    unfold new_game_probes
    split
    · omega
    · split
      · have := ih ((pos + 1) % pool.length)
        omega
      · omega

theorem new_game_probes_exhausted {used pool : List Word}
    (hall : ∀ w ∈ pool, contains used w = true) (n : Nat) :
    ∀ pos, pos < pool.length → new_game_probes used pool n pos = n + 1 := by
  induction n with
  | zero => intro pos _; unfold new_game_probes; rfl
  | succ n ih =>
    intro pos hpos
    unfold new_game_probes
    rw [List.getElem?_eq_getElem hpos]
    simp only [hall _ (List.getElem_mem hpos), if_true]
    rw [ih _ (Nat.mod_lt _ (by omega))]
    omega

/-- The probe loop stays inside the pool. -/
theorem new_game_probe_total {used pool : List Word} (n : Nat) :
    ∀ pos, pos < pool.length →
      ∃ res, new_game_probe used pool n pos = .ok res ∧ ∀ p, res = some p → p < pool.length := by
  induction n with
  | zero =>
    intro pos hpos
    unfold new_game_probe
    rw [List.getElem?_eq_getElem hpos]
    simp only
    split
    · exact ⟨none, rfl, fun p h => by cases h⟩
    · exact ⟨some pos, rfl, fun p h => by injection h with h; omega⟩
  | succ n ih =>
    intro pos hpos
    unfold new_game_probe
    rw [List.getElem?_eq_getElem hpos]
    simp only
    split
    · exact ih _ (Nat.mod_lt _ (by omega))
    · exact ⟨some pos, rfl, fun p h => by injection h with h; omega⟩

/-- On a pool that is not empty and whose words leave room for the terminator write, new_game
returns. -/
theorem new_game_total {pool : List Word} (r : Nat) (c : Client) (hpool : pool.length ≠ 0)
    (hfit : ∀ w ∈ pool, strlen w + 1 < MAX_WORD_LENGTH) :
    ∃ c1, new_game pool r c = .ok c1 := by
  obtain ⟨res, hres, hlt⟩ := @new_game_probe_total c.used_words pool pool.length
    (r % pool.length) (Nat.mod_lt r (Nat.pos_of_ne_zero hpool))
  unfold new_game
  rw [if_neg hpool, hres]
  cases res with
  | none => exact ⟨_, rfl⟩
  | some pos =>
    have hpos := hlt pos rfl
    simp only
    rw [List.getElem?_eq_getElem hpos]
    simp only
    have hL := hfit _ (List.getElem_mem hpos)
    obtain ⟨buf, hbuf, _, _⟩ := obscure_loop_spec pool[pos] (strlen pool[pos]) 0
      zeroGame.obscured_word (by simp [zeroGame]) (by omega)
    rw [hbuf]
    simp only
    rw [buf_write_ok NUL hL]
    exact ⟨_, rfl⟩

/-- With the first free word at distance j from the start index, new_game opens a game with
that word. -/
theorem new_game_first_free {pool : List Word} (r : Nat) (c : Client) (j : Nat) (w : Word)
    (hpool : pool.length ≠ 0) (hj : j < pool.length)
    (hused : ∀ k, k < j → ∃ u, pool[(r % pool.length + k) % pool.length]? = some u ∧
      contains c.used_words u = true)
    (hfree : pool[(r % pool.length + j) % pool.length]? = some w)
    (hc : contains c.used_words w = false)
    (hfit : strlen w + 1 < MAX_WORD_LENGTH) :
    ∃ c1, new_game pool r c = .ok c1 ∧ c1.current_game.secret_word = some w ∧
      c1.current_game.status = GameStatus.Open ∧ c1.used_words = w :: c.used_words ∧
      new_game_probes c.used_words pool pool.length (r % pool.length) ≤ pool.length := by
  have hprobe := @new_game_probe_first c.used_words pool pool.length (r % pool.length) j
    (Nat.mod_lt r (Nat.pos_of_ne_zero hpool)) (Nat.le_of_lt hj) hused ⟨w, hfree, hc⟩
  obtain ⟨buf, hbuf, _, _⟩ := obscure_loop_spec w (strlen w) 0
    zeroGame.obscured_word (by simp [zeroGame]) (by omega)
  have hcount : ∀ n pos i, i ≤ n →
      (∀ k, k < i → ∃ u, pool[(pos + k) % pool.length]? = some u ∧
        contains c.used_words u = true) →
      (∃ u, pool[(pos + i) % pool.length]? = some u ∧ contains c.used_words u = false) →
      pos < pool.length →
      new_game_probes c.used_words pool n pos ≤ i + 1 := by
    intro n
    induction n with
    | zero => intro pos i _ _ _ _; unfold new_game_probes; omega
    | succ n ih =>
      intro pos i hi hu hf hpos
      unfold new_game_probes
      rw [List.getElem?_eq_getElem hpos]
      simp only
      split
      · rename_i hcon
        cases i with
        | zero =>
          obtain ⟨u, hu1, hu2⟩ := hf
          simp only [Nat.add_zero, Nat.mod_eq_of_lt hpos] at hu1
          rw [List.getElem?_eq_getElem hpos] at hu1
          injection hu1 with hu1
          rw [hu1, hu2] at hcon
          cases hcon
        | succ i =>
          have hshift : ∀ k, ((pos + 1) % pool.length + k) % pool.length
              = (pos + (k + 1)) % pool.length := by
            intro k
            rw [Nat.mod_add_mod, show pos + 1 + k = pos + (k + 1) by omega]
          have := ih ((pos + 1) % pool.length) i (by omega)
            (fun k hk => by rw [hshift k]; exact hu (k + 1) (by omega))
            (by rw [hshift i]; exact hf) (Nat.mod_lt _ (by omega))
          omega
      · omega
  have hcnt := hcount pool.length (r % pool.length) j (Nat.le_of_lt hj) hused ⟨w, hfree, hc⟩
    (Nat.mod_lt r (Nat.pos_of_ne_zero hpool))
  have hng : new_game pool r c = .ok { c with
      used_words := w :: c.used_words
      current_game :=
        { secret_word := some w
          obscured_word := buf.set (strlen w + 1) NUL
          status := GameStatus.Open
          errors := 0 } } := by
    unfold new_game
    rw [if_neg hpool, hprobe]
    simp only
    rw [hfree]
    simp only
    rw [hbuf]
    simp only
    rw [buf_write_ok NUL hfit]
  exact ⟨_, hng, rfl, rfl, rfl, by omega⟩

/-- C24 (defect of the code): the probe loop of new_game tests the start index a second time
before it gives up. With the pool CAT (N = 1) and CAT in the used list, new_game from start index
0 sets Impossible and leaves the rest of the session as it was, but the loop has made 2 probes,
one more than N; with the pool CAT, DOG, both used, and start index 1 it makes 3 probes. -/
theorem C24_exhausted_pool_is_probed_once_too_often :
    new_game [wordCAT] 0 (catClient ['C', 'A', 'T'] GameStatus.Won 0)
      = .ok (catClient ['C', 'A', 'T'] GameStatus.Impossible 0) ∧
    new_game_probes (catClient ['C', 'A', 'T'] GameStatus.Won 0).used_words [wordCAT]
      [wordCAT].length (0 % [wordCAT].length) = 2 ∧
    new_game_probe [wordDOG, wordCAT] [wordCAT, wordDOG] 2 1 = .ok none ∧
    new_game_probes [wordDOG, wordCAT] [wordCAT, wordDOG] 2 1 = 3 :=
  ⟨rfl, by decide, rfl, by decide⟩

/-- C25: a game that new_game opens has its terminator written at index L + 1 of the obscured
word, L the length of the secret, after the loop has written the indices below L; and for a
secret with L = MAX_WORD_LENGTH - 1 that is not in the used list the loop stays inside the
obscured word, the terminator write is outside it, and new_game on the pool of this word ends
with that access. -/
theorem C25_terminator_write_at_L_plus_one (s : Word) (r : Nat) (c : Client)
    (hL : strlen s = MAX_WORD_LENGTH - 1) (hfree : contains c.used_words s = false) :
    (∀ pool c1, new_game pool r c = .ok c1 → c1.current_game.status = GameStatus.Open →
      ∃ w buf, c1.current_game.secret_word = some w ∧
        obscure_loop w (strlen w) 0 zeroGame.obscured_word = .ok buf ∧
        strlen w + 1 < MAX_WORD_LENGTH ∧
        c1.current_game.obscured_word = buf.set (strlen w + 1) NUL) ∧
    (∃ buf, obscure_loop s (strlen s) 0 zeroGame.obscured_word = .ok buf ∧
      ¬ strlen s + 1 < MAX_WORD_LENGTH ∧
      buf_write buf (strlen s + 1) NUL = .error Fault.outOfBounds) ∧
    new_game [s] r c = .error Fault.outOfBounds := by
  have hM : MAX_WORD_LENGTH = 50 := rfl
  obtain ⟨buf, hbuf, _, _⟩ := obscure_loop_spec s (strlen s) 0
    zeroGame.obscured_word (by simp [zeroGame]) (by omega)
  have hw : buf_write buf (strlen s + 1) NUL = .error Fault.outOfBounds := by
    unfold buf_write
    rw [if_neg (by omega)]
  refine ⟨?_, ⟨buf, hbuf, by omega, hw⟩, ?_⟩
  · intro pool c1 h hopen
    rcases new_game_ok h with ⟨_, rfl⟩ | ⟨pos, w, b, b1, _, _, hb, hb1, rfl⟩
    · cases hopen
    · obtain ⟨hlt, hset⟩ := buf_write_inv hb1
      exact ⟨w, b, rfl, hb, hlt, hset⟩
  · have hprobe : new_game_probe c.used_words [s] [s].length (r % [s].length) = .ok (some 0) := by
      have h0 : r % [s].length = 0 := by simp [Nat.mod_one]
      rw [h0]
      have := @new_game_probe_first c.used_words [s] [s].length 0 0
        (by simp) (by simp) (fun k hk => absurd hk (Nat.not_lt_zero k)) ⟨s, by simp, hfree⟩
      simpa using this
    unfold new_game
    rw [if_neg (by simp), hprobe]
    simp only [List.getElem?_cons_zero]
    rw [hbuf]
    simp only
    rw [hw]

theorem C25_terminator_write_at_L_plus_one_witness :
    strlen word49 = MAX_WORD_LENGTH - 1 ∧ contains freshClient.used_words word49 = false ∧
    word49.length + 1 = MAX_WORD_LENGTH ∧
    new_game [word49] 0 freshClient = .error Fault.outOfBounds ∧
    (∃ c1, new_game [word48] 0 freshClient = .ok c1 ∧
      c1.current_game.obscured_word = bufferOf (List.replicate 48 MASK)) :=
  ⟨by decide, by decide, by decide,
    (C25_terminator_write_at_L_plus_one word49 0 freshClient (by decide) (by decide)).2.2,
    ⟨_, rfl, by decide⟩⟩

/-- C28: the words readFile stores when the server calls it (maxLineLength = MAX_WORD_LENGTH, not
all characters) have at most MAX_WORD_LENGTH - 2 characters, so for each of them the indices
0..L-1 and L + 1 that new_game writes are below MAX_WORD_LENGTH: on such a pool new_game never
ends with an access outside the obscured word, and it returns when the pool holds a word. -/
theorem C28_loaded_words_keep_new_game_in_bounds (input : List Char) (pool : List Word)
    (r : Nat) (c : Client)
    (hread : readFile input [] MAX_WORD_LENGTH false = (0, pool)) :
    (∀ w ∈ pool, strlen w + 1 < MAX_WORD_LENGTH ∧
      ∃ buf, obscure_loop w (strlen w) 0 zeroGame.obscured_word = .ok buf ∧
        buf_write buf (strlen w + 1) NUL = .ok (buf.set (strlen w + 1) NUL)) ∧
    new_game pool r c ≠ .error Fault.outOfBounds ∧
    (pool ≠ [] → ∃ c1, new_game pool r c = .ok c1) := by
  have hM : MAX_WORD_LENGTH = 50 := rfl
  have hb := (readFile_loop_bound MAX_WORD_LENGTH false input [] []
    (fun w hw => by cases hw)).2
  have hpool : (readFile input [] MAX_WORD_LENGTH false).2 = pool := by rw [hread]
  have hfit : ∀ w ∈ pool, strlen w + 1 < MAX_WORD_LENGTH := by
    intro w hw
    have h1 : w.length + 2 ≤ MAX_WORD_LENGTH := by
      apply hb
      unfold readFile at hpool
      rw [hpool]
      exact hw
    have h2 := strlen_le_length w
    omega
  refine ⟨?_, ?_, ?_⟩
  · intro w hw
    refine ⟨hfit w hw, ?_⟩
    obtain ⟨buf, hbuf, _, _⟩ := obscure_loop_spec w (strlen w) 0
      zeroGame.obscured_word (by simp [zeroGame]) (by have := hfit w hw; omega)
    exact ⟨buf, hbuf, buf_write_ok NUL (hfit w hw)⟩
  · intro herr
    by_cases h0 : pool.length = 0
    · unfold new_game at herr
      rw [if_pos h0] at herr
      cases herr
    · obtain ⟨c1, hc1⟩ := new_game_total r c h0 hfit
      rw [hc1] at herr
      cases herr
  · intro hne
    exact new_game_total r c (by simpa using hne) hfit

theorem C28_loaded_words_keep_new_game_in_bounds_witness :
    readFile sampleInput [] MAX_WORD_LENGTH false = (0, [wordCAT, wordDOG, ['X', SPACE, 'Y']]) ∧
    new_game [wordCAT, wordDOG, ['X', SPACE, 'Y']] 2 freshClient ≠ .error Fault.outOfBounds ∧
    (∃ c1, new_game [wordCAT, wordDOG, ['X', SPACE, 'Y']] 2 freshClient = .ok c1) :=
  ⟨rfl,
    (C28_loaded_words_keep_new_game_in_bounds sampleInput [wordCAT, wordDOG, ['X', SPACE, 'Y']]
      2 freshClient rfl).2.1,
    (C28_loaded_words_keep_new_game_in_bounds sampleInput [wordCAT, wordDOG, ['X', SPACE, 'Y']]
      2 freshClient rfl).2.2 (by decide)⟩

/-- C29 (defect of the code): readFile returns 0 for the empty dictionary and for a dictionary
whose lines hold no letter, so the server accepts it with an empty word pool; the first
registration then makes new_game compute `rand() % 0`. -/
theorem C29_empty_dictionary_is_accepted :
    readFile [] [] MAX_WORD_LENGTH false = (0, []) ∧
    readFile ['4', '2', Char.ofNat 10, '-', Char.ofNat 10] [] MAX_WORD_LENGTH false = (0, []) ∧
    new_game [] 7 freshClient = .error Fault.divByZero ∧
    serve_all (initialServer []) [(Posting.request (-1) GameStatus.New NUL, 7)]
      = .error Fault.divByZero :=
  ⟨rfl, rfl, rfl, rfl⟩

/-! ## Claim C26: a matching letter tried twice -/

/-- C26: for a session with a secret that fits the obscured word and a letter that matches a
position of the secret, calculate_results returns, and a second call with the same letter returns
the session the first call has returned: obscured word, errors, status and all other fields are
the same; the first call already leaves errors as they were. -/
theorem C26_matching_letter_twice_is_once (c : Client) (t : Char) (s : Word)
    (hs : c.current_game.secret_word = some s)
    (hlen : c.current_game.obscured_word.length = MAX_WORD_LENGTH)
    (hfit : strlen s ≤ MAX_WORD_LENGTH)
    (hmatch : ∃ j, j < strlen s ∧ charAt s j = t) :
    ∃ c1, calculate_results c t = .ok c1 ∧ calculate_results c1 t = .ok c1 ∧
      c1.current_game.errors = c.current_game.errors := by
  have hne : matching_positions s t ≠ [] := by
    obtain ⟨j, hj, hjt⟩ := hmatch
    intro h
    exact (matching_positions_eq_nil.mp h) j hj hjt
  obtain ⟨buf1, error, won, hlen1, hpt1, herr1, hwon1, h1⟩ := calculate_results_spec c t s hs hlen hfit
  have he1 : error = false := by
    cases error with
    | false => rfl
    | true => exact absurd (herr1.mp rfl) hne
  subst he1
  simp only [Bool.false_eq_true, if_false] at h1
  -- the session after the first call, in both cases of `won`
  have key : ∀ (st : GameStatus),
      (won = true → st = GameStatus.Won) →
      calculate_results { c with current_game :=
          { c.current_game with obscured_word := buf1, status := st } } t
        = .ok { c with current_game :=
          { c.current_game with obscured_word := buf1, status := st } } := by
    intro st hst
    obtain ⟨buf2, error2, won2, hlen2, hpt2, herr2, hwon2, h2⟩ :=
      calculate_results_spec { c with current_game :=
          { c.current_game with obscured_word := buf1, status := st } } t s hs hlen1 hfit
    have he2 : error2 = false := by
      cases error2 with
      | false => rfl
      | true => exact absurd (herr2.mp rfl) hne
    subst he2
    have hbuf : buf2 = buf1 := by
      apply List.ext_getElem?
      intro j
      rw [hpt2 j]
      by_cases hj : j ∈ matching_positions s t
      · rw [if_pos hj, hpt1 j, if_pos hj]
      · rw [if_neg hj]
    subst hbuf
    have hw : won2 = won := by
      cases hw2 : won2 <;> cases hw1 : won
      · rfl
      · exact absurd (hwon2.mpr (hwon1.mp hw1)) (by rw [hw2]; simp)
      · exact absurd (hwon1.mpr (hwon2.mp hw2)) (by rw [hw1]; simp)
      · rfl
    subst hw
    rw [h2]
    simp only [Bool.false_eq_true, if_false]
    cases hw : won2 with
    | false => simp
    | true => simp [hst hw]
  cases hw : won with
  | false =>
    rw [hw] at h1
    simp only [Bool.false_eq_true, if_false] at h1
    refine ⟨_, h1, ?_, rfl⟩
    have := key c.current_game.status (fun h => by rw [hw] at h; cases h)
    simpa using this
  | true =>
    rw [hw] at h1
    simp only [if_true] at h1
    refine ⟨_, h1, ?_, rfl⟩
    have := key GameStatus.Won (fun _ => rfl)
    simpa using this

theorem C26_matching_letter_twice_is_once_witness :
    (catClient ['_', '_', '_'] GameStatus.Open 3).current_game.secret_word = some wordCAT ∧
    (∃ j, j < strlen wordCAT ∧ charAt wordCAT j = 'A') ∧
    calculate_results (catClient ['_', '_', '_'] GameStatus.Open 3) 'A'
      = .ok (catClient ['_', 'A', '_'] GameStatus.Open 3) ∧
    ∃ c1, calculate_results (catClient ['_', '_', '_'] GameStatus.Open 3) 'A' = .ok c1 ∧
      calculate_results c1 'A' = .ok c1 ∧ c1.current_game.errors = 3 :=
  ⟨rfl, ⟨1, by decide, by decide⟩, rfl,
    C26_matching_letter_twice_is_once (catClient ['_', '_', '_'] GameStatus.Open 3) 'A' wordCAT
      rfl (by decide) (by decide) ⟨1, by decide, by decide⟩⟩

/-! ## Claim C22: getParity -/

theorem xor_mod_uint16 {a b : Nat} (ha : a < UINT16_RANGE) (hb : b < UINT16_RANGE) :
    (a ^^^ b) % UINT16_RANGE = a ^^^ b :=
  Nat.mod_eq_of_lt (@Nat.xor_lt_two_pow a b 16 ha hb)

theorem xor_cancel_middle (p c a b : Nat) : (p ^^^ (c ^^^ a)) ^^^ (c ^^^ b) = p ^^^ (a ^^^ b) := by
  apply Nat.eq_of_testBit_eq
  intro i
  simp only [Nat.testBit_xor]
  cases p.testBit i <;> cases c.testBit i <;> cases a.testBit i <;> cases b.testBit i <;> rfl

/-- Two iterations of the loop of getParity: the colour is taken in twice and drops out. -/
theorem getParity_loop_two (color p o n : Nat) (hc : color < UINT16_RANGE)
    (hp : p < UINT16_RANGE) (ho : o < UINT16_RANGE) :
    getParity_loop color (n + 2) p o
      = getParity_loop color n (p ^^^ (o ^^^ ((o <<< 1) % UINT16_RANGE)))
          ((((o <<< 1) % UINT16_RANGE) <<< 1) % UINT16_RANGE) := by
  have ho2 : (o <<< 1) % UINT16_RANGE < UINT16_RANGE := Nat.mod_lt _ (by decide)
  have h1 : color ^^^ o < UINT16_RANGE := @Nat.xor_lt_two_pow color o 16 hc ho
  have h2 : p ^^^ (color ^^^ o) < UINT16_RANGE := @Nat.xor_lt_two_pow p _ 16 hp h1
  have h3 : color ^^^ ((o <<< 1) % UINT16_RANGE) < UINT16_RANGE :=
    @Nat.xor_lt_two_pow color _ 16 hc ho2
  simp only [getParity_loop]
  rw [xor_mod_uint16 hp h1, xor_mod_uint16 h2 h3, xor_cancel_middle]

/-- The result of getParity does not depend on the colour. -/
theorem getParity_const (color : Nat) (hc : color < UINT16_RANGE) : getParity color = 16383 := by
  unfold getParity
  rw [getParity_loop_two color 0 1 12 hc (by decide) (by decide)]
  rw [getParity_loop_two color _ _ 10 hc (by decide) (by decide)]
  rw [getParity_loop_two color _ _ 8 hc (by decide) (by decide)]
  rw [getParity_loop_two color _ _ 6 hc (by decide) (by decide)]
  rw [getParity_loop_two color _ _ 4 hc (by decide) (by decide)]
  rw [getParity_loop_two color _ _ 2 hc (by decide) (by decide)]
  rw [getParity_loop_two color _ _ 0 hc (by decide) (by decide)]
  rfl

/-- C22 (defect of the code): getParity returns 0x3FFF for the colour 0x0000 that nextGuess
passes, and for the colour 0x0001 as well, while the parity bits of these two colours are 0
and 1: the result is not a single bit and does not tell colours of different parity apart. The
guess that nextGuess sends is 0x3FFF. -/
theorem C22_getParity_is_not_a_parity_bit :
    getParity 0 = 16383 ∧ getParity 1 = 16383 ∧
    spec_parity_bit 0 = 0 ∧ spec_parity_bit 1 = 1 ∧ nextGuess = 16383 :=
  ⟨by decide, by decide, by decide, by decide, by decide⟩

/-! ## Claim C23: the cipher of Task1A -/

theorem isUpper_iff (c : Char) : c.isUpper = true ↔ 65 ≤ c.toNat ∧ c.toNat ≤ 90 := by
  unfold Char.isUpper Char.toNat
  simp only [Bool.and_eq_true, decide_eq_true_eq, ge_iff_le]
  rw [UInt32.le_def, UInt32.le_def]
  rfl

theorem char_eq_ofNat (c : Char) (n : Nat) (h : c.toNat = n) : c = Char.ofNat n := by
  rw [← h, Char.ofNat_toNat]

/-- The round trip for the code of an upper-case letter. -/
theorem decrypt_encrypt_upper (n : Nat) (h1 : 65 ≤ n) (h2 : n ≤ 90) :
    decryptChar (encryptChar (Char.ofNat n)) = (Char.ofNat n).toLower := by
  interval_cases n <;> rfl

/-- The round trip for the code of a lower-case letter. -/
theorem decrypt_encrypt_lower (n : Nat) (h1 : 97 ≤ n) (h2 : n ≤ 122) :
    decryptChar (encryptChar (Char.ofNat n)) = Char.ofNat n := by
  interval_cases n <;> rfl

/-- C23: for a letter, a space or a dot, decryptChar gives back what encryptChar has encoded:
the character itself for space, dot and lower-case letters, the lower-case form for upper-case
letters; the table has 28 code words and no two of them are equal. -/
theorem C23_decryptChar_inverts_encryptChar (c : Char)
    (hc : c.isAlpha = true ∨ c = Char.ofNat 32 ∨ c = Char.ofNat 46) :
    decryptChar (encryptChar c) = (if c.isUpper = true then c.toLower else c) ∧
    chiffre.length = 28 ∧ chiffre.Nodup := by
  refine ⟨?_, rfl, by decide⟩
  rcases hc with h | h | h
  · unfold Char.isAlpha at h
    rcases Bool.or_eq_true _ _ ▸ h with hu | hl
    · rw [if_pos hu]
      obtain ⟨h1, h2⟩ := (isUpper_iff c).mp hu
      rw [char_eq_ofNat c c.toNat rfl]
      exact decrypt_encrypt_upper _ h1 h2
    · obtain ⟨h1, h2⟩ := (isLower_iff c).mp hl
      have hnu : ¬ c.isUpper = true := by
        intro hu
        have := (isUpper_iff c).mp hu
        omega
      rw [if_neg hnu, char_eq_ofNat c c.toNat rfl]
      exact decrypt_encrypt_lower _ h1 h2
  · subst h; rfl
  · subst h; rfl

theorem C23_decryptChar_inverts_encryptChar_witness :
    encryptChar 'G' = ['U', 'h', 'r'] ∧ decryptChar ['U', 'h', 'r'] = 'g' ∧
    decryptChar (encryptChar 'G') = (if 'G'.isUpper = true then 'G'.toLower else 'G') :=
  ⟨by decide, by decide, (C23_decryptChar_inverts_encryptChar 'G' (Or.inl (by decide))).1⟩

/-! ## Claim C27: trimStr -/

theorem strlen_nil_of_head_NUL (rest : List Char) : strlen (NUL :: rest) = 0 := by
  unfold strlen cstr
  simp

/-- The length of a string that is followed by its terminator. -/
theorem strlen_append_NUL (body rest : List Char) (hb : ∀ ch ∈ body, ch ≠ NUL) :
    strlen (body ++ NUL :: rest) = body.length := by
  apply strlen_of_pointwise
  · intro j hj
    refine ⟨body[j], ?_, hb _ (List.getElem_mem hj)⟩
    rw [List.getElem?_append_left hj, List.getElem?_eq_getElem hj]
  · rw [List.getElem?_append_right (le_refl _)]
    simp

theorem NEWLINE_ne_NUL : NEWLINE ≠ NUL := by decide

/-- On a string that holds only newline characters (none for the empty string) trimStr removes
them one by one and then reads the array at index `SIZE_MAX`. -/
theorem trimStr_loop_blank (k : Nat) :
    ∀ (n : Nat) (rest : List Char), k + 1 ≤ n → k + 1 + rest.length < SIZE_RANGE →
      trimStr_loop n (List.replicate k NEWLINE ++ NUL :: rest) = some (.error .outOfBounds) := by
  have hS : SIZE_RANGE = 18446744073709551616 := rfl
  induction k with
  | zero =>
    intro n rest hn hlen
    obtain ⟨m, rfl⟩ : ∃ m, n = m + 1 := ⟨n - 1, by omega⟩
    have hidx : (0 + SIZE_RANGE - 1) % SIZE_RANGE = SIZE_RANGE - 1 := by decide
    unfold trimStr_loop
    simp only [List.replicate_zero, List.nil_append, strlen_nil_of_head_NUL, hidx]
    rw [if_neg]
    simp only [List.length_cons]
    omega
  | succ k ih =>
    intro n rest hn hlen
    obtain ⟨m, rfl⟩ : ∃ m, n = m + 1 := ⟨n - 1, by omega⟩
    have hstr : strlen (List.replicate (k + 1) NEWLINE ++ NUL :: rest) = k + 1 := by
      rw [strlen_append_NUL _ _ (fun ch hch => by
        rw [List.eq_of_mem_replicate hch]; exact NEWLINE_ne_NUL)]
      simp
    have hidx : (k + 1 + SIZE_RANGE - 1) % SIZE_RANGE = k := by
      rw [show k + 1 + SIZE_RANGE - 1 = k + SIZE_RANGE by omega, Nat.add_mod_right]
      exact Nat.mod_eq_of_lt (by omega)
    have hget : (List.replicate (k + 1) NEWLINE ++ NUL :: rest).getD k NUL = NEWLINE := by
      rw [List.getD_eq_getElem?_getD, List.getElem?_append_left (by simp)]
      simp
    have hset : (List.replicate (k + 1) NEWLINE ++ NUL :: rest).set k NUL
        = List.replicate k NEWLINE ++ NUL :: (NUL :: rest) := by
      rw [List.replicate_succ', List.append_assoc, List.set_append_right _ _ (by simp)]
      simp
    unfold trimStr_loop
    simp only [hstr, hidx]
    rw [if_pos (by simp; omega), if_pos hget, hset]
    exact ih m (NUL :: rest) (by omega) (by simp only [List.length_cons]; omega)

theorem strlen_line (body : List Char) (last : Char) (hb : ∀ ch ∈ body, ch ≠ NUL)
    (hl : last ≠ NUL) (k : Nat) (rest : List Char) :
    strlen (body ++ last :: (List.replicate k NEWLINE ++ NUL :: rest))
      = body.length + 1 + k := by
  have := strlen_append_NUL (body ++ last :: List.replicate k NEWLINE) rest (by
    intro ch hch
    rcases List.mem_append.mp hch with h | h
    · exact hb ch h
    · rcases List.mem_cons.mp h with h | h
      · rw [h]; exact hl
      · rw [List.eq_of_mem_replicate h]; exact NEWLINE_ne_NUL)
  simp only [List.append_assoc, List.cons_append, List.length_append, List.length_cons,
    List.length_replicate] at this
  rw [this]
  omega

/-- On a string with a last character other than newline in front of its trailing newlines,
trimStr returns and has put terminators in the place of exactly these newlines. -/
theorem trimStr_loop_spec (body : List Char) (last : Char) (hb : ∀ ch ∈ body, ch ≠ NUL)
    (hl : last ≠ NUL) (hn : last ≠ NEWLINE) (k : Nat) :
    ∀ (n : Nat) (rest : List Char), k + 1 ≤ n →
      body.length + 1 + k + 1 + rest.length < SIZE_RANGE →
      trimStr_loop n (body ++ last :: (List.replicate k NEWLINE ++ NUL :: rest))
        = some (.ok (body ++ last :: (List.replicate (k + 1) NUL ++ rest))) := by
  have hS : SIZE_RANGE = 18446744073709551616 := rfl
  have hstr := strlen_line body last hb hl
  induction k with
  | zero =>
    intro n rest hn1 hlen
    obtain ⟨m, rfl⟩ : ∃ m, n = m + 1 := ⟨n - 1, by omega⟩
    have hidx : (body.length + 1 + 0 + SIZE_RANGE - 1) % SIZE_RANGE = body.length := by
      rw [show body.length + 1 + 0 + SIZE_RANGE - 1 = body.length + SIZE_RANGE by omega,
        Nat.add_mod_right]
      exact Nat.mod_eq_of_lt (by omega)
    have hget : (body ++ last :: (List.replicate 0 NEWLINE ++ NUL :: rest)).getD body.length NUL
        = last := by
      rw [List.getD_eq_getElem?_getD, List.getElem?_append_right (le_refl _)]
      simp
    unfold trimStr_loop
    simp only [hstr, hidx]
    rw [if_pos (by simp), if_neg (by rw [hget]; exact hn)]
    simp
  | succ k ih =>
    intro n rest hn1 hlen
    obtain ⟨m, rfl⟩ : ∃ m, n = m + 1 := ⟨n - 1, by omega⟩
    have hidx : (body.length + 1 + (k + 1) + SIZE_RANGE - 1) % SIZE_RANGE
        = body.length + 1 + k := by
      rw [show body.length + 1 + (k + 1) + SIZE_RANGE - 1 = body.length + 1 + k + SIZE_RANGE
        by omega, Nat.add_mod_right]
      exact Nat.mod_eq_of_lt (by omega)
    have hget : (body ++ last :: (List.replicate (k + 1) NEWLINE ++ NUL :: rest)).getD
        (body.length + 1 + k) NUL = NEWLINE := by
      rw [List.getD_eq_getElem?_getD, List.getElem?_append_right (by omega),
        show body.length + 1 + k - body.length = k + 1 by omega, List.getElem?_cons_succ,
        List.getElem?_append_left (by simp)]
      simp
    have hset : (body ++ last :: (List.replicate (k + 1) NEWLINE ++ NUL :: rest)).set
        (body.length + 1 + k) NUL
        = body ++ last :: (List.replicate k NEWLINE ++ NUL :: (NUL :: rest)) := by
      rw [List.set_append_right _ _ (by omega),
        show body.length + 1 + k - body.length = k + 1 by omega, List.set_cons_succ,
        List.replicate_succ', List.append_assoc, List.set_append_right _ _ (by simp)]
      simp
    unfold trimStr_loop
    simp only [hstr, hidx]
    have hrep : List.replicate (k + 1) NUL ++ NUL :: rest
        = List.replicate (k + 1 + 1) NUL ++ rest := by
      rw [List.replicate_succ' (k + 1), List.append_assoc]
      rfl
    rw [if_pos (by simp; omega), if_pos hget, hset,
      ih m (NUL :: rest) (by omega) (by simp only [List.length_cons]; omega), hrep]

/-- Function trimStr on a string of newline characters only. -/
theorem trimStr_blank (k : Nat) (rest : List Char) (hlen : k + 1 + rest.length < SIZE_RANGE) :
    trimStr (List.replicate k NEWLINE ++ NUL :: rest) = some (.error .outOfBounds) := by
  unfold trimStr
  exact trimStr_loop_blank k _ rest (by
    rw [strlen_append_NUL _ _ (fun ch hch => by
      rw [List.eq_of_mem_replicate hch]; exact NEWLINE_ne_NUL)]
    simp) hlen

/-- Function trimStr on a string that holds a character other than newline in front of its
trailing newlines. -/
theorem trimStr_spec (body : List Char) (last : Char) (hb : ∀ ch ∈ body, ch ≠ NUL)
    (hl : last ≠ NUL) (hn : last ≠ NEWLINE) (k : Nat) (rest : List Char)
    (hlen : body.length + 1 + k + 1 + rest.length < SIZE_RANGE) :
    trimStr (body ++ last :: (List.replicate k NEWLINE ++ NUL :: rest))
      = some (.ok (body ++ last :: (List.replicate (k + 1) NUL ++ rest))) := by
  unfold trimStr
  exact trimStr_loop_spec body last hb hl hn k _ rest
    (by rw [strlen_line body last hb hl]; omega) hlen

/-- C27 (defect of the code): for the blank line that fgets hands to startWorker (a newline and
the terminator) trimStr removes the newline and then, with the string empty, reads the array at
index `strlen(str) - 1` = SIZE_MAX, outside the string; the empty string gives this read at
once. A line with a character in front of the newline is trimmed inside the string. -/
theorem C27_trimStr_reads_outside_an_empty_string :
    trimStr blankLine = some (.error Fault.outOfBounds) ∧
    trimStr [NUL] = some (.error Fault.outOfBounds) ∧
    trimStr [NEWLINE, NEWLINE, NUL] = some (.error Fault.outOfBounds) ∧
    trimStr lsLine = some (.ok ['l', 's', NUL, NUL]) :=
  ⟨rfl, rfl, rfl, rfl⟩

/-! ## Claim C6: the counter at its largest value -/

/-- A non-matching guess on the Lost session of CAT counts one more error. -/
theorem calculate_results_lost_step (m : Nat) (h9 : 9 ≤ m + 1) (hm : m + 1 < UINT_RANGE) :
    calculate_results (catClient ['C', 'A', 'T'] GameStatus.Lost m) 'X'
      = .ok (catClient ['C', 'A', 'T'] GameStatus.Lost (m + 1)) := by
  have hE : MAX_ERROR = 9 := rfl
  rw [calculate_results_nonmatching (catClient ['C', 'A', 'T'] GameStatus.Lost m) 'X' wordCAT
    rfl rfl (by decide) (by decide)]
  have hmod : (m + 1) % UINT_RANGE = m + 1 := Nat.mod_eq_of_lt hm
  have hge : ((catClient ['C', 'A', 'T'] GameStatus.Lost m).current_game.errors + 1) % UINT_RANGE
      ≥ MAX_ERROR := by
    show (m + 1) % UINT_RANGE ≥ MAX_ERROR
    rw [hmod]; omega
  rw [if_pos hge]
  show Except.ok { catClient ['C', 'A', 'T'] GameStatus.Lost m with
    current_game :=
      { (catClient ['C', 'A', 'T'] GameStatus.Lost m).current_game with
        obscured_word := strncpy (bufferOf ['C', 'A', 'T']) wordCAT MAX_WORD_LENGTH
        status := GameStatus.Lost
        errors := (m + 1) % UINT_RANGE } } = _
  rw [hmod]
  have hcopy : strncpy (bufferOf ['C', 'A', 'T']) wordCAT MAX_WORD_LENGTH
      = bufferOf ['C', 'A', 'T'] := by decide
  rw [hcopy]
  rfl

/-- Further non-matching guesses on the Lost session of CAT only count. -/
theorem play_guesses_lost (k : Nat) :
    ∀ m, 9 ≤ m → m + k < UINT_RANGE →
      play_guesses (catClient ['C', 'A', 'T'] GameStatus.Lost m) (List.replicate k 'X')
        = .ok (catClient ['C', 'A', 'T'] GameStatus.Lost (m + k)) := by
  induction k with
  | zero => intro m _ _; rfl
  | succ k ih =>
    intro m h9 hm
    rw [List.replicate_succ]
    unfold play_guesses
    rw [calculate_results_lost_step m (by omega) (by omega)]
    simp only
    rw [ih (m + 1) (by omega) (by omega)]
    congr 2
    omega

/-- A new game on CAT and n non-matching guesses, 9 or more: the session is Lost and has
counted every guess. -/
theorem play_guesses_wrong (n : Nat) (h9 : 9 ≤ n) (hn : n < UINT_RANGE) :
    new_game [wordCAT] 0 freshClient = .ok (catClient ['_', '_', '_'] GameStatus.Open 0) ∧
    play_guesses (catClient ['_', '_', '_'] GameStatus.Open 0) (List.replicate n 'X')
      = .ok (catClient ['C', 'A', 'T'] GameStatus.Lost n) := by
  refine ⟨rfl, ?_⟩
  obtain ⟨k, rfl⟩ : ∃ k, n = 9 + k := ⟨n - 9, by omega⟩
  rw [List.replicate_add, play_guesses_append]
  have h0 : play_guesses (catClient ['_', '_', '_'] GameStatus.Open 0) (List.replicate 9 'X')
      = .ok (catClient ['C', 'A', 'T'] GameStatus.Lost 9) := rfl
  rw [h0]
  exact play_guesses_lost k 9 (le_refl _) hn

/-- C6 as stated fails when the unsigned counter has reached its largest value: after a new game
on CAT and 4294967295 guesses of X, which matches no position (the server evaluates them also
after the game is Lost), the session has errorCount 4294967295; one more guess of X makes the
errorCount 0, not one more than before. -/
theorem C6_counterexample_counter_wraps :
    matching_positions wordCAT 'X' = [] ∧
    ∃ c0 c c1, new_game [wordCAT] 0 freshClient = .ok c0 ∧
      play_guesses c0 (List.replicate 4294967295 'X') = .ok c ∧
      c.current_game.errors = 4294967295 ∧
      calculate_results c 'X' = .ok c1 ∧
      c1.current_game.errors = 0 ∧
      c1.current_game.errors ≠ c.current_game.errors + 1 :=
  ⟨by decide, catClient ['_', '_', '_'] GameStatus.Open 0,
    catClient ['C', 'A', 'T'] GameStatus.Lost 4294967295,
    catClient ['C', 'A', 'T'] GameStatus.Lost 0,
    (play_guesses_wrong 4294967295 (by decide) (by decide)).1,
    (play_guesses_wrong 4294967295 (by decide) (by decide)).2, rfl, rfl, rfl, by decide⟩

/-! ## Claim C13: a table that holds an identifier twice -/

theorem serve_all_cons (sv : Server) (p : Posting) (rand : Nat) (rest : List (Posting × Nat)) :
    serve_all sv ((p, rand) :: rest) =
      match serve_request rand { sv with shared := write_posting sv.shared p } with
      | .error e => .error e
      | .ok sv1 => serve_all sv1 rest := rfl

/-- A client registers, then so many clients leave before they were registered that the counter
is back at 0, then a client registers: the table holds the identifier 0 twice. -/
theorem serve_all_duplicate_identifier (n : Nat) (hn : (1 + n) % UINT_RANGE = 0) :
    ∃ sv, serve_all (initialServer [wordCAT])
        ((Posting.request (-1) GameStatus.New NUL, 0) ::
          (List.replicate n (Posting.termination (-1), 0) ++
            [(Posting.request (-1) GameStatus.New NUL, 0)])) = .ok sv ∧
      sv.clients = [catClient ['_', '_', '_'] GameStatus.Open 0,
        catClient ['_', '_', '_'] GameStatus.Open 0] := by
  obtain ⟨svA, hA, hclA, hcntA, hwbA, htermA⟩ : ∃ svA,
      serve_request 0 { initialServer [wordCAT] with
        shared := write_posting (initialServer [wordCAT]).shared
          (Posting.request (-1) GameStatus.New NUL) } = .ok svA ∧
      svA.clients = [catClient ['_', '_', '_'] GameStatus.Open 0] ∧
      svA.client_count = 1 ∧ svA.word_buffer = [wordCAT] ∧ svA.shared.terminate = false :=
    ⟨_, rfl, rfl, rfl, rfl, rfl⟩
  obtain ⟨sv1, hrun, hcl, hcnt, hwb, hterm⟩ :=
    serve_all_replicate_termination 0 n svA (by rw [hcntA]; decide) htermA
  have hcnt0 : sv1.client_count = 0 := by rw [hcnt, hcntA, hn]
  have hcl0 : sv1.clients = [catClient ['_', '_', '_'] GameStatus.Open 0] := by rw [hcl, hclA]
  have hwb0 : sv1.word_buffer = [wordCAT] := by rw [hwb, hwbA]
  rw [serve_all_cons, hA]
  simp only
  rw [serve_all_append, hrun]
  have hd : dispatch
      { sv1 with shared := write_posting sv1.shared (Posting.request (-1) GameStatus.New NUL) }
      0 { clientID := to_int sv1.client_count, used_words := [], current_game := zeroGame }
      = .ok (catClient ['_', '_', '_'] GameStatus.Open 0) := by
    unfold dispatch
    simp only [write_posting, hwb0, hcnt0]
    rfl
  have hreg : ∃ sv2, serve_request 0
      { sv1 with shared := write_posting sv1.shared (Posting.request (-1) GameStatus.New NUL) }
      = .ok sv2 ∧ sv2.clients = [catClient ['_', '_', '_'] GameStatus.Open 0,
        catClient ['_', '_', '_'] GameStatus.Open 0] := by
    rw [serve_request_register (by rfl)]
    split
    · rename_i ht
      have ht2 : sv1.shared.terminate = true := ht
      rw [hterm] at ht2
      cases ht2
    · rw [hd]
      exact ⟨_, rfl, by simp only [hcl0]⟩
  obtain ⟨sv2, hsv2, hcl2⟩ := hreg
  refine ⟨sv2, ?_, hcl2⟩
  show serve_all sv1 [(Posting.request (-1) GameStatus.New NUL, 0)] = .ok sv2
  rw [serve_all_cons, hsv2]
  rfl

/-- The terminate request for 0 on a table that holds the identifier 0 twice removes the first
of the two sessions. -/
theorem serve_all_terminate_duplicate (sv : Server) (a b : Client)
    (hcl : sv.clients = [a, b]) (ha : a.clientID = 0) :
    ∃ sv1, serve_all sv [(Posting.termination 0, 0)] = .ok sv1 ∧ sv1.clients = [b] := by
  have hf : find_client
      ({ sv with shared := write_posting sv.shared (Posting.termination 0) } : Server).shared.clientID
      ({ sv with shared := write_posting sv.shared (Posting.termination 0) } : Server).clients
      = some ([], a, [b]) := by
    show find_client 0 sv.clients = some ([], a, [b])
    rw [hcl]
    unfold find_client
    rw [if_pos ha]
  rw [serve_all_cons, serve_request_found (by show (0 : Int) ≠ -1; decide) hf]
  rw [if_pos (by rfl)]
  exact ⟨_, rfl, rfl⟩

/-- C13 as stated fails on a table that holds an identifier twice, which the server builds once
its counter has wrapped: a client registers (identifier 0), 4294967295 clients leave before they
were registered, and the next client that registers gets the identifier 0 again. The terminate
request for 0 then removes the newer of the two sessions, and a later lookup of 0 still finds a
session. -/
theorem C13_counterexample_identifier_held_twice :
    ∃ sv sv1, serve_all (initialServer [wordCAT])
        ((Posting.request (-1) GameStatus.New NUL, 0) ::
          (List.replicate 4294967295 (Posting.termination (-1), 0) ++
            [(Posting.request (-1) GameStatus.New NUL, 0)])) = .ok sv ∧
      sv.clients.map (fun c => c.clientID) = [0, 0] ∧
      serve_all sv [(Posting.termination 0, 0)] = .ok sv1 ∧
      sv1.clients.map (fun c => c.clientID) = [0] ∧
      find_client 0 sv1.clients ≠ none := by
  obtain ⟨sv, hrun, hcl⟩ := serve_all_duplicate_identifier 4294967295 (by decide)
  obtain ⟨sv1, hrun1, hcl1⟩ := serve_all_terminate_duplicate sv _ _ hcl rfl
  refine ⟨sv, sv1, hrun, by rw [hcl]; rfl, hrun1, by rw [hcl1]; rfl, ?_⟩
  rw [hcl1]
  decide

/-! ## Claim C15: the answer a requester reads -/

/-- C15 (defect of the code): after the run interruptedRun of a first client (its wait for the
answer was interrupted when the request was already signalled) the server has posted return_sem
for an answer nobody reads. A second client then passes `sem_wait(return_sem)` right after it
has written its register request, before any pass of the server: it reads back its own request
(identifier -1, status New) as the answer and releases the mailbox while its request is still
pending (server_sem is 1). After the run normalRun the same two steps block until the server
has served the request, and the client then reads the answer to it (identifier 1, status Open). -/
theorem C15_leaked_permit_answers_the_next_requester :
    (∃ sv p, run_schedule (initialServer [wordCAT], initialClient) interruptedRun
        = some (.ok (sv, p)) ∧
      (run_schedule (sv, initialClient) [.send, .receive]).map
          (fun r => r.map (fun w => (counters w.1, w.1.clients.length, w.2)))
        = some (.ok ((1, 1, 0), 0, initialClient))) ∧
    (∃ sv p, run_schedule (initialServer [wordCAT], initialClient) normalRun
        = some (.ok (sv, p)) ∧
      (run_schedule (sv, initialClient) [.send, .receive]).map
          (fun r => r.map (fun w => (counters w.1, w.1.clients.length, w.2))) = none ∧
      (run_schedule (sv, initialClient) [.send, .server 0, .receive]).map
          (fun r => r.map (fun w => (counters w.1, w.1.clients.length, w.2)))
        = some (.ok ((0, 1, 0), 1,
            { clientID := 1, game_status := GameStatus.Open, c := NUL }))) :=
  ⟨⟨_, _, rfl, rfl⟩, ⟨_, _, rfl, rfl, rfl⟩⟩

end Hangman
